import Mathlib

/-! Graph viewpoint finder.

A shallow embedding of `src/a.cpp` (struct `Graph`, `read_initial_graph`,
`getViewPoint`) together with theorems about it.

Conventions of the embedding.

* Vertex ids, `V` and `E` are C++ `int`s and are `Int` here.
* `std::map<int, std::vector<int>>` is an association list kept in ascending
  key order; `operator[]` on a non-const map inserts an empty vector under a
  missing key, which is modelled by `AdjMap.index`.
* `std::vector<bool>(V, 0)` is a `List Bool` of length `V`; an index outside
  it is undefined behaviour and is reported as `Fault.outOfBounds`.
* `new int[V]` is a `List (Option Int)` whose cells start as `none`
  (indeterminate); reading such a cell is reported as `Fault.uninitialised`.
* The recursive lambdas take a fuel argument bounding the recursion depth;
  the callers pass a bound that is proved sufficient.
* The input file `ex4.in` is given by the numbers it holds: `V`, `E` and the
  pairs that follow. `read_initial_graph` extracts `E` pairs; `FileHolds`
  says that the file holds them and that every number is a value of `int`.
-/

namespace ViewPoint

/-- Ways in which a run of the embedded program can go wrong. -/
inductive Fault
  | outOfBounds
  | uninitialised
  | lengthError
  | emptyFront
  | outOfFuel
  deriving DecidableEq, Repr

deriving instance DecidableEq for Except

/-! ## `std::map<int, std::vector<int>>` -/

/-- The adjacency container: entries in ascending key order. -/
abbrev AdjMap := List (Int × List Int)

namespace AdjMap

/-- Whether `k` is a key of the map. -/
def hasKey (m : AdjMap) (k : Int) : Bool := m.any (fun p => p.1 == k)

/-- The vector stored under `k`; empty when `k` is not a key. -/
def find : AdjMap → Int → List Int
  | [], _ => []
  | (k', l) :: rest, k => if k = k' then l else find rest k

/-- Insertion of a fresh key with an empty vector, at its place in key order. -/
def insertKey : AdjMap → Int → AdjMap
  | [], k => [(k, [])]
  | (k', l) :: rest, k =>
    if k < k' then (k, []) :: (k', l) :: rest else (k', l) :: insertKey rest k

/-- The effect of `m[k]` on the map: a missing key is inserted. -/
def index (m : AdjMap) (k : Int) : AdjMap := if m.hasKey k then m else m.insertKey k

/-- Appends `v` to the vector stored under the first entry with key `k`. -/
def appendAt : AdjMap → Int → Int → AdjMap
  | [], _, _ => []
  | (k', l) :: rest, k, v =>
    if k = k' then (k', l ++ [v]) :: rest else (k', l) :: appendAt rest k v

/-- The statement `m[k].push_back(v)`. -/
def pushBack (m : AdjMap) (k v : Int) : AdjMap := (m.index k).appendAt k v

/-- The keys of the map, in iteration order. -/
def keys (m : AdjMap) : List Int := m.map Prod.fst

/-- All edges `(u, v)` of the map, in iteration order, with multiplicity. -/
def edges (m : AdjMap) : List (Int × Int) := m.flatMap (fun p => p.2.map (fun v => (p.1, v)))

/-- The invariant of `std::map`: keys strictly ascending. -/
def Ordered (m : AdjMap) : Prop := m.Pairwise (fun p q => p.1 < q.1)

instance (m : AdjMap) : Decidable m.Ordered := by unfold Ordered; infer_instance

end AdjMap

/-! ## `std::vector<bool>` and `int*` -/

/-- The read `vis[u]` of a `std::vector<bool>`. -/
def vecGet (vis : List Bool) (u : Int) : Except Fault Bool :=
  if 0 ≤ u ∧ u < vis.length then .ok (vis.getD u.toNat false) else .error .outOfBounds

/-- The write `vis[u] = b` of a `std::vector<bool>`. -/
def vecSet (vis : List Bool) (u : Int) (b : Bool) : Except Fault (List Bool) :=
  if 0 ≤ u ∧ u < vis.length then .ok (vis.set u.toNat b) else .error .outOfBounds

/-- The construction `std::vector<bool> vis(V, 0)`. -/
def vecMake (V : Int) : Except Fault (List Bool) :=
  if 0 ≤ V then .ok (List.replicate V.toNat false) else .error .lengthError

/-- The allocation `new int[V]`: every cell indeterminate. -/
def arrMake (V : Int) : Except Fault (List (Option Int)) :=
  if 0 ≤ V then .ok (List.replicate V.toNat none) else .error .lengthError

/-- The read `roots[u]`. -/
def arrGet (roots : List (Option Int)) (u : Int) : Except Fault Int :=
  if 0 ≤ u ∧ u < roots.length then
    match roots.getD u.toNat none with
    | some r => .ok r
    | none => .error .uninitialised
  else .error .outOfBounds

/-- The write `roots[u] = r`. -/
def arrSet (roots : List (Option Int)) (u r : Int) : Except Fault (List (Option Int)) :=
  if 0 ≤ u ∧ u < roots.length then .ok (roots.set u.toNat (some r)) else .error .outOfBounds

/-! ## `std::unordered_map<int, bool>` and `std::unordered_map<int, int>` -/

/-- The visited table of `visits_all`. It is never iterated, so the order of
its entries is immaterial. -/
abbrev VisMap := List (Int × Bool)

namespace VisMap

/-- The value stored under `k`, `false` when `k` is absent. -/
def get : VisMap → Int → Bool
  | [], _ => false
  | (k', b) :: rest, k => if k = k' then b else get rest k

/-- The effect of reading `vis[k]` on the table: a missing key is inserted
with value `false`. -/
def index (m : VisMap) (k : Int) : VisMap :=
  if m.any (fun p => p.1 == k) then m else m ++ [(k, false)]

/-- The statement `vis[k] = b`. -/
def assign : VisMap → Int → Bool → VisMap
  | [], k, b => [(k, b)]
  | (k', b') :: rest, k, b => if k = k' then (k', b) :: rest else (k', b') :: assign rest k b

end VisMap

/-- The in-degree table of `getSourceSCC`. -/
abbrev DegMap := List (Int × Int)

namespace DegMap

/-- The effect of `in_deg[k]`: a missing key is inserted with value `0`. -/
def index (t : DegMap) (k : Int) : DegMap :=
  if t.any (fun p => p.1 == k) then t else t ++ [(k, 0)]

/-- The statement `++in_deg[v]`. -/
def incr : DegMap → Int → DegMap
  | [], v => [(v, 1)]
  | (k, c) :: rest, v => if v = k then (k, c + 1) :: rest else (k, c) :: incr rest v

end DegMap

/-! ## `struct Graph` -/

/-- The fields of `struct Graph`. -/
structure Graph where
  V : Int
  E : Int
  adj : AdjMap
  deriving DecidableEq, Repr

/-- The function `read_initial_graph`, on the numbers held by the file: `V`,
`E` and the pairs `es` that follow them. The loop `for (i = 0; i < G->E; ++i)`
runs `E` times and extracts one pair each time, so the first `E` pairs are
read and whatever follows them in the file is never read; a negative `E`
reads none. The file is taken to hold the `E` pairs it announces, every number
in the range of `int`, so that each extraction succeeds (`FileHolds`). -/
def read_initial_graph (V E : Int) (es : List (Int × Int)) : Graph :=
  { V := V, E := E, adj := (es.take E.toNat).foldl (fun m e => m.pushBack e.1 e.2) [] }

namespace Graph

/-- The method `getTranspose`. -/
def getTranspose (G : Graph) : Graph :=
  { V := G.V, E := G.E,
    adj := G.adj.foldl
      (fun gt p => p.2.foldl (fun gt v => AdjMap.pushBack gt v p.1) (AdjMap.index gt p.1)) [] }

/-- The variables captured by the lambda `buildTopo`. -/
structure TopoState where
  adj : AdjMap
  vis : List Bool
  stk : List Int
  deriving DecidableEq, Repr

/-- The lambda `buildTopo` of `getTopoSort`; the head of `stk` is the top. -/
def buildTopo : Nat → Int → TopoState → Except Fault TopoState
  | 0, _, _ => .error .outOfFuel
  | fuel + 1, u, s => do
    let vis ← vecSet s.vis u true
    let adj := s.adj.index u
    let s ← (adj.find u).foldlM
      (fun s v => do
        if !(← vecGet s.vis v) then buildTopo fuel v s else pure s)
      { s with vis := vis, adj := adj }
    pure { s with stk := u :: s.stk }

/-- The method `getTopoSort`: the stack, and the graph as the call leaves it. -/
def getTopoSort (G : Graph) : Except Fault (List Int × Graph) := do
  let vis ← vecMake G.V
  let s ← (List.range G.V.toNat).foldlM
    (fun s (u : Nat) => do
      if !(← vecGet s.vis u) then buildTopo G.V.toNat u s else pure s)
    { adj := G.adj, vis := vis, stk := [] }
  pure (s.stk, { G with adj := s.adj })

/-- The variables captured by the lambda `buildGraph`. -/
structure SccState where
  adjT : AdjMap
  vis : List Bool
  component : List Int
  deriving DecidableEq, Repr

/-- The lambda `buildGraph` of `getSCCRoots`. -/
def buildGraph : Nat → Int → SccState → Except Fault SccState
  | 0, _, _ => .error .outOfFuel
  | fuel + 1, u, s => do
    let vis ← vecSet s.vis u true
    let component := s.component ++ [u]
    let adjT := s.adjT.index u
    (adjT.find u).foldlM
      (fun s v => do
        if !(← vecGet s.vis v) then buildGraph fuel v s else pure s)
      { adjT := adjT, vis := vis, component := component }

/-- The locals of `getSCCRoots` that live across iterations of its loop. -/
structure RootsState where
  adjT : AdjMap
  vis : List Bool
  roots : List (Option Int)
  root_cnt : Int
  deriving DecidableEq, Repr

/-- The `while (!stk.empty())` loop of `getSCCRoots`; `component` is empty at
the start of every iteration. -/
def sccLoop (fuel : Nat) : List Int → RootsState → Except Fault RootsState
  | [], s => pure s
  | u :: stk, s => do
    if (← vecGet s.vis u) then sccLoop fuel stk s
    else
      let b ← buildGraph fuel u { adjT := s.adjT, vis := s.vis, component := [] }
      let root ← match b.component with
        | [] => Except.error Fault.emptyFront
        | r :: _ => pure r
      let roots ← b.component.foldlM (fun roots w => arrSet roots w root) s.roots
      sccLoop fuel stk
        { adjT := b.adjT, vis := b.vis, roots := roots, root_cnt := s.root_cnt + 1 }

/-- The method `getSCCRoots`: the pair `(root_cnt, roots)`. -/
def getSCCRoots (G : Graph) (stk : List Int) : Except Fault (Int × List (Option Int)) := do
  let vis ← vecMake G.V
  let roots ← arrMake G.V
  let s ← sccLoop G.V.toNat stk
    { adjT := G.getTranspose.adj, vis := vis, roots := roots, root_cnt := 0 }
  pure (s.root_cnt, s.roots)

/-- The loop of `getSCCRoots` together with a record of its work: for every
component it starts, the popped vertex `u` and the content of `component`
at the moment the roots are assigned, that is, the indices of `roots` it
writes. -/
def sccLoopTraced (fuel : Nat) :
    List Int → RootsState → List (Int × List Int) →
      Except Fault (RootsState × List (Int × List Int))
  | [], s, tr => pure (s, tr)
  | u :: stk, s, tr => do
    if (← vecGet s.vis u) then sccLoopTraced fuel stk s tr
    else
      let b ← buildGraph fuel u { adjT := s.adjT, vis := s.vis, component := [] }
      let root ← match b.component with
        | [] => Except.error Fault.emptyFront
        | r :: _ => pure r
      let roots ← b.component.foldlM (fun roots w => arrSet roots w root) s.roots
      sccLoopTraced fuel stk
        { adjT := b.adjT, vis := b.vis, roots := roots, root_cnt := s.root_cnt + 1 }
        (tr ++ [(u, b.component)])

/-- The method `getSCCRoots` with the record of `sccLoopTraced`. -/
def getSCCRootsTraced (G : Graph) (stk : List Int) :
    Except Fault (Int × List (Option Int) × List (Int × List Int)) := do
  let vis ← vecMake G.V
  let roots ← arrMake G.V
  let r ← sccLoopTraced G.V.toNat stk
    { adjT := G.getTranspose.adj, vis := vis, roots := roots, root_cnt := 0 } []
  pure (r.1.root_cnt, r.1.roots, r.2)

/-- The body of the edge loop of `getMetaGraph` for the edge `(u, v)`. -/
def metaStep (roots : List (Option Int)) (gp : Graph) (u v : Int) : Except Fault Graph := do
  let ru ← arrGet roots u
  let rv ← arrGet roots v
  if ru ≠ rv then
    let rv ← arrGet roots v
    let adj := gp.adj.index rv
    let ru ← arrGet roots u
    let rv ← arrGet roots v
    pure { gp with adj := adj.pushBack ru rv, E := gp.E + 1 }
  else pure gp

/-- The method `getMetaGraph`: the condensation, and the graph as the call
leaves it. -/
def getMetaGraph (G : Graph) : Except Fault (Graph × Graph) := do
  let (topoSort, G) ← G.getTopoSort
  let (root_cnt, roots) ← G.getSCCRoots topoSort
  let gp ← G.adj.foldlM
    (fun gp p => p.2.foldlM (fun gp v => metaStep roots gp p.1 v) gp)
    { V := root_cnt, E := 0, adj := [] }
  pure (gp, G)

/-- The first loop of `getSourceSCC`: the table `in_deg`, in insertion order. -/
def inDegTable (adj : AdjMap) : DegMap :=
  adj.foldl (fun t p => p.2.foldl DegMap.incr (t.index p.1)) []

/-- The second loop of `getSourceSCC` over the entries still to be iterated,
`source` being the local of that name. -/
def sourceScan : List (Int × Int) → Int → Int
  | [], source => source
  | p :: rest, source =>
    if p.2 = 0 then
      if source ≠ -1 then -1 else sourceScan rest p.1
    else sourceScan rest source

/-- The method `getSourceSCC` when the `unordered_map` yields its entries in
the sequence `order`. -/
def getSourceSCCIn (_G : Graph) (order : List (Int × Int)) : Int := sourceScan order (-1)

/-- The method `getSourceSCC`, the table iterated in insertion order. -/
def getSourceSCC (G : Graph) : Int := G.getSourceSCCIn (inDegTable G.adj)

/-- The variables captured by the lambda `visit`. -/
structure VisitState where
  adj : AdjMap
  vis : VisMap
  cnt_vis : Int
  deriving DecidableEq, Repr

/-- The lambda `visit` of `visits_all`. -/
def visit : Nat → Int → VisitState → Except Fault VisitState
  | 0, _, _ => .error .outOfFuel
  | fuel + 1, u, s => do
    let cnt := s.cnt_vis + 1
    let vis := s.vis.assign u true
    let adj := s.adj.index u
    (adj.find u).foldlM
      (fun s v => do
        let seen := s.vis.get v
        let s := { s with vis := s.vis.index v }
        if !seen then visit fuel v s else pure s)
      { adj := adj, vis := vis, cnt_vis := cnt }

/-- The number of edges stored in the map. -/
def edgeCount (adj : AdjMap) : Nat := (adj.map (fun p => p.2.length)).sum

/-- The method `visits_all`: its result, and the graph as the call leaves it. -/
def visits_all (G : Graph) (src : Int) : Except Fault (Bool × Graph) := do
  let vis := G.adj.foldl (fun vis p => VisMap.assign vis p.1 false) ([] : VisMap)
  let s ← visit (edgeCount G.adj + 1) src { adj := G.adj, vis := vis, cnt_vis := 0 }
  pure (decide (G.V = s.cnt_vis), { G with adj := s.adj })

end Graph

/-- What a call of `getViewPoint` leaves behind: the returned integer, the
graph object after the call, and how many times `visits_all` was entered. -/
structure ViewResult where
  result : Int
  graph : Graph
  visitsAllCalls : Nat
  deriving DecidableEq, Repr

/-- The function `getViewPoint`. -/
def getViewPoint (G : Graph) : Except Fault ViewResult := do
  let (MetaG, G) ← G.getMetaGraph
  let src_SCC := MetaG.getSourceSCC
  if src_SCC = -1 then
    pure { result := -1, graph := G, visitsAllCalls := 0 }
  else
    let (all, G) ← G.visits_all src_SCC
    if !all then pure { result := -1, graph := G, visitsAllCalls := 1 }
    else pure { result := src_SCC, graph := G, visitsAllCalls := 1 }

/-! ## Vocabulary of the statements -/

/-- The vertices a graph mentions: adjacency keys and successors, each once. -/
def AdjMap.vertices (m : AdjMap) : List Int := (m.keys ++ m.edges.map Prod.snd).dedup

/-- The in-degree of `v`: the number of edges entering it, with multiplicity. -/
def AdjMap.inDegree (m : AdjMap) (v : Int) : Nat := (m.edges.map Prod.snd).count v

/-- The vertices of in-degree zero, each once. -/
def AdjMap.sources (m : AdjMap) : List Int := m.vertices.filter (fun v => m.inDegree v = 0)

/-- A graph is well formed when `V` is not negative, the adjacency container
satisfies the invariant of `std::map`, and both endpoints of every edge lie in
`[0, V)`. -/
def Graph.WellFormed (G : Graph) : Prop :=
  0 ≤ G.V ∧ G.adj.Ordered ∧
    ∀ e ∈ G.adj.edges, (0 ≤ e.1 ∧ e.1 < G.V) ∧ (0 ≤ e.2 ∧ e.2 < G.V)

instance (G : Graph) : Decidable G.WellFormed := by unfold Graph.WellFormed; infer_instance

/-- Reachability along successor lists; every vertex reaches itself. -/
def Reach (succ : Int → List Int) (u v : Int) : Prop :=
  Relation.ReflTransGen (fun a b => b ∈ succ a) u v

/-- Mutual reachability. -/
def Mutual (succ : Int → List Int) (u v : Int) : Prop := Reach succ u v ∧ Reach succ v u

/-- The state of the reference depth-first traversal: the vertices entered
and the vertices left so far, the latest first in both. -/
structure DfsState where
  seen : List Int
  done : List Int
  deriving DecidableEq, Repr

/-- The reference depth-first traversal from `u`, over a successor function.
The three recursive lambdas of the program are instances of it. -/
def dfs (succ : Int → List Int) : Nat → Int → DfsState → Option DfsState
  | 0, _, _ => none
  | fuel + 1, u, a =>
    ((succ u).foldlM (fun a v => if v ∈ a.seen then some a else dfs succ fuel v a)
      { a with seen := u :: a.seen }).map (fun a => { a with done := u :: a.done })

/-- The reference traversal from each vertex of a list in turn, skipping the
vertices already entered. -/
def dfsList (succ : Int → List Int) (fuel : Nat) : List Int → DfsState → Option DfsState
  | [], a => some a
  | v :: l, a =>
    if v ∈ a.seen then dfsList succ fuel l a
    else (dfs succ fuel v a).bind (dfsList succ fuel l)

/-- In the list `l`, `z` occurs and `y` occurs at or after an occurrence of `z`. -/
def Before (l : List Int) (z y : Int) : Prop :=
  ∃ l1 l2, l = l1 ++ z :: l2 ∧ y ∈ z :: l2

/-- What a stretch of the traversal adds: `pre` to the entered vertices and
`pst` to the left ones. -/
structure Extends (succ : Int → List Int) (a a' : DfsState) (pre pst : List Int) : Prop where
  seen_eq : a'.seen = pre ++ a.seen
  done_eq : a'.done = pst ++ a.done
  perm : pre.Perm pst
  fresh : ∀ w ∈ pre, w ∉ a.seen
  nodup : pre.Nodup
  closed : ∀ w ∈ pre, ∀ x ∈ succ w, x ∈ a'.seen

/-- The shape of a completed call `dfs n u a`. -/
def DfsShape (succ : Int → List Int) (u : Int) (a a' : DfsState) : Prop :=
  ∃ pre pst, Extends succ a a' (pre ++ [u]) (u :: pst) ∧ ∀ w ∈ pre ++ [u], Reach succ u w

/-- The shape of a completed call `dfsList n l a`. -/
def ListShape (succ : Int → List Int) (l : List Int) (a a' : DfsState) : Prop :=
  ∃ pre pst, Extends succ a a' pre pst ∧ (∀ w ∈ pre, ∃ v ∈ l, Reach succ v w) ∧
    ∀ v ∈ l, v ∈ a'.seen

/-- Every vertex entered is either closed under successors or flagged. -/
def ClosedOr (succ : Int → List Int) (s : List Int) (Gr : Int → Prop) : Prop :=
  ∀ w ∈ s, (∀ x ∈ succ w, x ∈ s) ∨ Gr w

/-- The order property of a stretch of left vertices: whatever an unflagged
vertex of the stretch reaches inside the stretch is preceded by a vertex of
its own component. -/
def LeftOrder (succ : Int → List Int) (Gr : Int → Prop) (pst : List Int) : Prop :=
  ∀ x ∈ pst, ∀ y ∈ pst, Reach succ x y → ¬ Gr x → ∃ z, Mutual succ x z ∧ Before pst z y

/-- The cell `x` of a `std::vector<bool>` exists and holds `true`. -/
def Marked (vis : List Bool) (x : Int) : Prop := vecGet vis x = .ok true

instance (vis : List Bool) (x : Int) : Decidable (Marked vis x) := by
  unfold Marked; infer_instance

/-- The index `x` lies in `[0, V)`. -/
def InRange (V x : Int) : Prop := 0 ≤ x ∧ x < V

instance (V x : Int) : Decidable (InRange V x) := by unfold InRange; infer_instance

namespace Graph

/-- How a state of `getTopoSort` corresponds to a state of the reference
traversal over `succ`. -/
structure TopoRel (succ : Int → List Int) (V : Int) (es : List (Int × Int))
    (s : TopoState) (a : DfsState) : Prop where
  len : (s.vis.length : Int) = V
  seen : ∀ x, x ∈ a.seen ↔ Marked s.vis x
  stk : s.stk = a.done
  find : ∀ x, s.adj.find x = succ x
  ordered : s.adj.Ordered
  edges : s.adj.edges = es

end Graph

/-- What `getTopoSort` delivers on a well-formed graph: the stack `stk` and
the graph `G1` the call leaves behind. -/
structure Graph.TopoSpec (G : Graph) (stk : List Int) (G1 : Graph) : Prop where
  V_eq : G1.V = G.V
  E_eq : G1.E = G.E
  ordered : G1.adj.Ordered
  edges : G1.adj.edges = G.adj.edges
  find : ∀ x, G1.adj.find x = G.adj.find x
  nodup : stk.Nodup
  mem : ∀ x, x ∈ stk ↔ InRange G.V x
  order : LeftOrder G.adj.find (fun _ => False) stk

/-- How a state of `buildGraph` corresponds to a state of the reference
traversal over `succT`; `base` lists the vertices entered before the
component under construction was started. -/
structure Graph.SccRel (succT : Int → List Int) (V : Int) (base : List Int)
    (s : Graph.SccState) (a : DfsState) : Prop where
  len : (s.vis.length : Int) = V
  seen : ∀ x, x ∈ a.seen ↔ Marked s.vis x
  comp : a.seen = s.component.reverse ++ base
  find : ∀ x, s.adjT.find x = succT x

/-- The invariant of the loop of `getSCCRoots` once the vertices `P` have been
popped from the stack `L`. -/
structure Graph.RootsInv (succ succT : Int → List Int) (V : Int) (L P : List Int)
    (s : Graph.RootsState) : Prop where
  vlen : (s.vis.length : Int) = V
  rlen : (s.roots.length : Int) = V
  find : ∀ x, s.adjT.find x = succT x
  popped : ∀ x ∈ P, Marked s.vis x
  sccClosed : ∀ x y, Marked s.vis x → Mutual succ x y → Marked s.vis y
  rooted : ∀ x, Marked s.vis x →
    ∃ r, arrGet s.roots x = .ok r ∧ Mutual succ x r ∧ arrGet s.roots r = .ok r ∧ Before L r x
  canon : ∀ x y, Marked s.vis x → Mutual succ x y → arrGet s.roots x = arrGet s.roots y
  unwritten : ∀ x, InRange V x → ¬ Marked s.vis x → s.roots.getD x.toNat none = none
  counted : ∃ rs : List Int, rs.Nodup ∧ s.root_cnt = rs.length ∧
    ∀ r, r ∈ rs ↔ (Marked s.vis r ∧ arrGet s.roots r = .ok r)

/-- How a state of `visits_all` on a graph with adjacency container `m0`
corresponds to a state of the reference traversal over `m0.find`. -/
structure Graph.VisitRel (m0 : AdjMap) (s : Graph.VisitState) (a : DfsState) : Prop where
  seen : ∀ x, x ∈ a.seen ↔ s.vis.get x = true
  cnt : s.cnt_vis = a.seen.length
  find : ∀ x, s.adj.find x = m0.find x
  edges : s.adj.edges = m0.edges
  ordered : m0.Ordered → s.adj.Ordered

/-- The entry of `roots` for `x` when it can be read, `-1` otherwise. -/
def rootOf (roots : List (Option Int)) (x : Int) : Int :=
  match arrGet roots x with
  | .ok r => r
  | .error _ => -1

/-- What the edge loop of `getMetaGraph` makes of the graph `gp0` it starts
from, given the edges `es` it runs over. -/
structure Graph.MetaSpec (roots : List (Option Int)) (es : List (Int × Int))
    (gp0 gp : Graph) : Prop where
  V_eq : gp.V = gp0.V
  E_eq : gp.E = gp0.E + (es.countP (fun e => decide (rootOf roots e.1 ≠ rootOf roots e.2)) : Nat)
  count : ∀ a b, (gp.adj.find a).count b = (gp0.adj.find a).count b +
    es.countP (fun e => decide (rootOf roots e.1 = a ∧ rootOf roots e.2 = b ∧ a ≠ b))
  keys : ∀ k, gp.adj.hasKey k = true ↔ (gp0.adj.hasKey k = true ∨
    ∃ e ∈ es, rootOf roots e.1 ≠ rootOf roots e.2 ∧ (rootOf roots e.1 = k ∨ rootOf roots e.2 = k))
  ordered : gp0.adj.Ordered → gp.adj.Ordered

/-- The distinct values written into `roots`: one representative per
component. -/
def sccRootList (roots : List (Option Int)) : List Int := (roots.filterMap id).dedup

/-- The zero-in-degree vertices of the condensation that has one vertex per
component: the representatives that no edge between different components
enters. -/
def condensationSources (roots : List (Option Int)) (es : List (Int × Int)) : List Int :=
  (sccRootList roots).filter
    (fun r => es.all (fun e => decide (rootOf roots e.1 = rootOf roots e.2 ∨ rootOf roots e.2 ≠ r)))

/-- A successor function without directed cycle: no vertex reaches itself
along one or more edges. -/
def Acyclic (succ : Int → List Int) : Prop :=
  ∀ x, ¬ Relation.TransGen (fun a b => b ∈ succ a) x x

/-- What the record of `sccLoopTraced` says about the state of the loop. -/
structure Graph.TraceInv (s : Graph.RootsState) (tr : List (Int × List Int)) : Prop where
  nodup : (tr.flatMap Prod.snd).Nodup
  marked : ∀ x, x ∈ tr.flatMap Prod.snd ↔ Marked s.vis x
  heads : ∀ p ∈ tr, ∃ rest, p.2 = p.1 :: rest
  roots : ∀ p ∈ tr, ∀ w ∈ p.2, arrGet s.roots w = .ok p.1
  count : s.root_cnt = tr.length

/-- The parts of `getMetaGraph_run` that speak about the condensation only. -/
structure Graph.CondFacts (G : Graph) (roots : List (Option Int)) (GP : Graph) : Prop where
  ordered : GP.adj.Ordered
  edge : ∀ a b, b ∈ GP.adj.find a ↔
    ∃ e ∈ G.adj.edges, rootOf roots e.1 = a ∧ rootOf roots e.2 = b ∧ a ≠ b
  key : ∀ k, GP.adj.hasKey k = true ↔
    ∃ e ∈ G.adj.edges, rootOf roots e.1 ≠ rootOf roots e.2 ∧
      (rootOf roots e.1 = k ∨ rootOf roots e.2 = k)
  root : ∀ x, InRange G.V x →
    arrGet roots x = .ok (rootOf roots x) ∧ Mutual G.adj.find x (rootOf roots x) ∧
      rootOf roots (rootOf roots x) = rootOf roots x ∧ InRange G.V (rootOf roots x)
  same : ∀ x y, InRange G.V x → InRange G.V y →
    (rootOf roots x = rootOf roots y ↔ Mutual G.adj.find x y)

/-- What a stretch of `getTopoSort` leaves unchanged in its state, and what it
adds: the pushed vertices `new`, which are also the keys it inserts. -/
def Graph.TopoFrame (s s' : Graph.TopoState) : Prop :=
  s'.adj.edges = s.adj.edges ∧ (∀ x, s'.adj.find x = s.adj.find x) ∧
    s'.vis.length = s.vis.length ∧
    ∃ new, s'.stk = new ++ s.stk ∧
      ∀ k, s'.adj.hasKey k = true ↔ (s.adj.hasKey k = true ∨ k ∈ new)

/-- What a stretch of `visits_all` leaves unchanged in the adjacency container;
keys are only added. -/
def Graph.VisitFrame (s s' : Graph.VisitState) : Prop :=
  s'.adj.edges = s.adj.edges ∧ (∀ x, s'.adj.find x = s.adj.find x) ∧
    ∀ k, s.adj.hasKey k = true → s'.adj.hasKey k = true

/-- What a call leaves unchanged in the graph object: `V`, `E`, the sequence
of edges and every successor sequence; keys are only added. -/
def Graph.Frame (G G' : Graph) : Prop :=
  G'.V = G.V ∧ G'.E = G.E ∧ G'.adj.edges = G.adj.edges ∧
    (∀ x, G'.adj.find x = G.adj.find x) ∧
    ∀ k, G.adj.hasKey k = true → G'.adj.hasKey k = true

/-- What a stretch of `visits_all` does to the keys of the adjacency
container: a marked vertex stays marked, and the keys added are the vertices
the stretch has marked. -/
def Graph.VisitKeys (s s' : Graph.VisitState) : Prop :=
  (∀ k, s.vis.get k = true → s'.vis.get k = true) ∧
    ∀ k, s'.adj.hasKey k = true ↔
      (s.adj.hasKey k = true ∨ (s'.vis.get k = true ∧ s.vis.get k = false))

/-- The faults that stand for an operation of the program itself: an index
outside a `std::vector<bool>` or outside the array `roots` and a read of a
cell of `roots` that was never written, which are undefined behaviour in C++,
and a container sized with a negative number, which throws an exception that
the program does not catch. -/
def Fault.BadAccess (f : Fault) : Prop :=
  f = .outOfBounds ∨ f = .uninitialised ∨ f = .lengthError

instance (f : Fault) : Decidable f.BadAccess := by unfold Fault.BadAccess; infer_instance

/-- The number `x` is a value of the C++ type `int` (32 bits), so that the
extraction `fin >> x` stores it as it is written in the file. -/
def IsCInt (x : Int) : Prop := -2147483648 ≤ x ∧ x ≤ 2147483647

instance (x : Int) : Decidable (IsCInt x) := by unfold IsCInt; infer_instance

/-- The file holds what `read_initial_graph` extracts from it: the numbers
`V` and `E` and at least the `E` pairs that the loop reads, each of these
numbers a value of `int`. -/
def FileHolds (V E : Int) (es : List (Int × Int)) : Prop :=
  IsCInt V ∧ IsCInt E ∧ E ≤ (es.length : Int) ∧
    ∀ e ∈ es.take E.toNat, IsCInt e.1 ∧ IsCInt e.2

instance (V E : Int) (es : List (Int × Int)) : Decidable (FileHolds V E es) := by
  unfold FileHolds; infer_instance

/-- The count stored under `k` in an in-degree table, `0` when absent. -/
def DegMap.val : DegMap → Int → Int
  | [], _ => 0
  | (k', c) :: rest, k => if k = k' then c else DegMap.val rest k

end ViewPoint

namespace ViewPoint

/-! ## Lemmas on the adjacency container -/

namespace AdjMap

theorem find_nil (k : Int) : find [] k = [] := rfl

theorem find_cons (k' : Int) (l : List Int) (rest : AdjMap) (k : Int) :
    find ((k', l) :: rest) k = if k = k' then l else find rest k := rfl

theorem hasKey_nil (k : Int) : hasKey [] k = false := rfl

theorem hasKey_cons (p : Int × List Int) (rest : AdjMap) (k : Int) :
    hasKey (p :: rest) k = (p.1 == k || hasKey rest k) := by
  simp [hasKey]

theorem hasKey_iff_mem_keys (m : AdjMap) (k : Int) : m.hasKey k = true ↔ k ∈ m.keys := by
  simp [hasKey, keys]

theorem find_eq_nil_of_not_hasKey (m : AdjMap) (k : Int) (h : m.hasKey k = false) :
    m.find k = [] := by
  induction m with
  | nil => rfl
  | cons p rest ih =>
    obtain ⟨k', l⟩ := p
    rw [hasKey_cons] at h
    simp only [Bool.or_eq_false_iff, beq_eq_false_iff_ne, ne_eq] at h
    rw [find_cons, if_neg (fun e => h.1 e.symm)]
    exact ih h.2

theorem find_insertKey (m : AdjMap) (k x : Int) (h : m.hasKey k = false) :
    (m.insertKey k).find x = m.find x := by
  induction m with
  | nil =>
    simp only [insertKey, find_cons, find_nil, ite_self]
  | cons p rest ih =>
    obtain ⟨k', l⟩ := p
    rw [hasKey_cons] at h
    simp only [Bool.or_eq_false_iff, beq_eq_false_iff_ne, ne_eq] at h
    unfold insertKey
    split
    · rw [find_cons]
      split
      · rename_i hx
        subst hx
        rw [find_cons, if_neg (fun e => h.1 e.symm)]
        exact (find_eq_nil_of_not_hasKey rest x h.2).symm
      · rfl
    · rw [find_cons, find_cons, ih h.2]

theorem hasKey_insertKey (m : AdjMap) (k x : Int) :
    (m.insertKey k).hasKey x = (m.hasKey x || k == x) := by
  induction m with
  | nil => simp [insertKey, hasKey]
  | cons p rest ih =>
    obtain ⟨k', l⟩ := p
    unfold insertKey
    split
    · rw [hasKey_cons, hasKey_cons]
      simp only
      cases (k == x) <;> cases (k' == x) <;> cases (hasKey rest x) <;> rfl
    · rw [hasKey_cons, hasKey_cons, ih]
      simp only
      cases (k == x) <;> cases (k' == x) <;> cases (hasKey rest x) <;> rfl

theorem find_index (m : AdjMap) (k x : Int) : (m.index k).find x = m.find x := by
  unfold index
  split
  · rfl
  · rename_i h
    exact find_insertKey m k x (by simpa using h)

theorem hasKey_index (m : AdjMap) (k x : Int) :
    (m.index k).hasKey x = (m.hasKey x || k == x) := by
  unfold index
  split
  · rename_i h
    by_cases hx : k = x
    · subst hx; simp [h]
    · simp [hx]
  · exact hasKey_insertKey m k x

theorem hasKey_appendAt (m : AdjMap) (k v x : Int) :
    (m.appendAt k v).hasKey x = m.hasKey x := by
  induction m with
  | nil => rfl
  | cons p rest ih =>
    obtain ⟨k', l⟩ := p
    unfold appendAt
    split
    · simp [hasKey_cons]
    · simp [hasKey_cons, ih]

theorem find_appendAt (m : AdjMap) (k v x : Int) (h : m.hasKey k = true) :
    (m.appendAt k v).find x = if x = k then m.find k ++ [v] else m.find x := by
  induction m with
  | nil => simp [hasKey] at h
  | cons p rest ih =>
    obtain ⟨k', l⟩ := p
    unfold appendAt
    by_cases hk : k = k'
    · subst hk
      simp only [if_true, find_cons]
      split <;> rfl
    · rw [if_neg hk]
      rw [hasKey_cons] at h
      have h2 : hasKey rest k = true := by
        simp only [Bool.or_eq_true, beq_iff_eq] at h
        rcases h with h | h
        · exact absurd h.symm hk
        · exact h
      rw [find_cons, ih h2, find_cons, find_cons, if_neg hk]
      by_cases hx : x = k'
      · subst hx
        simp [hk, Ne.symm hk]
      · simp [hx]

theorem find_pushBack (m : AdjMap) (k v x : Int) :
    (m.pushBack k v).find x = if x = k then m.find k ++ [v] else m.find x := by
  unfold pushBack
  rw [find_appendAt _ _ _ _ (by rw [hasKey_index]; simp), find_index, find_index]

theorem hasKey_pushBack (m : AdjMap) (k v x : Int) :
    (m.pushBack k v).hasKey x = (m.hasKey x || k == x) := by
  unfold pushBack
  rw [hasKey_appendAt, hasKey_index]

end AdjMap

end ViewPoint

namespace ViewPoint

/-! ## Edges, key order and the transpose -/

namespace AdjMap

theorem edges_nil : edges [] = [] := rfl

theorem edges_cons (p : Int × List Int) (rest : AdjMap) :
    edges (p :: rest) = p.2.map (fun v => (p.1, v)) ++ edges rest := by
  simp [edges]

theorem count_map_pair (k : Int) (l : List Int) (u v : Int) :
    (l.map (fun w => (k, w))).count (u, v) = if u = k then l.count v else 0 := by
  induction l with
  | nil => simp
  | cons w l ih =>
    rw [List.map_cons, List.count_cons, ih, List.count_cons]
    by_cases hu : u = k
    · subst hu
      by_cases hw : w = v
      · subst hw; simp
      · have : ¬ ((u, w) == (u, v)) = true := by simpa using hw
        simp [hw]
    · have : ¬ ((k, w) == (u, v)) = true := by
        simp only [beq_iff_eq, Prod.mk.injEq, not_and]
        intro e; exact absurd e.symm hu
      simp [hu, this]

theorem mem_edges (m : AdjMap) (u v : Int) :
    (u, v) ∈ m.edges ↔ ∃ l, (u, l) ∈ m ∧ v ∈ l := by
  simp only [edges, List.mem_flatMap, List.mem_map, Prod.mk.injEq, Prod.exists]
  constructor
  · rintro ⟨k, l, hm, w, hw, hk, hv⟩
    exact ⟨l, by simpa [hk] using hm, by simpa [← hv] using hw⟩
  · rintro ⟨l, hm, hv⟩
    exact ⟨u, l, hm, v, hv, rfl, rfl⟩

theorem count_edges_of_not_hasKey (m : AdjMap) (u v : Int) (h : m.hasKey u = false) :
    m.edges.count (u, v) = 0 := by
  rw [List.count_eq_zero, mem_edges]
  rintro ⟨l, hm, -⟩
  have : m.hasKey u = true := by
    rw [hasKey_iff_mem_keys]
    exact List.mem_map.2 ⟨(u, l), hm, rfl⟩
  rw [h] at this
  exact Bool.noConfusion this

theorem Ordered.tail {p : Int × List Int} {rest : AdjMap} (h : Ordered (p :: rest)) :
    Ordered rest := (List.pairwise_cons.1 h).2

theorem Ordered.head_not_hasKey {p : Int × List Int} {rest : AdjMap}
    (h : Ordered (p :: rest)) : rest.hasKey p.1 = false := by
  cases hk : rest.hasKey p.1 with
  | false => rfl
  | true =>
    rw [hasKey_iff_mem_keys] at hk
    obtain ⟨q, hq, e⟩ := List.mem_map.1 hk
    have := (List.pairwise_cons.1 h).1 q hq
    omega

theorem count_edges (m : AdjMap) (h : m.Ordered) (u v : Int) :
    m.edges.count (u, v) = (m.find u).count v := by
  induction m with
  | nil => rfl
  | cons p rest ih =>
    obtain ⟨k, l⟩ := p
    rw [edges_cons, List.count_append, count_map_pair, find_cons]
    by_cases hu : u = k
    · subst hu
      rw [if_pos rfl, if_pos rfl, count_edges_of_not_hasKey rest u v h.head_not_hasKey]
      rfl
    · rw [if_neg hu, if_neg hu, ih h.tail, Nat.zero_add]

theorem mem_find_iff (m : AdjMap) (h : m.Ordered) (u v : Int) :
    v ∈ m.find u ↔ (u, v) ∈ m.edges := by
  rw [← List.count_pos_iff, ← List.count_pos_iff, count_edges m h]

theorem insertKey_ordered (m : AdjMap) (k : Int) (h : m.Ordered) (hk : m.hasKey k = false) :
    (m.insertKey k).Ordered := by
  induction m with
  | nil => simp [insertKey, Ordered]
  | cons p rest ih =>
    obtain ⟨k', l⟩ := p
    rw [hasKey_cons] at hk
    simp only [Bool.or_eq_false_iff, beq_eq_false_iff_ne, ne_eq] at hk
    unfold insertKey
    split
    · rename_i hlt
      refine List.pairwise_cons.2 ⟨?_, h⟩
      intro q hq
      rcases List.mem_cons.1 hq with e | hq
      · subst e; exact hlt
      · have := (List.pairwise_cons.1 h).1 q hq
        simp only at this ⊢
        omega
    · rename_i hge
      refine List.pairwise_cons.2 ⟨?_, ih h.tail hk.2⟩
      intro q hq
      have hq' : q.1 ∈ keys (insertKey rest k) := List.mem_map.2 ⟨q, hq, rfl⟩
      rw [← hasKey_iff_mem_keys, hasKey_insertKey] at hq'
      simp only [Bool.or_eq_true, beq_iff_eq] at hq'
      rcases hq' with hq' | hq'
      · rw [hasKey_iff_mem_keys] at hq'
        obtain ⟨q', hq'm, e⟩ := List.mem_map.1 hq'
        have := (List.pairwise_cons.1 h).1 q' hq'm
        simp only at this ⊢
        omega
      · have := hk.1
        simp only at hge ⊢
        omega

theorem index_ordered (m : AdjMap) (k : Int) (h : m.Ordered) : (m.index k).Ordered := by
  unfold index
  split
  · exact h
  · rename_i hk
    exact insertKey_ordered m k h (by simpa using hk)

theorem appendAt_ordered (m : AdjMap) (k v : Int) (h : m.Ordered) :
    (m.appendAt k v).Ordered := by
  induction m with
  | nil => exact h
  | cons p rest ih =>
    obtain ⟨k', l⟩ := p
    unfold appendAt
    split
    · exact List.pairwise_cons.2 ⟨(List.pairwise_cons.1 h).1, h.tail⟩
    · refine List.pairwise_cons.2 ⟨?_, ih h.tail⟩
      intro q hq
      have hq' : q.1 ∈ keys (appendAt rest k v) := List.mem_map.2 ⟨q, hq, rfl⟩
      rw [← hasKey_iff_mem_keys, hasKey_appendAt, hasKey_iff_mem_keys] at hq'
      obtain ⟨q', hq'm, e⟩ := List.mem_map.1 hq'
      have := (List.pairwise_cons.1 h).1 q' hq'm
      simp only at this ⊢
      omega

theorem pushBack_ordered (m : AdjMap) (k v : Int) (h : m.Ordered) :
    (m.pushBack k v).Ordered :=
  appendAt_ordered _ k v (index_ordered m k h)

end AdjMap

/-- The body of the outer loop of `getTranspose` for the entry `p`. -/
theorem transposeInner_find (k : Int) (l : List Int) (gt : AdjMap) (x y : Int) :
    ((l.foldl (fun gt v => AdjMap.pushBack gt v k) gt).find x).count y
      = (gt.find x).count y + if y = k then l.count x else 0 := by
  induction l generalizing gt with
  | nil => simp
  | cons w l ih =>
    rw [List.foldl_cons, ih, AdjMap.find_pushBack, List.count_cons]
    by_cases hx : x = w
    · subst hx
      by_cases hy : y = k
      · subst hy; simp; omega
      · have : ¬ k = y := fun e => hy e.symm
        simp [hy, this]
    · have : ¬ (w == x) = true := by simpa using fun e => hx e.symm
      simp [hx, this]

theorem transposeInner_hasKey (k : Int) (l : List Int) (gt : AdjMap) (x : Int) :
    (l.foldl (fun gt v => AdjMap.pushBack gt v k) gt).hasKey x = (gt.hasKey x || decide (x ∈ l)) := by
  induction l generalizing gt with
  | nil => simp
  | cons w l ih =>
    rw [List.foldl_cons, ih, AdjMap.hasKey_pushBack]
    by_cases hx : w = x
    · subst hx; simp
    · have hb : (w == x) = false := by simpa using hx
      have : ¬ x = w := fun e => hx e.symm
      simp [hb, this]

theorem transposeInner_ordered (k : Int) (l : List Int) (gt : AdjMap) (h : gt.Ordered) :
    (l.foldl (fun gt v => AdjMap.pushBack gt v k) gt).Ordered := by
  induction l generalizing gt with
  | nil => exact h
  | cons w l ih => exact ih _ (AdjMap.pushBack_ordered gt w k h)

theorem transposeOuter_find (m : AdjMap) (gt : AdjMap) (x y : Int) :
    ((m.foldl (fun gt p => p.2.foldl (fun gt v => AdjMap.pushBack gt v p.1)
        (AdjMap.index gt p.1)) gt).find x).count y
      = (gt.find x).count y + m.edges.count (y, x) := by
  induction m generalizing gt with
  | nil => simp [AdjMap.edges]
  | cons p rest ih =>
    rw [List.foldl_cons, ih, transposeInner_find, AdjMap.find_index, AdjMap.edges_cons,
      List.count_append, AdjMap.count_map_pair]
    omega

theorem transposeOuter_hasKey (m : AdjMap) (gt : AdjMap) (x : Int) :
    (m.foldl (fun gt p => p.2.foldl (fun gt v => AdjMap.pushBack gt v p.1)
        (AdjMap.index gt p.1)) gt).hasKey x = true
      ↔ (gt.hasKey x = true ∨ m.hasKey x = true ∨ ∃ u, (u, x) ∈ m.edges) := by
  induction m generalizing gt with
  | nil => simp [AdjMap.edges, AdjMap.hasKey]
  | cons p rest ih =>
    rw [List.foldl_cons, ih, transposeInner_hasKey, AdjMap.hasKey_index, AdjMap.hasKey_cons,
      AdjMap.edges_cons]
    simp only [Bool.or_eq_true, beq_iff_eq, decide_eq_true_eq, List.mem_append, List.mem_map,
      Prod.mk.injEq]
    constructor
    · rintro (((h | h) | h) | h | ⟨u, h⟩)
      · exact Or.inl h
      · exact Or.inr (Or.inl (Or.inl h))
      · exact Or.inr (Or.inr ⟨p.1, Or.inl ⟨x, h, rfl, rfl⟩⟩)
      · exact Or.inr (Or.inl (Or.inr h))
      · exact Or.inr (Or.inr ⟨u, Or.inr h⟩)
    · rintro (h | (h | h) | ⟨u, ⟨w, hw, hu, hx⟩ | h⟩)
      · exact Or.inl (Or.inl (Or.inl h))
      · exact Or.inl (Or.inl (Or.inr h))
      · exact Or.inr (Or.inl h)
      · exact Or.inl (Or.inr (hx ▸ hw))
      · exact Or.inr (Or.inr ⟨u, h⟩)

theorem transposeOuter_ordered (m : AdjMap) (gt : AdjMap) (h : gt.Ordered) :
    (m.foldl (fun gt p => p.2.foldl (fun gt v => AdjMap.pushBack gt v p.1)
        (AdjMap.index gt p.1)) gt).Ordered := by
  induction m generalizing gt with
  | nil => exact h
  | cons p rest ih =>
    exact ih _ (transposeInner_ordered _ _ _ (AdjMap.index_ordered gt p.1 h))

namespace Graph

theorem getTranspose_count (G : Graph) (u v : Int) :
    (G.getTranspose.adj.find v).count u = G.adj.edges.count (u, v) := by
  unfold getTranspose
  simp only
  rw [transposeOuter_find, AdjMap.find_nil, List.count_nil, Nat.zero_add]

theorem getTranspose_ordered (G : Graph) : G.getTranspose.adj.Ordered :=
  transposeOuter_ordered G.adj [] List.Pairwise.nil

theorem mem_getTranspose (G : Graph) (h : G.adj.Ordered) (u v : Int) :
    u ∈ G.getTranspose.adj.find v ↔ v ∈ G.adj.find u := by
  rw [← List.count_pos_iff, ← List.count_pos_iff, getTranspose_count, AdjMap.count_edges _ h]

end Graph

/-- Claim C10. The transpose has the same `V` and `E`; the number of
occurrences of `u` in its vector under `v` is the number of occurrences of
`v` in the original vector under `u`; every key of the original is a key of
the transpose, with an empty vector when no edge of the original enters it. -/
theorem getTranspose_spec (G : Graph) (h : G.adj.Ordered) :
    G.getTranspose.V = G.V ∧ G.getTranspose.E = G.E ∧
    (∀ u v, (G.getTranspose.adj.find v).count u = (G.adj.find u).count v) ∧
    (∀ k, G.adj.hasKey k = true → G.getTranspose.adj.hasKey k = true) ∧
    (∀ k, G.adj.hasKey k = true → (∀ u, k ∉ G.adj.find u) →
      G.getTranspose.adj.find k = []) := by
  refine ⟨rfl, rfl, fun u v => ?_, fun k hk => ?_, fun k _ hin => ?_⟩
  · rw [Graph.getTranspose_count, AdjMap.count_edges _ h]
  · unfold Graph.getTranspose
    simp only
    rw [transposeOuter_hasKey]
    exact Or.inr (Or.inl hk)
  · rw [List.eq_nil_iff_forall_not_mem]
    intro u hu
    exact hin u ((Graph.mem_getTranspose G h u k).1 hu)

theorem getTranspose_spec_witness :
    (read_initial_graph 3 3 [(0, 1), (0, 1), (2, 0)]).adj.Ordered ∧
    (read_initial_graph 3 3 [(0, 1), (0, 1), (2, 0)]).getTranspose
      = { V := 3, E := 3, adj := [(0, [2]), (1, [0, 0]), (2, [])] } ∧
    ((read_initial_graph 3 3 [(0, 1), (0, 1), (2, 0)]).getTranspose.adj.find 1).count 0
      = (((read_initial_graph 3 3 [(0, 1), (0, 1), (2, 0)]).adj.find 0).count 1) :=
  ⟨by decide, by decide,
    (getTranspose_spec (read_initial_graph 3 3 [(0, 1), (0, 1), (2, 0)]) (by decide)).2.2.1 0 1⟩

end ViewPoint

namespace ViewPoint

/-! ## The in-degree table and the source scan -/

namespace DegMap

theorem keys_index (t : DegMap) (k x : Int) :
    x ∈ (index t k).map Prod.fst ↔ x ∈ t.map Prod.fst ∨ x = k := by
  unfold index
  split
  · rename_i h
    simp only [List.any_eq_true, beq_iff_eq] at h
    obtain ⟨p, hp, e⟩ := h
    constructor
    · exact Or.inl
    · rintro (h | h)
      · exact h
      · subst h; subst e; exact List.mem_map.2 ⟨p, hp, rfl⟩
  · simp

theorem nodup_index (t : DegMap) (k : Int) (h : (t.map Prod.fst).Nodup) :
    ((index t k).map Prod.fst).Nodup := by
  unfold index
  split
  · exact h
  · rename_i hk
    simp only [List.any_eq_true, beq_iff_eq, not_exists, not_and] at hk
    rw [List.map_append, List.nodup_append]
    refine ⟨h, by simp, ?_⟩
    intro a ha hb
    simp only [List.map_cons, List.map_nil, List.mem_singleton] at hb
    subst hb
    obtain ⟨p, hp, e⟩ := List.mem_map.1 ha
    exact hk p hp e

theorem val_append_zero (t : DegMap) (k x : Int) : val (t ++ [(k, 0)]) x = val t x := by
  induction t with
  | nil => simp [val]
  | cons p rest ih =>
    obtain ⟨k', c⟩ := p
    show val ((k', c) :: (rest ++ [(k, 0)])) x = val ((k', c) :: rest) x
    simp only [val, ih]

theorem val_index (t : DegMap) (k x : Int) : val (index t k) x = val t x := by
  unfold index
  split
  · rfl
  · exact val_append_zero t k x

theorem keys_incr (t : DegMap) (v x : Int) :
    x ∈ (incr t v).map Prod.fst ↔ x ∈ t.map Prod.fst ∨ x = v := by
  induction t with
  | nil => simp [incr]
  | cons p rest ih =>
    obtain ⟨k, c⟩ := p
    unfold incr
    split
    · rename_i h
      subst h
      simp only [List.map_cons, List.mem_cons]
      tauto
    · simp only [List.map_cons, List.mem_cons, ih]
      tauto

theorem nodup_incr (t : DegMap) (v : Int) (h : (t.map Prod.fst).Nodup) :
    ((incr t v).map Prod.fst).Nodup := by
  induction t with
  | nil => simp [incr]
  | cons p rest ih =>
    obtain ⟨k, c⟩ := p
    unfold incr
    split
    · exact h
    · rename_i hv
      rw [List.map_cons, List.nodup_cons] at h ⊢
      refine ⟨?_, ih h.2⟩
      intro hk
      rcases (keys_incr rest v k).1 hk with hk | hk
      · exact h.1 hk
      · exact hv hk.symm

theorem val_incr (t : DegMap) (v x : Int) :
    val (incr t v) x = val t x + if x = v then 1 else 0 := by
  induction t with
  | nil =>
    simp only [incr, val]
    split <;> simp
  | cons p rest ih =>
    obtain ⟨k, c⟩ := p
    unfold incr
    by_cases hv : v = k
    · subst hv
      simp only [if_true, val]
      split <;> simp
    · rw [if_neg hv]
      simp only [val, ih]
      by_cases hx : x = k
      · subst hx
        have : ¬ x = v := fun e => hv e.symm
        simp [this]
      · simp [hx]

theorem mem_iff_val (t : DegMap) (h : (t.map Prod.fst).Nodup) (k : Int) (c : Int) :
    (k, c) ∈ t ↔ k ∈ t.map Prod.fst ∧ c = val t k := by
  induction t with
  | nil => simp
  | cons p rest ih =>
    obtain ⟨k', c'⟩ := p
    rw [List.map_cons, List.nodup_cons] at h
    simp only [List.mem_cons, Prod.mk.injEq, List.map_cons, val]
    by_cases hk : k = k'
    · subst hk
      simp only [true_and, if_true, true_or]
      constructor
      · rintro (e | hm)
        · exact e
        · exact absurd (List.mem_map.2 ⟨(k, c), hm, rfl⟩) h.1
      · exact Or.inl
    · simp only [hk, false_and, false_or, if_false]
      exact ih h.2

end DegMap

namespace Graph

theorem inDegInner_keys (l : List Int) (t : DegMap) (x : Int) :
    x ∈ (l.foldl DegMap.incr t).map Prod.fst ↔ x ∈ t.map Prod.fst ∨ x ∈ l := by
  induction l generalizing t with
  | nil => simp
  | cons w l ih =>
    rw [List.foldl_cons, ih, DegMap.keys_incr, List.mem_cons]
    tauto

theorem inDegInner_nodup (l : List Int) (t : DegMap) (h : (t.map Prod.fst).Nodup) :
    ((l.foldl DegMap.incr t).map Prod.fst).Nodup := by
  induction l generalizing t with
  | nil => exact h
  | cons w l ih => exact ih _ (DegMap.nodup_incr t w h)

theorem inDegInner_val (l : List Int) (t : DegMap) (x : Int) :
    DegMap.val (l.foldl DegMap.incr t) x = DegMap.val t x + (l.count x : Nat) := by
  induction l generalizing t with
  | nil => simp
  | cons w l ih =>
    rw [List.foldl_cons, ih, DegMap.val_incr, List.count_cons]
    by_cases hx : x = w
    · subst hx; simp; omega
    · have : (w == x) = false := by simpa using fun e => hx e.symm
      simp [hx, this]

theorem inDegOuter_keys (m : AdjMap) (t : DegMap) (x : Int) :
    x ∈ (m.foldl (fun t p => p.2.foldl DegMap.incr (DegMap.index t p.1)) t).map Prod.fst
      ↔ x ∈ t.map Prod.fst ∨ x ∈ m.keys ∨ x ∈ m.edges.map Prod.snd := by
  induction m generalizing t with
  | nil => simp [AdjMap.keys, AdjMap.edges]
  | cons p rest ih =>
    rw [List.foldl_cons, ih, inDegInner_keys, DegMap.keys_index, AdjMap.edges_cons]
    simp only [AdjMap.keys, List.map_cons, List.mem_cons, List.map_append, List.map_map,
      List.mem_append, List.mem_map, Function.comp]
    constructor
    · rintro (((h | h) | h) | h | h)
      · exact Or.inl h
      · exact Or.inr (Or.inl (Or.inl h))
      · exact Or.inr (Or.inr (Or.inl ⟨x, h, rfl⟩))
      · exact Or.inr (Or.inl (Or.inr h))
      · exact Or.inr (Or.inr (Or.inr h))
    · rintro (h | (h | h) | (⟨w, hw, e⟩ | h))
      · exact Or.inl (Or.inl (Or.inl h))
      · exact Or.inl (Or.inl (Or.inr h))
      · exact Or.inr (Or.inl h)
      · exact Or.inl (Or.inr (e ▸ hw))
      · exact Or.inr (Or.inr h)

theorem inDegOuter_nodup (m : AdjMap) (t : DegMap) (h : (t.map Prod.fst).Nodup) :
    ((m.foldl (fun t p => p.2.foldl DegMap.incr (DegMap.index t p.1)) t).map Prod.fst).Nodup := by
  induction m generalizing t with
  | nil => exact h
  | cons p rest ih => exact ih _ (inDegInner_nodup _ _ (DegMap.nodup_index t p.1 h))

theorem inDegOuter_val (m : AdjMap) (t : DegMap) (x : Int) :
    DegMap.val (m.foldl (fun t p => p.2.foldl DegMap.incr (DegMap.index t p.1)) t) x
      = DegMap.val t x + (m.inDegree x : Nat) := by
  induction m generalizing t with
  | nil => simp [AdjMap.inDegree, AdjMap.edges]
  | cons p rest ih =>
    rw [List.foldl_cons, ih, inDegInner_val, DegMap.val_index]
    simp only [AdjMap.inDegree, AdjMap.edges_cons, List.map_append, List.map_map,
      List.count_append, Nat.cast_add]
    have : (Prod.snd ∘ fun v => (p.1, v)) = (id : Int → Int) := rfl
    rw [this, List.map_id]
    omega

theorem mem_inDegTable (m : AdjMap) (k c : Int) :
    (k, c) ∈ inDegTable m ↔ k ∈ m.vertices ∧ c = (m.inDegree k : Nat) := by
  unfold inDegTable
  rw [DegMap.mem_iff_val _ (inDegOuter_nodup m [] List.nodup_nil), inDegOuter_keys,
    inDegOuter_val]
  simp [AdjMap.vertices, DegMap.val]

theorem inDegTable_nodup (m : AdjMap) : ((inDegTable m).map Prod.fst).Nodup :=
  inDegOuter_nodup m [] List.nodup_nil

end Graph

end ViewPoint

namespace ViewPoint

namespace Graph

/-- The keys of the zero entries of a table, in iteration order. -/
theorem sourceScan_of_source (l : List (Int × Int)) (s : Int) (hs : s ≠ -1) :
    sourceScan l s = if (l.filter (fun p => p.2 = 0)) = [] then s else -1 := by
  induction l with
  | nil => simp [sourceScan]
  | cons p rest ih =>
    unfold sourceScan
    by_cases hp : p.2 = 0
    · simp [hp, hs]
    · rw [if_neg hp, ih, List.filter_cons_of_neg (by simpa using hp)]

theorem sourceScan_init (l : List (Int × Int)) (hl : ∀ p ∈ l, p.2 = 0 → p.1 ≠ -1) :
    sourceScan l (-1) =
      match (l.filter (fun p => p.2 = 0)).map Prod.fst with
      | [] => -1
      | [x] => x
      | _ :: _ :: _ => -1 := by
  induction l with
  | nil => simp [sourceScan]
  | cons p rest ih =>
    unfold sourceScan
    by_cases hp : p.2 = 0
    · rw [if_pos hp, if_neg (by simp),
        sourceScan_of_source rest p.1 (hl p (List.mem_cons_self _ _) hp)]
      rw [List.filter_cons_of_pos (by simpa using hp)]
      cases hf : rest.filter (fun p => decide (p.2 = 0)) with
      | nil => simp
      | cons q qs => simp
    · rw [if_neg hp, ih (fun q hq => hl q (List.mem_cons_of_mem _ hq))]
      rw [List.filter_cons_of_neg (by simpa using hp)]

theorem zeros_perm_sources (m : AdjMap) (order : List (Int × Int))
    (hperm : order.Perm (inDegTable m)) :
    ((order.filter (fun p => p.2 = 0)).map Prod.fst).Perm m.sources := by
  have hnd : (order.map Prod.fst).Nodup :=
    (hperm.map Prod.fst).nodup_iff.2 (inDegTable_nodup m)
  rw [List.perm_ext_iff_of_nodup]
  · intro x
    rw [AdjMap.sources, List.mem_filter, List.mem_map]
    constructor
    · rintro ⟨⟨k, c⟩, hm, e⟩
      rw [List.mem_filter] at hm
      simp only [decide_eq_true_eq] at hm e
      subst e
      obtain ⟨hm, hc⟩ := hm
      subst hc
      have := (mem_inDegTable m k 0).1 (hperm.subset hm)
      refine ⟨this.1, ?_⟩
      have h2 := this.2
      simp only [decide_eq_true_eq]
      exact_mod_cast h2.symm
    · rintro ⟨hv, hd⟩
      simp only [decide_eq_true_eq] at hd
      refine ⟨(x, 0), ?_, rfl⟩
      rw [List.mem_filter]
      refine ⟨hperm.symm.subset ((mem_inDegTable m x 0).2 ⟨hv, ?_⟩), by simp⟩
      rw [hd]; rfl
  · exact ((List.filter_sublist _).map Prod.fst).nodup hnd
  · exact (List.nodup_dedup _).filter _

end Graph

/-- Claim C6. Whatever order the in-degree table is iterated in, on a graph
whose vertex ids are non-negative `getSourceSCC` returns `x ≠ -1` exactly when
`x` is the one and only vertex (adjacency key or successor) of in-degree zero,
and returns `-1` exactly when the number of such vertices is `0` or at least
`2`. -/
theorem getSourceSCC_spec (G : Graph) (order : List (Int × Int))
    (hperm : order.Perm (Graph.inDegTable G.adj)) (hnn : ∀ v ∈ G.adj.vertices, 0 ≤ v) :
    (∀ x, x ≠ -1 → (G.getSourceSCCIn order = x ↔
      (x ∈ G.adj.vertices ∧ G.adj.inDegree x = 0 ∧
        ∀ y ∈ G.adj.vertices, G.adj.inDegree y = 0 → y = x))) ∧
    (G.getSourceSCCIn order = -1 ↔
      (G.adj.sources.length = 0 ∨ 2 ≤ G.adj.sources.length)) := by
  have hz := Graph.zeros_perm_sources G.adj order hperm
  have hmem : ∀ y, y ∈ G.adj.sources ↔ y ∈ G.adj.vertices ∧ G.adj.inDegree y = 0 := by
    intro y; simp [AdjMap.sources]
  have hl : ∀ p ∈ order, p.2 = 0 → p.1 ≠ -1 := by
    intro p hp _ e
    have hv := ((Graph.mem_inDegTable G.adj p.1 p.2).1 (hperm.subset hp)).1
    have := hnn _ hv
    omega
  have hscan := Graph.sourceScan_init order hl
  unfold Graph.getSourceSCCIn
  rw [hscan]
  generalize hzs : (order.filter (fun p => p.2 = 0)).map Prod.fst = zs at hz
  match zs, hz with
  | [], hz =>
    have hs : G.adj.sources = [] := hz.symm.eq_nil
    refine ⟨fun x hx => ?_, ?_⟩
    · simp only
      constructor
      · intro e; exact absurd e.symm hx
      · rintro ⟨h1, h2, -⟩
        have := (hmem x).2 ⟨h1, h2⟩
        rw [hs] at this
        exact absurd this (List.not_mem_nil _)
    · simp [hs]
  | [z], hz =>
    have hs : G.adj.sources = [z] := List.perm_singleton.1 hz.symm
    have hzv := (hmem z).1 (by rw [hs]; exact List.mem_singleton_self z)
    have hz1 : z ≠ -1 := by
      have := hnn _ hzv.1
      omega
    refine ⟨fun x _ => ?_, ?_⟩
    · simp only
      constructor
      · intro e
        subst e
        refine ⟨hzv.1, hzv.2, fun y hy hd => ?_⟩
        have := (hmem y).2 ⟨hy, hd⟩
        rw [hs] at this
        exact List.mem_singleton.1 this
      · rintro ⟨h1, h2, -⟩
        have := (hmem x).2 ⟨h1, h2⟩
        rw [hs] at this
        exact (List.mem_singleton.1 this).symm
    · simp [hs, hz1]
  | z1 :: z2 :: zs, hz =>
    have hlen : G.adj.sources.length = zs.length + 2 := by
      rw [← hz.length_eq]; rfl
    have hnd : (z1 :: z2 :: zs).Nodup := hz.nodup_iff.2 ((List.nodup_dedup _).filter _)
    refine ⟨fun x hx => ?_, ?_⟩
    · simp only
      constructor
      · intro e; exact absurd e.symm hx
      · rintro ⟨-, -, h3⟩
        have m1 := (hmem z1).1 (hz.subset (List.mem_cons_self _ _))
        have m2 := (hmem z2).1 (hz.subset (List.mem_cons_of_mem _ (List.mem_cons_self _ _)))
        have e1 := h3 z1 m1.1 m1.2
        have e2 := h3 z2 m2.1 m2.2
        rw [List.nodup_cons] at hnd
        exact absurd (List.mem_cons.2 (Or.inl (e1.trans e2.symm))) hnd.1
    · simp only [true_iff]
      right; omega

theorem getSourceSCC_spec_witness :
    (Graph.inDegTable (read_initial_graph 3 2 [(0, 1), (0, 2)]).adj).reverse.Perm
        (Graph.inDegTable (read_initial_graph 3 2 [(0, 1), (0, 2)]).adj) ∧
    (read_initial_graph 3 2 [(0, 1), (0, 2)]).getSourceSCCIn
        (Graph.inDegTable (read_initial_graph 3 2 [(0, 1), (0, 2)]).adj).reverse = 0 ∧
    ((read_initial_graph 3 2 [(0, 1), (0, 2)]).getSourceSCCIn
        (Graph.inDegTable (read_initial_graph 3 2 [(0, 1), (0, 2)]).adj).reverse = -1 ↔
      ((read_initial_graph 3 2 [(0, 1), (0, 2)]).adj.sources.length = 0 ∨
        2 ≤ (read_initial_graph 3 2 [(0, 1), (0, 2)]).adj.sources.length)) :=
  ⟨List.reverse_perm _, by decide,
    (getSourceSCC_spec (read_initial_graph 3 2 [(0, 1), (0, 2)])
      (Graph.inDegTable (read_initial_graph 3 2 [(0, 1), (0, 2)]).adj).reverse
      (List.reverse_perm _) (by decide)).2⟩

end ViewPoint

namespace ViewPoint

/-! ## The reference traversal: shape of a run -/

theorem dfsList_nil (succ : Int → List Int) (n : Nat) (a : DfsState) :
    dfsList succ n [] a = some a := rfl

theorem dfsList_cons (succ : Int → List Int) (n : Nat) (v : Int) (l : List Int) (a : DfsState) :
    dfsList succ n (v :: l) a =
      if v ∈ a.seen then dfsList succ n l a else (dfs succ n v a).bind (dfsList succ n l) := rfl

theorem foldlM_eq_dfsList (succ : Int → List Int) (n : Nat) (l : List Int) (a : DfsState) :
    l.foldlM (fun a v => if v ∈ a.seen then some a else dfs succ n v a) a
      = dfsList succ n l a := by
  induction l generalizing a with
  | nil => rfl
  | cons v l ih =>
    rw [List.foldlM_cons, dfsList_cons]
    by_cases hv : v ∈ a.seen
    · simp only [hv, if_true]
      exact ih a
    · simp only [hv, if_false]
      cases dfs succ n v a with
      | none => rfl
      | some a1 => exact ih a1

theorem dfs_zero (succ : Int → List Int) (u : Int) (a : DfsState) : dfs succ 0 u a = none := rfl

theorem dfs_succ (succ : Int → List Int) (n : Nat) (u : Int) (a : DfsState) :
    dfs succ (n + 1) u a =
      (dfsList succ n (succ u) { a with seen := u :: a.seen }).map
        (fun a => { a with done := u :: a.done }) := by
  rw [← foldlM_eq_dfsList]
  rfl

theorem Extends.base (succ : Int → List Int) (a : DfsState) : Extends succ a a [] [] :=
  ⟨rfl, rfl, List.Perm.nil, by simp, List.nodup_nil, by simp⟩

theorem Extends.comp {succ : Int → List Int} {a a1 a2 : DfsState} {pre1 pst1 pre2 pst2 : List Int}
    (h1 : Extends succ a a1 pre1 pst1) (h2 : Extends succ a1 a2 pre2 pst2) :
    Extends succ a a2 (pre2 ++ pre1) (pst2 ++ pst1) := by
  refine ⟨?_, ?_, h2.perm.append h1.perm, ?_, ?_, ?_⟩
  · rw [h2.seen_eq, h1.seen_eq, List.append_assoc]
  · rw [h2.done_eq, h1.done_eq, List.append_assoc]
  · intro w hw hs
    rcases List.mem_append.1 hw with hw | hw
    · exact h2.fresh w hw (by rw [h1.seen_eq]; exact List.mem_append_right _ hs)
    · exact h1.fresh w hw hs
  · rw [List.nodup_append]
    refine ⟨h2.nodup, h1.nodup, ?_⟩
    intro w hw2 hw1
    exact h2.fresh w hw2 (by rw [h1.seen_eq]; exact List.mem_append_left _ hw1)
  · intro w hw x hx
    rcases List.mem_append.1 hw with hw | hw
    · exact h2.closed w hw x hx
    · rw [h2.seen_eq]
      exact List.mem_append_right _ (h1.closed w hw x hx)

theorem Extends.seen_mono {succ : Int → List Int} {a a' : DfsState} {pre pst : List Int}
    (h : Extends succ a a' pre pst) {x : Int} (hx : x ∈ a.seen) : x ∈ a'.seen := by
  rw [h.seen_eq]; exact List.mem_append_right _ hx

theorem listShape_of_dfsShape (succ : Int → List Int) (n : Nat)
    (hd : ∀ u a a', dfs succ n u a = some a' → u ∉ a.seen → DfsShape succ u a a') :
    ∀ l a a', dfsList succ n l a = some a' → ListShape succ l a a' := by
  intro l
  induction l with
  | nil =>
    intro a a' h
    rw [dfsList_nil] at h
    cases h
    exact ⟨[], [], Extends.base succ a, by simp, by simp⟩
  | cons v l ih =>
    intro a a' h
    rw [dfsList_cons] at h
    by_cases hv : v ∈ a.seen
    · rw [if_pos hv] at h
      obtain ⟨pre, pst, he, hr, hl⟩ := ih a a' h
      refine ⟨pre, pst, he, ?_, ?_⟩
      · intro w hw
        obtain ⟨x, hx, hxw⟩ := hr w hw
        exact ⟨x, List.mem_cons_of_mem _ hx, hxw⟩
      · intro x hx
        rcases List.mem_cons.1 hx with e | hx
        · subst e; exact he.seen_mono hv
        · exact hl x hx
    · rw [if_neg hv] at h
      cases h1 : dfs succ n v a with
      | none => rw [h1] at h; cases h
      | some a1 =>
        rw [h1] at h
        obtain ⟨pre1, pst1, he1, hr1⟩ := hd v a a1 h1 hv
        obtain ⟨pre2, pst2, he2, hr2, hl2⟩ := ih a1 a' h
        refine ⟨pre2 ++ (pre1 ++ [v]), pst2 ++ (v :: pst1), he1.comp he2, ?_, ?_⟩
        · intro w hw
          rcases List.mem_append.1 hw with hw | hw
          · obtain ⟨x, hx, hxw⟩ := hr2 w hw
            exact ⟨x, List.mem_cons_of_mem _ hx, hxw⟩
          · exact ⟨v, List.mem_cons_self _ _, hr1 w hw⟩
        · intro x hx
          rcases List.mem_cons.1 hx with e | hx
          · subst e
            apply he2.seen_mono
            rw [he1.seen_eq]
            simp
          · exact hl2 x hx

theorem dfs_shape (succ : Int → List Int) :
    ∀ n u a a', dfs succ n u a = some a' → u ∉ a.seen → DfsShape succ u a a' := by
  intro n
  induction n with
  | zero => intro u a a' h; rw [dfs_zero] at h; cases h
  | succ n ih =>
    intro u a a' h hu
    rw [dfs_succ] at h
    cases h2 : dfsList succ n (succ u) { a with seen := u :: a.seen } with
    | none => rw [h2] at h; cases h
    | some a2 =>
      rw [h2] at h
      simp only [Option.map_some', Option.some.injEq] at h
      subst h
      obtain ⟨pre, pst, he, hr, hl⟩ := listShape_of_dfsShape succ n ih _ _ _ h2
      refine ⟨pre, pst, ⟨?_, ?_, ?_, ?_, ?_, ?_⟩, ?_⟩
      · simp [he.seen_eq]
      · simp [he.done_eq]
      · exact (List.perm_append_singleton u pre).trans (he.perm.cons u)
      · intro w hw hs
        rcases List.mem_append.1 hw with hw | hw
        · exact he.fresh w hw (List.mem_cons_of_mem _ hs)
        · rw [List.mem_singleton] at hw; subst hw; exact hu hs
      · rw [List.nodup_append]
        refine ⟨he.nodup, List.nodup_singleton u, ?_⟩
        intro w hw hw'
        rw [List.mem_singleton] at hw'; subst hw'
        exact he.fresh w hw (List.mem_cons_self _ _)
      · intro w hw x hx
        rcases List.mem_append.1 hw with hw | hw
        · exact he.closed w hw x hx
        · rw [List.mem_singleton] at hw; subst hw
          exact hl x hx
      · intro w hw
        rcases List.mem_append.1 hw with hw | hw
        · obtain ⟨x, hx, hxw⟩ := hr w hw
          exact Relation.ReflTransGen.head hx hxw
        · rw [List.mem_singleton] at hw; subst hw
          exact Relation.ReflTransGen.refl

theorem dfsList_shape (succ : Int → List Int) (n : Nat) (l : List Int) (a a' : DfsState)
    (h : dfsList succ n l a = some a') : ListShape succ l a a' :=
  listShape_of_dfsShape succ n (dfs_shape succ n) l a a' h

end ViewPoint

namespace ViewPoint

/-! ## The reference traversal: termination -/

theorem card_sdiff_seen_mono (U : Finset Int) {s t : List Int} (h : ∀ x ∈ s, x ∈ t) :
    (U \ t.toFinset).card ≤ (U \ s.toFinset).card := by
  apply Finset.card_le_card
  intro x hx
  rw [Finset.mem_sdiff, List.mem_toFinset] at hx ⊢
  exact ⟨hx.1, fun hs => hx.2 (h x hs)⟩

theorem card_sdiff_seen_cons (U : Finset Int) (s : List Int) (u : Int) (hu : u ∈ U)
    (hs : u ∉ s) : (U \ (u :: s).toFinset).card < (U \ s.toFinset).card := by
  apply Finset.card_lt_card
  rw [Finset.ssubset_iff_of_subset]
  · refine ⟨u, ?_, ?_⟩
    · rw [Finset.mem_sdiff, List.mem_toFinset]; exact ⟨hu, hs⟩
    · rw [Finset.mem_sdiff, List.mem_toFinset]
      exact fun h => h.2 (List.mem_cons_self _ _)
  · intro x hx
    rw [Finset.mem_sdiff, List.mem_toFinset] at hx ⊢
    exact ⟨hx.1, fun h => hx.2 (List.mem_cons_of_mem _ h)⟩

theorem dfsList_terminates_of (succ : Int → List Int) (U : Finset Int) (n : Nat)
    (hd : ∀ u a, u ∈ U → u ∉ a.seen → (U \ a.seen.toFinset).card ≤ n →
      ∃ a', dfs succ n u a = some a') :
    ∀ l a, (∀ v ∈ l, v ∈ U) → (U \ a.seen.toFinset).card ≤ n →
      ∃ a', dfsList succ n l a = some a' := by
  intro l
  induction l with
  | nil => intro a _ _; exact ⟨a, rfl⟩
  | cons v l ih =>
    intro a hl hc
    rw [dfsList_cons]
    by_cases hv : v ∈ a.seen
    · rw [if_pos hv]
      exact ih a (fun x hx => hl x (List.mem_cons_of_mem _ hx)) hc
    · rw [if_neg hv]
      obtain ⟨a1, h1⟩ := hd v a (hl v (List.mem_cons_self _ _)) hv hc
      rw [h1]
      obtain ⟨pre, pst, he, -⟩ := dfs_shape succ n v a a1 h1 hv
      apply ih a1 (fun x hx => hl x (List.mem_cons_of_mem _ hx))
      exact le_trans (card_sdiff_seen_mono U (fun x hx => he.seen_mono hx)) hc

theorem dfs_terminates (succ : Int → List Int) (U : Finset Int)
    (hU : ∀ x ∈ U, ∀ v ∈ succ x, v ∈ U) :
    ∀ n u a, u ∈ U → u ∉ a.seen → (U \ a.seen.toFinset).card ≤ n →
      ∃ a', dfs succ n u a = some a' := by
  intro n
  induction n with
  | zero =>
    intro u a hu hs hc
    have := card_sdiff_seen_cons U a.seen u hu hs
    omega
  | succ n ih =>
    intro u a hu hs hc
    rw [dfs_succ]
    have hlt := card_sdiff_seen_cons U a.seen u hu hs
    obtain ⟨a2, h2⟩ := dfsList_terminates_of succ U n ih (succ u)
      { a with seen := u :: a.seen } (hU u hu) (by simp only; omega)
    rw [h2]
    exact ⟨_, rfl⟩

theorem dfsList_terminates (succ : Int → List Int) (U : Finset Int)
    (hU : ∀ x ∈ U, ∀ v ∈ succ x, v ∈ U) (n : Nat) (l : List Int) (a : DfsState)
    (hl : ∀ v ∈ l, v ∈ U) (hc : (U \ a.seen.toFinset).card ≤ n) :
    ∃ a', dfsList succ n l a = some a' :=
  dfsList_terminates_of succ U n (dfs_terminates succ U hU n) l a hl hc

end ViewPoint

namespace ViewPoint

/-! ## The reference traversal: the order in which vertices are left -/

theorem Before.append_left {l1 : List Int} {z y : Int} (h : Before l1 z y) (l2 : List Int) :
    Before (l1 ++ l2) z y := by
  obtain ⟨p, q, e, hy⟩ := h
  refine ⟨p, q ++ l2, by rw [e]; simp, ?_⟩
  rcases List.mem_cons.1 hy with hy | hy
  · exact List.mem_cons.2 (Or.inl hy)
  · exact List.mem_cons_of_mem _ (List.mem_append_left _ hy)

theorem Before.append_right {l2 : List Int} {z y : Int} (h : Before l2 z y) (l1 : List Int) :
    Before (l1 ++ l2) z y := by
  obtain ⟨p, q, e, hy⟩ := h
  exact ⟨l1 ++ p, q, by rw [e]; simp, hy⟩

theorem Before.cross {l1 l2 : List Int} {z y : Int} (hz : z ∈ l1) (hy : y ∈ l2) :
    Before (l1 ++ l2) z y := by
  obtain ⟨p, q, e⟩ := List.append_of_mem hz
  refine ⟨p, q ++ l2, by rw [e]; simp, ?_⟩
  exact List.mem_cons_of_mem _ (List.mem_append_right _ hy)

theorem Before.head {l : List Int} {u y : Int} (hy : y ∈ u :: l) : Before (u :: l) u y :=
  ⟨[], l, rfl, hy⟩

theorem Before.cons {l : List Int} {z y : Int} (h : Before l z y) (u : Int) :
    Before (u :: l) z y :=
  Before.append_right h [u]

theorem Before.mem_left {l : List Int} {z y : Int} (h : Before l z y) : z ∈ l := by
  obtain ⟨p, q, e, -⟩ := h
  rw [e]; simp

theorem Before.eq_or_mem_prefix {P R : List Int} {z u : Int} (hnd : (P ++ u :: R).Nodup)
    (h : Before (P ++ u :: R) z u) : z = u ∨ z ∈ P := by
  obtain ⟨p, q, e, hu⟩ := h
  rcases List.mem_cons.1 hu with hu | hu
  · exact Or.inl hu.symm
  · right
    -- `u` occurs once, inside `q`; so `z` sits before it
    obtain ⟨q1, q2, eq⟩ := List.append_of_mem hu
    rw [eq] at e
    have e' : P ++ u :: R = (p ++ z :: q1) ++ u :: q2 := by rw [e]; simp
    have hnotP : u ∉ P := by
      intro hP
      have := (List.nodup_append.1 hnd).2.2 hP (List.mem_cons_self _ _)
      exact this
    have hnot : u ∉ p ++ z :: q1 := by
      intro hP
      rw [e'] at hnd
      exact (List.nodup_append.1 hnd).2.2 hP (List.mem_cons_self _ _)
    have := List.append_eq_append_iff.1 e'
    rcases this with ⟨c, hc1, hc2⟩ | ⟨c, hc1, hc2⟩
    · -- p ++ z :: q1 = P ++ c, u :: R = c ++ u :: q2
      cases c with
      | nil =>
        simp only [List.append_nil] at hc1
        rw [← hc1]; simp
      | cons d c =>
        simp only [List.cons_append, List.cons.injEq] at hc2
        exfalso
        apply hnot
        rw [hc1, ← hc2.1]
        simp
    · -- P = (p ++ z :: q1) ++ c
      rw [hc1]; simp

theorem reach_stays (succ : Int → List Int) (s : List Int) (Gr : Int → Prop)
    (hback : ∀ x w, Reach succ x w → Gr w → Gr x) (hc : ClosedOr succ s Gr)
    {x y : Int} (hx : x ∈ s) (hg : ¬ Gr x) (hr : Reach succ x y) : y ∈ s := by
  induction hr with
  | refl => exact hx
  | tail hxy hyz ih =>
    rename_i b c
    rcases hc b ih with h | h
    · exact h c hyz
    · exact absurd (hback x b hxy h) hg

theorem Extends.pst_unique {succ : Int → List Int} {a a' : DfsState}
    {pre pst pre' pst' : List Int}
    (h : Extends succ a a' pre pst) (h' : Extends succ a a' pre' pst') : pst = pst' := by
  have := h.done_eq.symm.trans h'.done_eq
  exact List.append_cancel_right this

theorem Extends.pre_unique {succ : Int → List Int} {a a' : DfsState}
    {pre pst pre' pst' : List Int}
    (h : Extends succ a a' pre pst) (h' : Extends succ a a' pre' pst') : pre = pre' := by
  have := h.seen_eq.symm.trans h'.seen_eq
  exact List.append_cancel_right this

theorem listOrder_of_dfsOrder (succ : Int → List Int) (n : Nat)
    (hd : ∀ u a a' (Gr : Int → Prop), (∀ x w, Reach succ x w → Gr w → Gr x) →
      ClosedOr succ a.seen Gr → dfs succ n u a = some a' → u ∉ a.seen →
      ∀ pre pst, Extends succ a a' pre pst → LeftOrder succ Gr pst) :
    ∀ l a a' (Gr : Int → Prop), (∀ x w, Reach succ x w → Gr w → Gr x) →
      ClosedOr succ a.seen Gr → dfsList succ n l a = some a' →
      ∀ pre pst, Extends succ a a' pre pst → LeftOrder succ Gr pst := by
  intro l
  induction l with
  | nil =>
    intro a a' Gr _ _ h pre pst he
    rw [dfsList_nil] at h
    cases h
    have := he.pst_unique (Extends.base succ a)
    subst this
    intro x hx
    exact absurd hx (List.not_mem_nil _)
  | cons v l ih =>
    intro a a' Gr hback hc h pre pst he
    rw [dfsList_cons] at h
    by_cases hv : v ∈ a.seen
    · rw [if_pos hv] at h
      exact ih a a' Gr hback hc h pre pst he
    · rw [if_neg hv] at h
      cases h1 : dfs succ n v a with
      | none => rw [h1] at h; cases h
      | some a1 =>
        rw [h1] at h
        obtain ⟨pre1, pst1, he1, -⟩ := dfs_shape succ n v a a1 h1 hv
        obtain ⟨pre2, pst2, he2, -, -⟩ := dfsList_shape succ n l a1 a' h
        have hc1 : ClosedOr succ a1.seen Gr := by
          intro w hw
          rw [he1.seen_eq] at hw
          rcases List.mem_append.1 hw with hw | hw
          · exact Or.inl (he1.closed w hw)
          · rcases hc w hw with h | h
            · exact Or.inl (fun x hx => he1.seen_mono (h x hx))
            · exact Or.inr h
        have q1 := hd v a a1 Gr hback hc h1 hv _ _ he1
        have q2 := ih a1 a' Gr hback hc1 h _ _ he2
        have e := he.pst_unique (he1.comp he2)
        subst e
        intro x hx y hy hr hg
        rcases List.mem_append.1 hx with hx | hx
        · rcases List.mem_append.1 hy with hy | hy
          · obtain ⟨z, hz, hb⟩ := q2 x hx y hy hr hg
            exact ⟨z, hz, hb.append_left _⟩
          · exact ⟨x, ⟨Relation.ReflTransGen.refl, Relation.ReflTransGen.refl⟩,
              Before.cross hx hy⟩
        · rcases List.mem_append.1 hy with hy | hy
          · exfalso
            have hx1 : x ∈ a1.seen := by
              rw [he1.seen_eq]
              exact List.mem_append_left _ (he1.perm.symm.subset hx)
            have hy1 := reach_stays succ a1.seen Gr hback hc1 hx1 hg hr
            exact he2.fresh y (he2.perm.symm.subset hy) hy1
          · obtain ⟨z, hz, hb⟩ := q1 x hx y hy hr hg
            exact ⟨z, hz, hb.append_right _⟩

theorem dfs_order (succ : Int → List Int) :
    ∀ n u a a' (Gr : Int → Prop), (∀ x w, Reach succ x w → Gr w → Gr x) →
      ClosedOr succ a.seen Gr → dfs succ n u a = some a' → u ∉ a.seen →
      ∀ pre pst, Extends succ a a' pre pst → LeftOrder succ Gr pst := by
  intro n
  induction n with
  | zero => intro u a a' Gr _ _ h; rw [dfs_zero] at h; cases h
  | succ n ih =>
    intro u a a' Gr hback hc h hu pre pst he
    obtain ⟨pre0, pst0, he', hreach⟩ := dfs_shape succ (n + 1) u a a' h hu
    have e := he.pst_unique he'
    subst e
    rw [dfs_succ] at h
    cases h2 : dfsList succ n (succ u) { a with seen := u :: a.seen } with
    | none => rw [h2] at h; cases h
    | some a2 =>
      rw [h2] at h
      simp only [Option.map_some', Option.some.injEq] at h
      obtain ⟨pre2, pst2, he2, -, -⟩ := dfsList_shape succ n _ _ _ h2
      have e0 : pst0 = pst2 := by
        have h1 := he'.done_eq
        rw [← h] at h1
        simp only [he2.done_eq, List.cons_append, List.cons.injEq, true_and] at h1
        exact (List.append_cancel_right h1).symm
      subst e0
      have hback' : ∀ x w, Reach succ x w → (Reach succ w u ∨ Gr w) → (Reach succ x u ∨ Gr x) := by
        intro x w hxw hw
        rcases hw with hw | hw
        · exact Or.inl (hxw.trans hw)
        · exact Or.inr (hback x w hxw hw)
      have hc' : ClosedOr succ (u :: a.seen) (fun w => Reach succ w u ∨ Gr w) := by
        intro w hw
        rcases List.mem_cons.1 hw with e | hw
        · subst e; exact Or.inr (Or.inl Relation.ReflTransGen.refl)
        · rcases hc w hw with h | h
          · exact Or.inl (fun x hx => List.mem_cons_of_mem _ (h x hx))
          · exact Or.inr (Or.inr h)
      have q := listOrder_of_dfsOrder succ n ih (succ u) _ a2 _ hback' hc' h2 _ _ he2
      intro x hx y hy hr hg
      by_cases hxu : Reach succ x u
      · refine ⟨u, ⟨hxu, ?_⟩, Before.head hy⟩
        apply hreach x
        have := he'.perm.symm.subset hx
        exact this
      · have hx' : x ∈ pst0 := by
          rcases List.mem_cons.1 hx with e | hx
          · subst e; exact absurd Relation.ReflTransGen.refl hxu
          · exact hx
        have hy' : y ∈ pst0 := by
          rcases List.mem_cons.1 hy with e | hy
          · subst e; exact absurd hr hxu
          · exact hy
        obtain ⟨z, hz, hb⟩ := q x hx' y hy' hr (fun h => h.elim hxu hg)
        exact ⟨z, hz, hb.cons u⟩

theorem dfsList_order (succ : Int → List Int) (n : Nat) (l : List Int) (a a' : DfsState)
    (Gr : Int → Prop) (hback : ∀ x w, Reach succ x w → Gr w → Gr x)
    (hc : ClosedOr succ a.seen Gr) (h : dfsList succ n l a = some a')
    (pre pst : List Int) (he : Extends succ a a' pre pst) : LeftOrder succ Gr pst :=
  listOrder_of_dfsOrder succ n (dfs_order succ n) l a a' Gr hback hc h pre pst he

end ViewPoint

namespace ViewPoint

/-! ## Vectors and arrays -/

theorem vecGet_of_inRange (vis : List Bool) (x : Int) (h : InRange vis.length x) :
    ∃ b, vecGet vis x = .ok b ∧ (b = true ↔ Marked vis x) := by
  unfold Marked vecGet
  unfold InRange at h
  rw [if_pos h]
  refine ⟨_, rfl, ?_⟩
  simp

theorem Marked.inRange {vis : List Bool} {x : Int} (h : Marked vis x) : InRange vis.length x := by
  unfold Marked vecGet at h
  unfold InRange
  by_contra hc
  rw [if_neg hc] at h
  cases h

theorem vecSet_of_inRange (vis : List Bool) (u : Int) (b : Bool) (h : InRange vis.length u) :
    vecSet vis u b = .ok (vis.set u.toNat b) := by
  unfold vecSet
  unfold InRange at h
  rw [if_pos h]

theorem marked_set (vis : List Bool) (u : Int) (h : InRange vis.length u) (x : Int) :
    Marked (vis.set u.toNat true) x ↔ Marked vis x ∨ x = u := by
  unfold Marked vecGet
  unfold InRange at h
  rw [List.length_set]
  by_cases hx : 0 ≤ x ∧ x < (vis.length : Int)
  · rw [if_pos hx, if_pos hx]
    simp only [Except.ok.injEq, List.getD_eq_getElem?_getD, List.getElem?_set]
    by_cases e : x = u
    · subst e
      have : x.toNat < vis.length := by omega
      simp [this]
    · have : ¬ u.toNat = x.toNat := by omega
      simp [this, e]
  · rw [if_neg hx, if_neg hx]
    constructor
    · intro h'; cases h'
    · rintro (h' | h')
      · cases h'
      · subst h'; exact absurd h hx

theorem not_marked_replicate (n : Nat) (x : Int) : ¬ Marked (List.replicate n false) x := by
  unfold Marked vecGet
  split
  · rename_i h
    have : x.toNat < n := by
      have := h.2
      rw [List.length_replicate] at this
      omega
    simp [List.getD_eq_getElem?_getD, List.getElem?_replicate, this]
  · intro h; cases h

/-! ## `buildTopo` runs the reference traversal -/

namespace Graph

theorem buildTopo_zero (u : Int) (s : TopoState) : buildTopo 0 u s = .error .outOfFuel := rfl

theorem buildTopo_succ (n : Nat) (u : Int) (s : TopoState) :
    buildTopo (n + 1) u s =
      (vecSet s.vis u true >>= fun vis =>
        ((s.adj.index u).find u).foldlM
          (fun s v => do
            if !(← vecGet s.vis v) then buildTopo n v s else pure s)
          { s with vis := vis, adj := s.adj.index u } >>= fun s =>
        pure { s with stk := u :: s.stk }) := rfl

theorem topoBody_eq (n : Nat) (s : TopoState) (v : Int) (b : Bool)
    (h : vecGet s.vis v = .ok b) :
    (do if !(← vecGet s.vis v) then buildTopo n v s else pure s : Except Fault TopoState)
      = if b then pure s else buildTopo n v s := by
  rw [h]
  cases b <;> rfl

end Graph

end ViewPoint

namespace ViewPoint

namespace AdjMap

theorem edges_insertKey (m : AdjMap) (k : Int) : (m.insertKey k).edges = m.edges := by
  induction m with
  | nil => rfl
  | cons p rest ih =>
    obtain ⟨k', l⟩ := p
    unfold insertKey
    split
    · rw [edges_cons]; rfl
    · rw [edges_cons, edges_cons, ih]

theorem edges_index (m : AdjMap) (k : Int) : (m.index k).edges = m.edges := by
  unfold index
  split
  · rfl
  · exact edges_insertKey m k

end AdjMap

namespace Graph

theorem topo_sim_list (succ : Int → List Int) (V : Int) (es : List (Int × Int)) (n : Nat)
    (hd : ∀ u s a a', InRange V u → TopoRel succ V es s a → dfs succ n u a = some a' →
      ∃ s', buildTopo n u s = .ok s' ∧ TopoRel succ V es s' a') :
    ∀ (l : List Int) s a a', (∀ v ∈ l, InRange V v) → TopoRel succ V es s a →
      dfsList succ n l a = some a' →
      ∃ s', l.foldlM
          (fun s v => do
            if !(← vecGet s.vis v) then buildTopo n v s else pure s) s = .ok s' ∧
        TopoRel succ V es s' a' := by
  intro l
  induction l with
  | nil =>
    intro s a a' _ hr h
    rw [dfsList_nil] at h
    cases h
    exact ⟨s, rfl, hr⟩
  | cons v l ih =>
    intro s a a' hl hr h
    have hv : InRange (s.vis.length : Int) v := by rw [hr.len]; exact hl v (List.mem_cons_self _ _)
    obtain ⟨b, hb, hbm⟩ := vecGet_of_inRange s.vis v hv
    rw [List.foldlM_cons, topoBody_eq n s v b hb]
    rw [dfsList_cons] at h
    by_cases hs : v ∈ a.seen
    · rw [if_pos hs] at h
      have : b = true := hbm.2 ((hr.seen v).1 hs)
      subst this
      exact ih s a a' (fun x hx => hl x (List.mem_cons_of_mem _ hx)) hr h
    · rw [if_neg hs] at h
      have : b = false := by
        cases b with
        | false => rfl
        | true => exact absurd ((hr.seen v).2 (hbm.1 rfl)) hs
      subst this
      cases h1 : dfs succ n v a with
      | none => rw [h1] at h; cases h
      | some a1 =>
        rw [h1] at h
        obtain ⟨s1, hs1, hr1⟩ := hd v s a a1 (hl v (List.mem_cons_self _ _)) hr h1
        obtain ⟨s', hs', hr'⟩ := ih s1 a1 a' (fun x hx => hl x (List.mem_cons_of_mem _ hx)) hr1 h
        refine ⟨s', ?_, hr'⟩
        simp only [Bool.false_eq_true, if_false]
        rw [hs1]
        exact hs'

theorem topo_sim (succ : Int → List Int) (V : Int) (es : List (Int × Int))
    (hrange : ∀ x, ∀ v ∈ succ x, InRange V v) :
    ∀ n u s a a', InRange V u → TopoRel succ V es s a → dfs succ n u a = some a' →
      ∃ s', buildTopo n u s = .ok s' ∧ TopoRel succ V es s' a' := by
  intro n
  induction n with
  | zero => intro u s a a' _ _ h; rw [dfs_zero] at h; cases h
  | succ n ih =>
    intro u s a a' hu hr h
    rw [dfs_succ] at h
    cases h2 : dfsList succ n (succ u) { a with seen := u :: a.seen } with
    | none => rw [h2] at h; cases h
    | some a2 =>
      rw [h2] at h
      simp only [Option.map_some', Option.some.injEq] at h
      subst h
      have hu' : InRange (s.vis.length : Int) u := by rw [hr.len]; exact hu
      have hr0 : TopoRel succ V es
          { s with vis := s.vis.set u.toNat true, adj := s.adj.index u }
          { a with seen := u :: a.seen } := by
        refine ⟨?_, ?_, hr.stk, ?_, AdjMap.index_ordered _ _ hr.ordered, ?_⟩
        · simp only [List.length_set]; exact hr.len
        · intro x
          simp only [List.mem_cons]
          rw [marked_set s.vis u hu' x, ← hr.seen x]
          tauto
        · intro x
          simp only [AdjMap.find_index]
          exact hr.find x
        · simp only [AdjMap.edges_index]
          exact hr.edges
      have hfind : (s.adj.index u).find u = succ u := by
        rw [AdjMap.find_index]; exact hr.find u
      obtain ⟨s2, hs2, hr2⟩ := topo_sim_list succ V es n ih (succ u) _ _ a2 (hrange u) hr0 h2
      refine ⟨{ s2 with stk := u :: s2.stk }, ?_, ?_⟩
      · rw [buildTopo_succ, vecSet_of_inRange s.vis u true hu', hfind]
        show (Except.ok _ >>= _) = _
        simp only [bind, Except.bind]
        simp only [bind, Except.bind] at hs2
        rw [hs2]
        rfl
      · exact ⟨hr2.len, hr2.seen, by simp [hr2.stk], hr2.find, hr2.ordered, hr2.edges⟩

end Graph

end ViewPoint

namespace ViewPoint

namespace Graph

theorem WellFormed.succ_inRange {G : Graph} (h : G.WellFormed) (x : Int) :
    ∀ v ∈ G.adj.find x, InRange G.V v := by
  intro v hv
  have := h.2.2 (x, v) ((AdjMap.mem_find_iff G.adj h.2.1 x v).1 hv)
  exact this.2

/-- The vertices `0, 1, ..., V - 1` in the order of the loop of `getTopoSort`. -/
theorem mem_vertexRange (V : Int) (x : Int) :
    x ∈ (List.range V.toNat).map Int.ofNat ↔ InRange V x := by
  simp only [List.mem_map, List.mem_range, InRange]
  constructor
  · rintro ⟨n, hn, e⟩
    subst e
    constructor
    · exact Int.ofNat_nonneg n
    · have : (n : Int) < V.toNat := by exact_mod_cast hn
      have h2 : (V.toNat : Int) = max V 0 := Int.toNat_eq_max V
      simp only [Int.ofNat_eq_coe]
      omega
  · rintro ⟨h0, h1⟩
    refine ⟨x.toNat, by omega, ?_⟩
    simp only [Int.ofNat_eq_coe]
    omega

theorem getTopoSort_eq (G : Graph) :
    G.getTopoSort =
      (vecMake G.V >>= fun vis =>
        ((List.range G.V.toNat).map Int.ofNat).foldlM
          (fun s v => do
            if !(← vecGet s.vis v) then buildTopo G.V.toNat v s else pure s)
          { adj := G.adj, vis := vis, stk := [] } >>= fun s =>
        pure (s.stk, { G with adj := s.adj })) := by
  unfold getTopoSort
  simp only [List.foldlM_map]
  rfl

theorem getTopoSort_spec (G : Graph) (h : G.WellFormed) :
    ∃ stk G1, G.getTopoSort = .ok (stk, G1) ∧ TopoSpec G stk G1 := by
  have hV : 0 ≤ G.V := h.1
  have hrange := h.succ_inRange
  let L := (List.range G.V.toNat).map Int.ofNat
  have hU : ∀ x ∈ L.toFinset, ∀ v ∈ G.adj.find x, v ∈ L.toFinset := by
    intro x _ v hv
    rw [List.mem_toFinset, mem_vertexRange]
    exact hrange x v hv
  have hcard : (L.toFinset \ ([] : List Int).toFinset).card ≤ G.V.toNat := by
    simp only [List.toFinset_nil, Finset.sdiff_empty]
    refine le_trans (List.toFinset_card_le L) ?_
    simp [L]
  obtain ⟨a', ha'⟩ := dfsList_terminates G.adj.find L.toFinset hU G.V.toNat L
    ⟨[], []⟩ (fun v hv => List.mem_toFinset.2 hv) hcard
  obtain ⟨pre, pst, he, -, hall⟩ := dfsList_shape _ _ _ _ _ ha'
  have hord := dfsList_order G.adj.find G.V.toNat L ⟨[], []⟩ a' (fun _ => False)
    (fun _ _ _ hf => hf) (fun w hw => absurd hw (List.not_mem_nil _)) ha' pre pst he
  have hr0 : TopoRel G.adj.find G.V G.adj.edges
      { adj := G.adj, vis := List.replicate G.V.toNat false, stk := [] } ⟨[], []⟩ := by
    refine ⟨?_, ?_, rfl, fun _ => rfl, h.2.1, rfl⟩
    · simp only [List.length_replicate]; omega
    · intro x
      simp only [List.not_mem_nil, false_iff]
      exact not_marked_replicate _ x
  obtain ⟨s', hs', hr'⟩ := topo_sim_list G.adj.find G.V G.adj.edges G.V.toNat
    (topo_sim G.adj.find G.V G.adj.edges hrange G.V.toNat) L _ _ a'
    (fun v hv => (mem_vertexRange G.V v).1 hv) hr0 ha'
  refine ⟨s'.stk, { G with adj := s'.adj }, ?_, ?_⟩
  · rw [getTopoSort_eq]
    unfold vecMake
    rw [if_pos hV]
    simp only [bind, Except.bind]
    simp only [bind, Except.bind] at hs'
    rw [hs']
    rfl
  · have hdone : a'.done = pst := by simpa using he.done_eq
    have hseen : a'.seen = pre := by simpa using he.seen_eq
    refine ⟨rfl, rfl, hr'.ordered, hr'.edges, hr'.find, ?_, ?_, ?_⟩
    · rw [hr'.stk, hdone]
      exact he.perm.nodup_iff.1 he.nodup
    · intro x
      rw [hr'.stk, hdone]
      constructor
      · intro hx
        have : x ∈ a'.seen := by rw [hseen]; exact he.perm.symm.subset hx
        have := ((hr'.seen x).1 this).inRange
        rw [hr'.len] at this
        exact this
      · intro hx
        have := hall x ((mem_vertexRange G.V x).2 hx)
        rw [hseen] at this
        exact he.perm.subset this
    · rw [hr'.stk, hdone]
      exact hord

end Graph

end ViewPoint

namespace ViewPoint

/-! ## `buildGraph` runs the reference traversal -/

namespace Graph

theorem buildGraph_zero (u : Int) (s : SccState) : buildGraph 0 u s = .error .outOfFuel := rfl

theorem buildGraph_succ (n : Nat) (u : Int) (s : SccState) :
    buildGraph (n + 1) u s =
      (vecSet s.vis u true >>= fun vis =>
        ((s.adjT.index u).find u).foldlM
          (fun s v => do
            if !(← vecGet s.vis v) then buildGraph n v s else pure s)
          { adjT := s.adjT.index u, vis := vis, component := s.component ++ [u] }) := rfl

theorem sccBody_eq (n : Nat) (s : SccState) (v : Int) (b : Bool)
    (h : vecGet s.vis v = .ok b) :
    (do if !(← vecGet s.vis v) then buildGraph n v s else pure s : Except Fault SccState)
      = if b then pure s else buildGraph n v s := by
  rw [h]
  cases b <;> rfl

theorem scc_sim_list (succT : Int → List Int) (V : Int) (base : List Int) (n : Nat)
    (hd : ∀ u s a a', InRange V u → SccRel succT V base s a → dfs succT n u a = some a' →
      ∃ s', buildGraph n u s = .ok s' ∧ SccRel succT V base s' a') :
    ∀ (l : List Int) s a a', (∀ v ∈ l, InRange V v) → SccRel succT V base s a →
      dfsList succT n l a = some a' →
      ∃ s', l.foldlM
          (fun s v => do
            if !(← vecGet s.vis v) then buildGraph n v s else pure s) s = .ok s' ∧
        SccRel succT V base s' a' := by
  intro l
  induction l with
  | nil =>
    intro s a a' _ hr h
    rw [dfsList_nil] at h
    cases h
    exact ⟨s, rfl, hr⟩
  | cons v l ih =>
    intro s a a' hl hr h
    have hv : InRange (s.vis.length : Int) v := by rw [hr.len]; exact hl v (List.mem_cons_self _ _)
    obtain ⟨b, hb, hbm⟩ := vecGet_of_inRange s.vis v hv
    rw [List.foldlM_cons, sccBody_eq n s v b hb]
    rw [dfsList_cons] at h
    by_cases hs : v ∈ a.seen
    · rw [if_pos hs] at h
      have : b = true := hbm.2 ((hr.seen v).1 hs)
      subst this
      exact ih s a a' (fun x hx => hl x (List.mem_cons_of_mem _ hx)) hr h
    · rw [if_neg hs] at h
      have : b = false := by
        cases b with
        | false => rfl
        | true => exact absurd ((hr.seen v).2 (hbm.1 rfl)) hs
      subst this
      cases h1 : dfs succT n v a with
      | none => rw [h1] at h; cases h
      | some a1 =>
        rw [h1] at h
        obtain ⟨s1, hs1, hr1⟩ := hd v s a a1 (hl v (List.mem_cons_self _ _)) hr h1
        obtain ⟨s', hs', hr'⟩ := ih s1 a1 a' (fun x hx => hl x (List.mem_cons_of_mem _ hx)) hr1 h
        refine ⟨s', ?_, hr'⟩
        simp only [Bool.false_eq_true, if_false]
        rw [hs1]
        exact hs'

theorem scc_sim (succT : Int → List Int) (V : Int) (base : List Int)
    (hrange : ∀ x, ∀ v ∈ succT x, InRange V v) :
    ∀ n u s a a', InRange V u → SccRel succT V base s a → dfs succT n u a = some a' →
      ∃ s', buildGraph n u s = .ok s' ∧ SccRel succT V base s' a' := by
  intro n
  induction n with
  | zero => intro u s a a' _ _ h; rw [dfs_zero] at h; cases h
  | succ n ih =>
    intro u s a a' hu hr h
    rw [dfs_succ] at h
    cases h2 : dfsList succT n (succT u) { a with seen := u :: a.seen } with
    | none => rw [h2] at h; cases h
    | some a2 =>
      rw [h2] at h
      simp only [Option.map_some', Option.some.injEq] at h
      subst h
      have hu' : InRange (s.vis.length : Int) u := by rw [hr.len]; exact hu
      have hr0 : SccRel succT V base
          { adjT := s.adjT.index u, vis := s.vis.set u.toNat true,
            component := s.component ++ [u] }
          { a with seen := u :: a.seen } := by
        refine ⟨?_, ?_, ?_, ?_⟩
        · simp only [List.length_set]; exact hr.len
        · intro x
          simp only [List.mem_cons]
          rw [marked_set s.vis u hu' x, ← hr.seen x]
          tauto
        · simp [hr.comp]
        · intro x
          simp only [AdjMap.find_index]
          exact hr.find x
      have hfind : (s.adjT.index u).find u = succT u := by
        rw [AdjMap.find_index]; exact hr.find u
      obtain ⟨s2, hs2, hr2⟩ := scc_sim_list succT V base n ih (succT u) _ _ a2 (hrange u) hr0 h2
      refine ⟨s2, ?_, ?_⟩
      · rw [buildGraph_succ, vecSet_of_inRange s.vis u true hu', hfind]
        exact hs2
      · exact ⟨hr2.len, hr2.seen, hr2.comp, hr2.find⟩

end Graph

end ViewPoint

namespace ViewPoint

/-! ## The array `roots` -/

theorem arrSet_of_inRange (roots : List (Option Int)) (u r : Int)
    (h : InRange roots.length u) : arrSet roots u r = .ok (roots.set u.toNat (some r)) := by
  unfold arrSet
  unfold InRange at h
  rw [if_pos h]

theorem getD_set_some (roots : List (Option Int)) (u r : Int) (h : InRange roots.length u)
    (x : Int) (hx : 0 ≤ x) :
    (roots.set u.toNat (some r)).getD x.toNat none
      = if x = u then some r else roots.getD x.toNat none := by
  unfold InRange at h
  simp only [List.getD_eq_getElem?_getD, List.getElem?_set]
  by_cases e : x = u
  · subst e
    have : x.toNat < roots.length := by omega
    simp [this]
  · have : ¬ u.toNat = x.toNat := by omega
    simp [this, e]

theorem arrGet_set (roots : List (Option Int)) (u r : Int) (h : InRange roots.length u)
    (x : Int) :
    arrGet (roots.set u.toNat (some r)) x = if x = u then .ok r else arrGet roots x := by
  unfold arrGet
  rw [List.length_set]
  by_cases hx : 0 ≤ x ∧ x < (roots.length : Int)
  · rw [if_pos hx, if_pos hx, getD_set_some roots u r h x hx.1]
    by_cases e : x = u
    · simp [e]
    · simp [e]
  · rw [if_neg hx, if_neg hx]
    have : ¬ x = u := fun e => hx (e ▸ h)
    rw [if_neg this]

theorem arrSet_fold (root : Int) :
    ∀ (comp : List Int) (roots : List (Option Int)),
      (∀ w ∈ comp, InRange roots.length w) →
      ∃ roots', comp.foldlM (fun roots w => arrSet roots w root) roots = .ok roots' ∧
        roots'.length = roots.length ∧
        (∀ x, arrGet roots' x = if x ∈ comp then .ok root else arrGet roots x) ∧
        (∀ x, 0 ≤ x → x ∉ comp → roots'.getD x.toNat none = roots.getD x.toNat none) := by
  intro comp
  induction comp with
  | nil => intro roots _; exact ⟨roots, rfl, rfl, by simp, by simp⟩
  | cons w comp ih =>
    intro roots hc
    have hw := hc w (List.mem_cons_self _ _)
    obtain ⟨roots', h1, h2, h3, h4⟩ := ih (roots.set w.toNat (some root)) (by
      intro x hx
      rw [List.length_set]
      exact hc x (List.mem_cons_of_mem _ hx))
    refine ⟨roots', ?_, ?_, ?_, ?_⟩
    · rw [List.foldlM_cons, arrSet_of_inRange roots w root hw]
      exact h1
    · rw [h2, List.length_set]
    · intro x
      rw [h3 x, arrGet_set roots w root hw x]
      by_cases hx : x ∈ comp
      · simp [hx]
      · by_cases e : x = w
        · simp [e]
        · simp [hx, e]
    · intro x hx0 hx
      rw [List.mem_cons, not_or] at hx
      rw [h4 x hx0 hx.2, getD_set_some roots w root hw x hx0, if_neg hx.1]

/-! ## Reachability -/

theorem Mutual.refl (succ : Int → List Int) (x : Int) : Mutual succ x x :=
  ⟨Relation.ReflTransGen.refl, Relation.ReflTransGen.refl⟩

theorem Mutual.symm {succ : Int → List Int} {x y : Int} (h : Mutual succ x y) :
    Mutual succ y x := ⟨h.2, h.1⟩

theorem Mutual.trans {succ : Int → List Int} {x y z : Int} (h1 : Mutual succ x y)
    (h2 : Mutual succ y z) : Mutual succ x z :=
  ⟨Relation.ReflTransGen.trans h1.1 h2.1, Relation.ReflTransGen.trans h2.2 h1.2⟩

theorem reach_transpose (succ succT : Int → List Int)
    (hT : ∀ x y, y ∈ succT x ↔ x ∈ succ y) (u w : Int) :
    Reach succT u w ↔ Reach succ w u := by
  constructor
  · intro h
    induction h with
    | refl => exact Relation.ReflTransGen.refl
    | tail _ hbc ih => exact Relation.ReflTransGen.head ((hT _ _).1 hbc) ih
  · intro h
    induction h with
    | refl => exact Relation.ReflTransGen.refl
    | tail _ hbc ih => exact Relation.ReflTransGen.head ((hT _ _).2 hbc) ih

theorem reach_congr (succ succ' : Int → List Int) (h : ∀ x, succ' x = succ x) (u v : Int) :
    Reach succ' u v ↔ Reach succ u v := by
  have : succ' = succ := funext h
  rw [this]

end ViewPoint

namespace ViewPoint

/-! ## The loop of `getSCCRoots` -/

theorem dfs_terminates_inRange (succ : Int → List Int) (V : Int)
    (hrange : ∀ x, ∀ v ∈ succ x, InRange V v) (u : Int) (a : DfsState)
    (hu : InRange V u) (hs : u ∉ a.seen) : ∃ a', dfs succ V.toNat u a = some a' := by
  let L := (List.range V.toNat).map Int.ofNat
  apply dfs_terminates succ L.toFinset
  · intro x _ v hv
    rw [List.mem_toFinset, Graph.mem_vertexRange]
    exact hrange x v hv
  · rw [List.mem_toFinset, Graph.mem_vertexRange]; exact hu
  · exact hs
  · refine le_trans (Finset.card_le_card Finset.sdiff_subset) ?_
    refine le_trans (List.toFinset_card_le L) ?_
    simp [L]

namespace Graph

theorem sccLoop_nil (fuel : Nat) (s : RootsState) : sccLoop fuel [] s = .ok s := rfl

theorem sccLoop_cons_marked (fuel : Nat) (u : Int) (stk : List Int) (s : RootsState)
    (h : vecGet s.vis u = .ok true) : sccLoop fuel (u :: stk) s = sccLoop fuel stk s := by
  rw [sccLoop, h]
  rfl

theorem sccLoop_cons_fresh (fuel : Nat) (u : Int) (stk : List Int) (s : RootsState)
    (b : SccState) (r : Int) (rest : List Int) (roots : List (Option Int))
    (h : vecGet s.vis u = .ok false)
    (hb : buildGraph fuel u { adjT := s.adjT, vis := s.vis, component := [] } = .ok b)
    (hc : b.component = r :: rest)
    (hr : b.component.foldlM (fun roots w => arrSet roots w r) s.roots = .ok roots) :
    sccLoop fuel (u :: stk) s =
      sccLoop fuel stk
        { adjT := b.adjT, vis := b.vis, roots := roots, root_cnt := s.root_cnt + 1 } := by
  rw [sccLoop, h]
  simp only [bind, Except.bind, Bool.false_eq_true, if_false, hb]
  rw [hc] at hr ⊢
  simp only [pure, Except.pure, hr]

/-- One iteration of the loop that starts a new component. -/
theorem sccLoop_step (succ succT : Int → List Int) (V : Int) (L : List Int)
    (hT : ∀ x y, y ∈ succT x ↔ x ∈ succ y)
    (hrangeT : ∀ x, ∀ v ∈ succT x, InRange V v)
    (hnd : L.Nodup) (hmem : ∀ x, x ∈ L ↔ InRange V x)
    (hord : LeftOrder succ (fun _ => False) L)
    (P R : List Int) (u : Int) (s : RootsState) (hL : L = P ++ u :: R)
    (hinv : RootsInv succ succT V L P s) (hu : ¬ Marked s.vis u) :
    ∃ b roots',
      buildGraph V.toNat u { adjT := s.adjT, vis := s.vis, component := [] } = .ok b ∧
      (∃ rest, b.component = u :: rest) ∧
      b.component.foldlM (fun roots w => arrSet roots w u) s.roots = .ok roots' ∧
      RootsInv succ succT V L (P ++ [u])
        { adjT := b.adjT, vis := b.vis, roots := roots', root_cnt := s.root_cnt + 1 } := by
  have huL : u ∈ L := by rw [hL]; simp
  have huR : InRange V u := (hmem u).1 huL
  -- the vertices marked so far, as a list
  let sl := L.filter (fun x => decide (Marked s.vis x))
  have hsl : ∀ x, x ∈ sl ↔ Marked s.vis x := by
    intro x
    simp only [sl, List.mem_filter, decide_eq_true_eq]
    constructor
    · exact fun h => h.2
    · intro h
      refine ⟨(hmem x).2 ?_, h⟩
      have := h.inRange
      rw [hinv.vlen] at this
      exact this
  have husl : u ∉ sl := fun h => hu ((hsl u).1 h)
  obtain ⟨a', ha'⟩ := dfs_terminates_inRange succT V hrangeT u ⟨sl, []⟩ huR husl
  obtain ⟨pre, pst, he, hreach⟩ := dfs_shape succT _ u _ a' ha' husl
  have hr0 : SccRel succT V sl { adjT := s.adjT, vis := s.vis, component := [] } ⟨sl, []⟩ :=
    ⟨hinv.vlen, hsl, by simp, hinv.find⟩
  obtain ⟨b, hb, hrb⟩ := scc_sim succT V sl hrangeT V.toNat u _ _ a' huR hr0 ha'
  have hcomp : b.component = u :: pre.reverse := by
    have h1 := hrb.comp
    rw [he.seen_eq] at h1
    have h2 : pre ++ [u] = b.component.reverse := List.append_cancel_right h1
    have h3 := congrArg List.reverse h2
    simp only [List.reverse_append, List.reverse_cons, List.reverse_nil, List.nil_append,
      List.reverse_reverse, List.singleton_append] at h3
    exact h3.symm
  have hmemC : ∀ x, x ∈ b.component ↔ x ∈ pre ++ [u] := by
    intro x
    rw [hcomp]
    simp only [List.mem_cons, List.mem_reverse, List.mem_append, List.mem_singleton]
    tauto
  -- marked afterwards = marked before or new
  have hF4 : ∀ x, Marked b.vis x ↔ Marked s.vis x ∨ x ∈ b.component := by
    intro x
    rw [← hrb.seen x, he.seen_eq, List.mem_append, hmemC, ← hsl x]
    tauto
  have hF1 : ∀ w ∈ b.component, ¬ Marked s.vis w := by
    intro w hw hm
    exact he.fresh w ((hmemC w).1 hw) ((hsl w).2 hm)
  have hCrange : ∀ w ∈ b.component, InRange V w := by
    intro w hw
    have := ((hF4 w).2 (Or.inr hw)).inRange
    rw [hrb.len] at this
    exact this
  have huC : u ∈ b.component := by rw [hcomp]; exact List.mem_cons_self _ _
  -- every new vertex is in the component of `u`
  have hF2 : ∀ w ∈ b.component, Mutual succ u w := by
    intro w hw
    have hwu : Reach succ w u :=
      (reach_transpose succ succT hT u w).1 (hreach w ((hmemC w).1 hw))
    refine ⟨?_, hwu⟩
    obtain ⟨z, hz, hbz⟩ := hord w ((hmem w).2 (hCrange w hw)) u huL hwu (fun h => h)
    rw [hL] at hbz
    rcases Before.eq_or_mem_prefix (hL ▸ hnd) hbz with e | hzP
    · subst e; exact hz.2
    · exfalso
      exact hF1 w hw (hinv.sccClosed z w (hinv.popped z hzP) hz.symm)
  -- the whole component of `u` is new
  have hF3 : ∀ y, Mutual succ u y → y ∈ b.component := by
    intro y hy
    have key : ∀ w, Reach succT u w → Reach succ u w → w ∈ b.component := by
      intro w hw
      induction hw with
      | refl => intro _; exact huC
      | tail hub hbc ih =>
        rename_i b' c
        intro huc
        have hcb : b' ∈ succ c := (hT _ _).1 hbc
        have hb' := ih (Relation.ReflTransGen.tail huc hcb)
        have hcs := he.closed b' ((hmemC b').1 hb') c hbc
        rw [he.seen_eq, List.mem_append] at hcs
        rcases hcs with hcs | hcs
        · exact (hmemC c).2 hcs
        · exfalso
          have hcm : Marked s.vis c := (hsl c).1 hcs
          have hcu : Reach succ c u :=
            (reach_transpose succ succT hT u c).1 (Relation.ReflTransGen.tail hub hbc)
          exact hu (hinv.sccClosed c u hcm ⟨hcu, huc⟩)
    exact key y ((reach_transpose succ succT hT u y).2 hy.2) hy.1
  obtain ⟨roots', hf1, hf2, hf3, hf4⟩ := arrSet_fold u b.component s.roots (by
    intro w hw
    have := hCrange w hw
    unfold InRange at this ⊢
    rw [hinv.rlen]
    exact this)
  refine ⟨b, roots', hb, ⟨pre.reverse, hcomp⟩, hf1, ?_⟩
  have hold : ∀ x, Marked s.vis x → x ∉ b.component := fun x hm hx => hF1 x hx hm
  refine ⟨hrb.len, ?_, hrb.find, ?_, ?_, ?_, ?_, ?_, ?_⟩
  · simp only [hf2]; exact hinv.rlen
  · intro x hx
    rw [hF4]
    rcases List.mem_append.1 hx with hx | hx
    · exact Or.inl (hinv.popped x hx)
    · rw [List.mem_singleton] at hx; subst hx; exact Or.inr huC
  · intro x y hx hxy
    rw [hF4] at hx ⊢
    rcases hx with hx | hx
    · exact Or.inl (hinv.sccClosed x y hx hxy)
    · exact Or.inr (hF3 y ((hF2 x hx).trans hxy))
  · intro x hx
    rw [hF4] at hx
    rcases hx with hx | hx
    · obtain ⟨r, h1, h2, h3, h4⟩ := hinv.rooted x hx
      have hr : Marked s.vis r := hinv.sccClosed x r hx h2
      refine ⟨r, ?_, h2, ?_, h4⟩
      · simp only [hf3, if_neg (hold x hx)]; exact h1
      · simp only [hf3, if_neg (hold r hr)]; exact h3
    · refine ⟨u, ?_, (hF2 x hx).symm, ?_, ?_⟩
      · simp only [hf3, if_pos hx]
      · simp only [hf3, if_pos huC]
      · have hxL : x ∈ L := (hmem x).2 (hCrange x hx)
        rw [hL] at hxL ⊢
        rcases List.mem_append.1 hxL with h | h
        · exact absurd (hinv.popped x h) (hF1 x hx)
        · exact (Before.head h).append_right P
  · intro x y hx hxy
    rw [hF4] at hx
    simp only [hf3]
    rcases hx with hx | hx
    · have hy := hinv.sccClosed x y hx hxy
      rw [if_neg (hold x hx), if_neg (hold y hy)]
      exact hinv.canon x y hx hxy
    · rw [if_pos hx, if_pos (hF3 y ((hF2 x hx).trans hxy))]
  · intro x hxr hxm
    rw [hF4, not_or] at hxm
    simp only
    rw [hf4 x hxr.1 hxm.2]
    exact hinv.unwritten x hxr hxm.1
  · obtain ⟨rs, hrs1, hrs2, hrs3⟩ := hinv.counted
    refine ⟨u :: rs, ?_, ?_, ?_⟩
    · rw [List.nodup_cons]
      exact ⟨fun h => hu ((hrs3 u).1 h).1, hrs1⟩
    · simp only [hrs2, List.length_cons, Nat.cast_add, Nat.cast_one]
    · intro r
      simp only [List.mem_cons, hf3, hF4]
      constructor
      · rintro (e | hr)
        · subst e
          exact ⟨Or.inr huC, by rw [if_pos huC]⟩
        · have := (hrs3 r).1 hr
          exact ⟨Or.inl this.1, by rw [if_neg (hold r this.1)]; exact this.2⟩
      · rintro ⟨hm, hg⟩
        by_cases hrC : r ∈ b.component
        · rw [if_pos hrC] at hg
          left
          cases hg
          rfl
        · rw [if_neg hrC] at hg
          rcases hm with hm | hm
          · exact Or.inr ((hrs3 r).2 ⟨hm, hg⟩)
          · exact absurd hm hrC

theorem sccLoop_spec (succ succT : Int → List Int) (V : Int) (L : List Int)
    (hT : ∀ x y, y ∈ succT x ↔ x ∈ succ y)
    (hrangeT : ∀ x, ∀ v ∈ succT x, InRange V v)
    (hnd : L.Nodup) (hmem : ∀ x, x ∈ L ↔ InRange V x)
    (hord : LeftOrder succ (fun _ => False) L) :
    ∀ (R P : List Int) (s : RootsState), L = P ++ R → RootsInv succ succT V L P s →
      ∃ s', sccLoop V.toNat R s = .ok s' ∧ RootsInv succ succT V L L s' := by
  intro R
  induction R with
  | nil =>
    intro P s hL hinv
    rw [List.append_nil] at hL
    subst hL
    exact ⟨s, rfl, hinv⟩
  | cons u R ih =>
    intro P s hL hinv
    have hL' : L = (P ++ [u]) ++ R := by rw [hL]; simp
    have huR : InRange V u := (hmem u).1 (by rw [hL]; simp)
    obtain ⟨seen, hseen, hsm⟩ := vecGet_of_inRange s.vis u (by rw [hinv.vlen]; exact huR)
    by_cases hm : Marked s.vis u
    · have : seen = true := hsm.2 hm
      subst this
      rw [sccLoop_cons_marked V.toNat u R s hseen]
      have hinv' : RootsInv succ succT V L (P ++ [u]) s := by
        refine ⟨hinv.vlen, hinv.rlen, hinv.find, ?_, hinv.sccClosed, hinv.rooted, hinv.canon,
          hinv.unwritten, hinv.counted⟩
        intro x hx
        rcases List.mem_append.1 hx with hx | hx
        · exact hinv.popped x hx
        · rw [List.mem_singleton] at hx; subst hx; exact hm
      exact ih (P ++ [u]) s hL' hinv'
    · have : seen = false := by
        cases seen with
        | false => rfl
        | true => exact absurd (hsm.1 rfl) hm
      subst this
      obtain ⟨b, roots', hb, ⟨rest, hcomp⟩, hroots, hinv'⟩ :=
        sccLoop_step succ succT V L hT hrangeT hnd hmem hord P R u s hL hinv hm
      obtain ⟨s', hs', hfin⟩ := ih (P ++ [u]) _ hL' hinv'
      refine ⟨s', ?_, hfin⟩
      rw [sccLoop_cons_fresh V.toNat u R s b u rest roots' hseen hb hcomp hroots]
      exact hs'

end Graph

end ViewPoint

namespace ViewPoint

namespace Graph

theorem getSCCRoots_eq (G : Graph) (stk : List Int) :
    G.getSCCRoots stk =
      (vecMake G.V >>= fun vis => arrMake G.V >>= fun roots =>
        sccLoop G.V.toNat stk
          { adjT := G.getTranspose.adj, vis := vis, roots := roots, root_cnt := 0 } >>= fun s =>
        pure (s.root_cnt, s.roots)) := rfl

theorem rootsInv_init (succ succT : Int → List Int) (V : Int) (hV : 0 ≤ V) (L : List Int)
    (adjT : AdjMap) (hfind : ∀ x, adjT.find x = succT x) :
    RootsInv succ succT V L []
      { adjT := adjT, vis := List.replicate V.toNat false,
        roots := List.replicate V.toNat none, root_cnt := 0 } := by
  refine ⟨?_, ?_, hfind, ?_, ?_, ?_, ?_, ?_, ?_⟩
  · simp only [List.length_replicate]; omega
  · simp only [List.length_replicate]; omega
  · intro x hx; exact absurd hx (List.not_mem_nil _)
  · intro x y hx; exact absurd hx (not_marked_replicate _ x)
  · intro x hx; exact absurd hx (not_marked_replicate _ x)
  · intro x y hx; exact absurd hx (not_marked_replicate _ x)
  · intro x hx _
    simp only [List.getD_eq_getElem?_getD, List.getElem?_replicate]
    split <;> rfl
  · refine ⟨[], List.nodup_nil, rfl, ?_⟩
    intro r
    simp only [List.not_mem_nil, false_iff, not_and]
    intro hm; exact absurd hm (not_marked_replicate _ r)

/-- On a well-formed graph `getSCCRoots`, run on the stack of `getTopoSort`,
returns, and the loop invariant holds with the whole stack popped. -/
theorem getSCCRoots_spec (G : Graph) (h : G.WellFormed) (stk : List Int) (G1 : Graph)
    (ht : TopoSpec G stk G1) :
    ∃ s, G1.getSCCRoots stk = .ok (s.root_cnt, s.roots) ∧
      RootsInv G.adj.find G1.getTranspose.adj.find G.V stk stk s := by
  have hV : 0 ≤ G.V := h.1
  have hT : ∀ x y, y ∈ G1.getTranspose.adj.find x ↔ x ∈ G.adj.find y := by
    intro x y
    rw [mem_getTranspose G1 ht.ordered, ht.find]
  have hrangeT : ∀ x, ∀ v ∈ G1.getTranspose.adj.find x, InRange G.V v := by
    intro x v hv
    have := (hT x v).1 hv
    exact (h.2.2 (v, x) ((AdjMap.mem_find_iff G.adj h.2.1 v x).1 this)).1
  obtain ⟨s, hs, hinv⟩ := sccLoop_spec G.adj.find G1.getTranspose.adj.find G.V stk hT hrangeT
    ht.nodup ht.mem ht.order stk [] _ rfl
    (rootsInv_init G.adj.find G1.getTranspose.adj.find G.V hV stk G1.getTranspose.adj
      (fun _ => rfl))
  refine ⟨s, ?_, hinv⟩
  rw [getSCCRoots_eq, ht.V_eq]
  unfold vecMake arrMake
  simp only [if_pos hV, bind, Except.bind, hs]
  rfl

end Graph

/-- Claim C3. On a well-formed graph, `getTopoSort` and then `getSCCRoots`
return, and two vertices of `[0, V)` have the same entry in `roots` exactly
when each is reachable from the other. -/
theorem sccRoots_iff_mutual (G : Graph) (h : G.WellFormed) :
    ∃ stk G1 cnt roots, G.getTopoSort = .ok (stk, G1) ∧
      G1.getSCCRoots stk = .ok (cnt, roots) ∧
      ∀ u v, InRange G.V u → InRange G.V v →
        ∃ ru rv, arrGet roots u = .ok ru ∧ arrGet roots v = .ok rv ∧
          (ru = rv ↔ (Reach G.adj.find u v ∧ Reach G.adj.find v u)) := by
  obtain ⟨stk, G1, h1, ht⟩ := Graph.getTopoSort_spec G h
  obtain ⟨s, h2, hinv⟩ := Graph.getSCCRoots_spec G h stk G1 ht
  refine ⟨stk, G1, s.root_cnt, s.roots, h1, h2, ?_⟩
  intro u v hu hv
  have mu : Marked s.vis u := hinv.popped u ((ht.mem u).2 hu)
  have mv : Marked s.vis v := hinv.popped v ((ht.mem v).2 hv)
  obtain ⟨ru, hru, hmu, -, -⟩ := hinv.rooted u mu
  obtain ⟨rv, hrv, hmv, -, -⟩ := hinv.rooted v mv
  refine ⟨ru, rv, hru, hrv, ?_⟩
  constructor
  · intro e
    subst e
    exact hmu.trans hmv.symm
  · intro hm
    have := hinv.canon u v mu hm
    rw [hru, hrv] at this
    cases this
    rfl

theorem sccRoots_iff_mutual_witness :
    (read_initial_graph 4 4 [(0, 1), (1, 2), (2, 0), (0, 3)]).WellFormed ∧
    ∃ stk G1 cnt roots,
      (read_initial_graph 4 4 [(0, 1), (1, 2), (2, 0), (0, 3)]).getTopoSort = .ok (stk, G1) ∧
      G1.getSCCRoots stk = .ok (cnt, roots) ∧
      ∃ ru rv, arrGet roots 1 = .ok ru ∧ arrGet roots 2 = .ok rv ∧
        (ru = rv ↔
          (Reach (read_initial_graph 4 4 [(0, 1), (1, 2), (2, 0), (0, 3)]).adj.find 1 2 ∧
            Reach (read_initial_graph 4 4 [(0, 1), (1, 2), (2, 0), (0, 3)]).adj.find 2 1)) :=
  ⟨by decide,
    let ⟨stk, G1, cnt, roots, h1, h2, h3⟩ :=
      sccRoots_iff_mutual (read_initial_graph 4 4 [(0, 1), (1, 2), (2, 0), (0, 3)]) (by decide)
    ⟨stk, G1, cnt, roots, h1, h2, h3 1 2 (by decide) (by decide)⟩⟩

end ViewPoint

namespace ViewPoint

/-! ## `visits_all` -/

namespace VisMap

theorem get_assign (m : VisMap) (k : Int) (b : Bool) (x : Int) :
    get (assign m k b) x = if x = k then b else get m x := by
  induction m with
  | nil => simp [assign, get]
  | cons p rest ih =>
    obtain ⟨k', b'⟩ := p
    unfold assign
    by_cases hk : k = k'
    · subst hk
      simp only [if_true, get]
      split <;> rfl
    · rw [if_neg hk]
      simp only [get, ih]
      by_cases hx : x = k'
      · subst hx
        have : ¬ x = k := fun e => hk e.symm
        simp [this]
      · simp [hx]

theorem get_append_false (m : VisMap) (k x : Int) : get (m ++ [(k, false)]) x = get m x := by
  induction m with
  | nil => simp [get]
  | cons p rest ih =>
    obtain ⟨k', b'⟩ := p
    show get ((k', b') :: (rest ++ [(k, false)])) x = get ((k', b') :: rest) x
    simp only [get, ih]

theorem get_index (m : VisMap) (k x : Int) : get (index m k) x = get m x := by
  unfold index
  split
  · rfl
  · exact get_append_false m k x

theorem get_init (adj : AdjMap) (vis : VisMap) (x : Int) (h : get vis x = false) :
    get (adj.foldl (fun vis p => VisMap.assign vis p.1 false) vis) x = false := by
  induction adj generalizing vis with
  | nil => exact h
  | cons p rest ih =>
    rw [List.foldl_cons]
    apply ih
    rw [get_assign]
    split
    · rfl
    · exact h

end VisMap

namespace AdjMap

theorem mem_edges_of_mem_find (m : AdjMap) (u v : Int) (h : v ∈ m.find u) : (u, v) ∈ m.edges := by
  induction m with
  | nil => simp [find] at h
  | cons p rest ih =>
    obtain ⟨k, l⟩ := p
    rw [find_cons] at h
    rw [edges_cons, List.mem_append]
    by_cases hu : u = k
    · subst hu
      rw [if_pos rfl] at h
      exact Or.inl (List.mem_map.2 ⟨v, h, rfl⟩)
    · rw [if_neg hu] at h
      exact Or.inr (ih h)

theorem length_edges (m : AdjMap) : m.edges.length = Graph.edgeCount m := by
  induction m with
  | nil => rfl
  | cons p rest ih =>
    rw [edges_cons, List.length_append, List.length_map, ih]
    simp [Graph.edgeCount]

end AdjMap

namespace Graph

theorem visit_zero (u : Int) (s : VisitState) : visit 0 u s = .error .outOfFuel := rfl

theorem visit_succ (n : Nat) (u : Int) (s : VisitState) :
    visit (n + 1) u s =
      ((s.adj.index u).find u).foldlM
        (fun s v =>
          if s.vis.get v = true then
            (pure { s with vis := s.vis.index v } : Except Fault VisitState)
          else visit n v { s with vis := s.vis.index v })
        { adj := s.adj.index u, vis := s.vis.assign u true, cnt_vis := s.cnt_vis + 1 } := by
  rw [visit]
  congr 1
  funext s v
  cases h : s.vis.get v <;> simp [h]

theorem visit_sim_list (m0 : AdjMap) (n : Nat)
    (hd : ∀ u s a a', VisitRel m0 s a → dfs m0.find n u a = some a' →
      ∃ s', visit n u s = .ok s' ∧ VisitRel m0 s' a') :
    ∀ (l : List Int) s a a', VisitRel m0 s a → dfsList m0.find n l a = some a' →
      ∃ s', l.foldlM
          (fun s v =>
            if s.vis.get v = true then
              (pure { s with vis := s.vis.index v } : Except Fault VisitState)
            else visit n v { s with vis := s.vis.index v }) s = .ok s' ∧
        VisitRel m0 s' a' := by
  intro l
  induction l with
  | nil =>
    intro s a a' hr h
    rw [dfsList_nil] at h
    cases h
    exact ⟨s, rfl, hr⟩
  | cons v l ih =>
    intro s a a' hr h
    have hr1 : VisitRel m0 { s with vis := s.vis.index v } a :=
      ⟨fun x => by simp only [VisMap.get_index]; exact hr.seen x, hr.cnt, hr.find, hr.edges,
        hr.ordered⟩
    rw [List.foldlM_cons]
    rw [dfsList_cons] at h
    by_cases hs : v ∈ a.seen
    · rw [if_pos hs] at h
      rw [if_pos ((hr.seen v).1 hs)]
      exact ih _ a a' hr1 h
    · rw [if_neg hs] at h
      rw [if_neg (fun e => hs ((hr.seen v).2 e))]
      cases h1 : dfs m0.find n v a with
      | none => rw [h1] at h; cases h
      | some a1 =>
        rw [h1] at h
        obtain ⟨s1, hs1, hr1'⟩ := hd v _ a a1 hr1 h1
        obtain ⟨s', hs', hr'⟩ := ih s1 a1 a' hr1' h
        refine ⟨s', ?_, hr'⟩
        rw [hs1]
        exact hs'

theorem visit_sim (m0 : AdjMap) :
    ∀ n u s a a', VisitRel m0 s a → dfs m0.find n u a = some a' →
      ∃ s', visit n u s = .ok s' ∧ VisitRel m0 s' a' := by
  intro n
  induction n with
  | zero => intro u s a a' _ h; rw [dfs_zero] at h; cases h
  | succ n ih =>
    intro u s a a' hr h
    rw [dfs_succ] at h
    cases h2 : dfsList m0.find n (m0.find u) { a with seen := u :: a.seen } with
    | none => rw [h2] at h; cases h
    | some a2 =>
      rw [h2] at h
      simp only [Option.map_some', Option.some.injEq] at h
      subst h
      have hr0 : VisitRel m0
          { adj := s.adj.index u, vis := s.vis.assign u true, cnt_vis := s.cnt_vis + 1 }
          { a with seen := u :: a.seen } := by
        refine ⟨?_, ?_, ?_, ?_, ?_⟩
        · intro x
          simp only [List.mem_cons, VisMap.get_assign]
          by_cases e : x = u
          · simp [e]
          · simp [e, hr.seen x]
        · simp only [List.length_cons, Nat.cast_add, Nat.cast_one, hr.cnt]
        · intro x
          simp only [AdjMap.find_index]
          exact hr.find x
        · simp only [AdjMap.edges_index]
          exact hr.edges
        · intro ho
          exact AdjMap.index_ordered _ _ (hr.ordered ho)
      have hfind : (s.adj.index u).find u = m0.find u := by
        rw [AdjMap.find_index]; exact hr.find u
      obtain ⟨s2, hs2, hr2⟩ := visit_sim_list m0 n ih (m0.find u) _ _ a2 hr0 h2
      refine ⟨s2, ?_, ⟨hr2.seen, hr2.cnt, hr2.find, hr2.edges, hr2.ordered⟩⟩
      rw [visit_succ, hfind]
      exact hs2

end Graph

end ViewPoint

namespace ViewPoint

theorem reach_of_closed (succ : Int → List Int) (s : List Int)
    (hc : ∀ w ∈ s, ∀ x ∈ succ w, x ∈ s) {u v : Int} (hu : u ∈ s) (h : Reach succ u v) :
    v ∈ s := by
  induction h with
  | refl => exact hu
  | tail _ hbc ih => exact hc _ ih _ hbc

namespace Graph

theorem nodup_vertexRange (V : Int) : ((List.range V.toNat).map Int.ofNat).Nodup :=
  (List.nodup_range _).map (fun _ _ h => Int.ofNat.inj h)

theorem length_vertexRange (V : Int) : ((List.range V.toNat).map Int.ofNat).length = V.toNat := by
  simp

/-- A duplicate-free list of vertices of `[0, V)` has `V` entries exactly when
it lists all of `[0, V)`. -/
theorem length_eq_iff_covers (V : Int) (hV : 0 ≤ V) (rs : List Int) (hnd : rs.Nodup)
    (hsub : ∀ v ∈ rs, InRange V v) :
    V = (rs.length : Int) ↔ ∀ v, InRange V v → v ∈ rs := by
  have hsub' : rs ⊆ (List.range V.toNat).map Int.ofNat :=
    fun v hv => (mem_vertexRange V v).2 (hsub v hv)
  have hsp := List.subperm_of_subset hnd hsub'
  constructor
  · intro e v hv
    have hle : ((List.range V.toNat).map Int.ofNat).length ≤ rs.length := by
      rw [length_vertexRange]; omega
    exact (hsp.perm_of_length_le hle).symm.subset ((mem_vertexRange V v).2 hv)
  · intro hall
    have hp : rs.Perm ((List.range V.toNat).map Int.ofNat) := by
      rw [List.perm_ext_iff_of_nodup hnd (nodup_vertexRange V)]
      intro v
      exact ⟨fun hv => hsub' hv, fun hv => hall v ((mem_vertexRange V v).1 hv)⟩
    have := hp.length_eq
    rw [length_vertexRange] at this
    omega

theorem WellFormed.reach_inRange {G : Graph} (h : G.WellFormed) {u v : Int}
    (hu : InRange G.V u) (hr : Reach G.adj.find u v) : InRange G.V v := by
  induction hr with
  | refl => exact hu
  | tail _ hbc _ => exact h.succ_inRange _ _ hbc

theorem visits_all_eq (G : Graph) (src : Int) :
    G.visits_all src =
      (visit (edgeCount G.adj + 1) src
          { adj := G.adj,
            vis := G.adj.foldl (fun vis p => VisMap.assign vis p.1 false) ([] : VisMap),
            cnt_vis := 0 } >>= fun s =>
        pure (decide (G.V = s.cnt_vis), { G with adj := s.adj })) := rfl

/-- A call of `visits_all` returns on every graph; its counter ends as the
number of vertices reachable from `src`. -/
theorem visits_all_run (G : Graph) (src : Int) :
    ∃ (s : Graph.VisitState) (rs : List Int), G.visits_all src = .ok (decide (G.V = s.cnt_vis), { G with adj := s.adj }) ∧
      rs.Nodup ∧ (∀ v, v ∈ rs ↔ Reach G.adj.find src v) ∧ s.cnt_vis = (rs.length : Int) ∧
      (∀ x, s.adj.find x = G.adj.find x) ∧ s.adj.edges = G.adj.edges ∧
      (G.adj.Ordered → s.adj.Ordered) := by
  let U : Finset Int := insert src (G.adj.edges.map Prod.snd).toFinset
  have hU : ∀ x ∈ U, ∀ v ∈ G.adj.find x, v ∈ U := by
    intro x _ v hv
    simp only [U, Finset.mem_insert, List.mem_toFinset, List.mem_map]
    exact Or.inr ⟨(x, v), AdjMap.mem_edges_of_mem_find G.adj x v hv, rfl⟩
  have hcard : (U \ ([] : List Int).toFinset).card ≤ edgeCount G.adj + 1 := by
    simp only [List.toFinset_nil, Finset.sdiff_empty, U]
    refine le_trans (Finset.card_insert_le _ _) ?_
    have := List.toFinset_card_le (G.adj.edges.map Prod.snd)
    rw [List.length_map, AdjMap.length_edges] at this
    omega
  obtain ⟨a', ha'⟩ := dfs_terminates G.adj.find U hU (edgeCount G.adj + 1) src ⟨[], []⟩
    (Finset.mem_insert_self _ _) (List.not_mem_nil _) hcard
  obtain ⟨pre, pst, he, hreach⟩ := dfs_shape _ _ _ _ _ ha' (List.not_mem_nil _)
  have hseen : a'.seen = pre ++ [src] := by simpa using he.seen_eq
  have hr0 : VisitRel G.adj
      { adj := G.adj,
        vis := G.adj.foldl (fun vis p => VisMap.assign vis p.1 false) ([] : VisMap),
        cnt_vis := 0 } ⟨[], []⟩ := by
    refine ⟨?_, rfl, fun _ => rfl, rfl, fun h => h⟩
    intro x
    simp only [List.not_mem_nil, false_iff]
    rw [VisMap.get_init G.adj [] x rfl]
    simp
  obtain ⟨s, hs, hrs⟩ := visit_sim G.adj _ src _ _ a' hr0 ha'
  refine ⟨s, a'.seen, ?_, ?_, ?_, hrs.cnt, hrs.find, hrs.edges, hrs.ordered⟩
  · rw [visits_all_eq, hs]
    rfl
  · rw [hseen]; exact he.nodup
  · intro v
    constructor
    · intro hv
      rw [hseen] at hv
      exact hreach v hv
    · intro hv
      refine reach_of_closed G.adj.find a'.seen ?_ ?_ hv
      · intro w hw x hx
        rw [hseen] at hw
        exact he.closed w hw x hx
      · rw [hseen]; simp

end Graph

/-- Claim C4. On a well-formed graph and for `src` in `[0, V)`, `visits_all`
returns; its counter ends as the length of a duplicate-free list of exactly
the vertices reachable from `src`, and the result is `true` exactly when every
vertex of `[0, V)` is reachable from `src`. -/
theorem visits_all_spec (G : Graph) (h : G.WellFormed) (src : Int) (hs : InRange G.V src) :
    ∃ (s : Graph.VisitState) (rs : List Int), G.visits_all src = .ok (decide (G.V = s.cnt_vis), { G with adj := s.adj }) ∧
      rs.Nodup ∧ (∀ v, v ∈ rs ↔ Reach G.adj.find src v) ∧ s.cnt_vis = (rs.length : Int) ∧
      (decide (G.V = s.cnt_vis) = true ↔ ∀ v, InRange G.V v → Reach G.adj.find src v) := by
  obtain ⟨s, rs, h1, h2, h3, h4, -⟩ := Graph.visits_all_run G src
  refine ⟨s, rs, h1, h2, h3, h4, ?_⟩
  rw [decide_eq_true_eq, h4,
    Graph.length_eq_iff_covers G.V h.1 rs h2 (fun v hv => h.reach_inRange hs ((h3 v).1 hv))]
  constructor
  · intro hall v hv; exact (h3 v).1 (hall v hv)
  · intro hall v hv; exact (h3 v).2 (hall v hv)

theorem visits_all_spec_witness :
    (read_initial_graph 4 4 [(0, 1), (1, 2), (2, 0), (0, 3)]).WellFormed ∧ InRange 4 1 ∧
    ∃ (s : Graph.VisitState) (rs : List Int), (read_initial_graph 4 4 [(0, 1), (1, 2), (2, 0), (0, 3)]).visits_all 1
        = .ok (decide ((4 : Int) = s.cnt_vis),
            { read_initial_graph 4 4 [(0, 1), (1, 2), (2, 0), (0, 3)] with adj := s.adj }) ∧
      rs.Nodup ∧
      (∀ v, v ∈ rs ↔ Reach (read_initial_graph 4 4 [(0, 1), (1, 2), (2, 0), (0, 3)]).adj.find 1 v) ∧
      s.cnt_vis = (rs.length : Int) ∧
      (decide ((4 : Int) = s.cnt_vis) = true ↔
        ∀ v, InRange 4 v →
          Reach (read_initial_graph 4 4 [(0, 1), (1, 2), (2, 0), (0, 3)]).adj.find 1 v) :=
  ⟨by decide, by decide,
    visits_all_spec (read_initial_graph 4 4 [(0, 1), (1, 2), (2, 0), (0, 3)]) (by decide) 1
      (by decide)⟩

end ViewPoint

namespace ViewPoint

/-! ## `getMetaGraph` -/

theorem arrGet_eq_rootOf (roots : List (Option Int)) (x r : Int) (h : arrGet roots x = .ok r) :
    rootOf roots x = r := by
  unfold rootOf
  rw [h]

namespace Graph

theorem foldlM_edges {α : Type} (f : α → Int → Int → Except Fault α) (m : AdjMap) (init : α) :
    m.foldlM (fun acc p => p.2.foldlM (fun acc v => f acc p.1 v) acc) init
      = m.edges.foldlM (fun acc e => f acc e.1 e.2) init := by
  induction m generalizing init with
  | nil => rfl
  | cons p rest ih =>
    rw [List.foldlM_cons, AdjMap.edges_cons, List.foldlM_append, List.foldlM_map]
    congr 1
    funext acc
    exact ih acc

theorem metaStep_eq (roots : List (Option Int)) (gp : Graph) (u v ru rv : Int)
    (hu : arrGet roots u = .ok ru) (hv : arrGet roots v = .ok rv) :
    metaStep roots gp u v =
      if ru ≠ rv then
        .ok { gp with adj := (gp.adj.index rv).pushBack ru rv, E := gp.E + 1 }
      else .ok gp := by
  unfold metaStep
  rw [hu, hv]
  by_cases h : ru = rv
  · simp [h, bind, Except.bind, pure, Except.pure]
  · simp [h, bind, Except.bind, pure, Except.pure]

theorem MetaSpec.start (roots : List (Option Int)) (gp : Graph) : MetaSpec roots [] gp gp :=
  ⟨rfl, by simp, by simp, by simp, fun h => h⟩

theorem metaFold_spec (roots : List (Option Int)) :
    ∀ (es : List (Int × Int)) (gp0 : Graph),
      (∀ e ∈ es, (∃ r, arrGet roots e.1 = .ok r) ∧ ∃ r, arrGet roots e.2 = .ok r) →
      ∃ gp, es.foldlM (fun gp e => metaStep roots gp e.1 e.2) gp0 = .ok gp ∧
        MetaSpec roots es gp0 gp := by
  intro es
  induction es with
  | nil => intro gp0 _; exact ⟨gp0, rfl, MetaSpec.start roots gp0⟩
  | cons e es ih =>
    intro gp0 hes
    obtain ⟨⟨ru, hru⟩, ⟨rv, hrv⟩⟩ := hes e (List.mem_cons_self _ _)
    have eu := arrGet_eq_rootOf roots e.1 ru hru
    have ev := arrGet_eq_rootOf roots e.2 rv hrv
    rw [List.foldlM_cons, metaStep_eq roots gp0 e.1 e.2 ru rv hru hrv]
    by_cases hne : ru = rv
    · rw [if_neg (by simpa using hne)]
      obtain ⟨gp, hgp, hs⟩ := ih gp0 (fun x hx => hes x (List.mem_cons_of_mem _ hx))
      refine ⟨gp, hgp, ⟨hs.V_eq, ?_, ?_, ?_, hs.ordered⟩⟩
      · rw [hs.E_eq, List.countP_cons_of_neg]
        simp [eu, ev, hne]
      · intro a b
        rw [hs.count a b, List.countP_cons_of_neg]
        simp only [eu, ev, hne, decide_eq_true_eq, not_and, not_not]
        intro h1 h2
        rw [← h1, ← h2]
      · intro k
        rw [hs.keys k]
        simp only [List.mem_cons, exists_eq_or_imp, eu, ev, hne, ne_eq, not_true_eq_false,
          false_and, false_or]
    · rw [if_pos hne]
      obtain ⟨gp, hgp, hs⟩ := ih
        { gp0 with adj := (gp0.adj.index rv).pushBack ru rv, E := gp0.E + 1 }
        (fun x hx => hes x (List.mem_cons_of_mem _ hx))
      refine ⟨gp, hgp, ⟨hs.V_eq, ?_, ?_, ?_, ?_⟩⟩
      · rw [hs.E_eq, List.countP_cons_of_pos]
        · simp only [Nat.cast_add, Nat.cast_one]; omega
        · simp [eu, ev, hne]
      · intro a b
        rw [hs.count a b]
        simp only [AdjMap.find_pushBack, AdjMap.find_index]
        by_cases hab : ru = a ∧ rv = b
        · obtain ⟨ha, hb⟩ := hab
          subst ha; subst hb
          rw [List.countP_cons_of_pos]
          · simp; omega
          · simp [eu, ev, hne]
        · rw [List.countP_cons_of_neg]
          · by_cases ha : a = ru
            · subst ha
              have hb : ¬ rv = b := fun e => hab ⟨rfl, e⟩
              have hc : List.count b [rv] = 0 :=
                List.count_eq_zero.2 (by simpa using fun e => hb e.symm)
              simp [hc]
            · simp [ha]
          · simp only [eu, ev, decide_eq_true_eq, not_and]
            intro h1 h2
            exact absurd ⟨h1, h2⟩ hab
      · intro k
        rw [hs.keys k]
        simp only [AdjMap.hasKey_pushBack, AdjMap.hasKey_index, Bool.or_eq_true, beq_iff_eq,
          List.mem_cons, exists_eq_or_imp, eu, ev, ne_eq, hne, not_false_eq_true, true_and]
        constructor
        · rintro (((h | h) | h) | h)
          · exact Or.inl h
          · exact Or.inr (Or.inl (Or.inr h))
          · exact Or.inr (Or.inl (Or.inl h))
          · exact Or.inr (Or.inr h)
        · rintro (h | (h | h) | h)
          · exact Or.inl (Or.inl (Or.inl h))
          · exact Or.inl (Or.inr h)
          · exact Or.inl (Or.inl (Or.inr h))
          · exact Or.inr h
      · intro ho
        exact hs.ordered (AdjMap.pushBack_ordered _ _ _ (AdjMap.index_ordered _ _ ho))

theorem getMetaGraph_eq (G : Graph) :
    G.getMetaGraph =
      (G.getTopoSort >>= fun t => t.2.getSCCRoots t.1 >>= fun r =>
        t.2.adj.edges.foldlM (fun gp e => metaStep r.2 gp e.1 e.2)
          { V := r.1, E := 0, adj := [] } >>= fun gp =>
        pure (gp, t.2)) := by
  unfold getMetaGraph
  simp only [foldlM_edges]

/-- On a well-formed graph `getMetaGraph` returns; the facts about the three
steps it is made of. -/
theorem getMetaGraph_run (G : Graph) (h : G.WellFormed) :
    ∃ (stk : List Int) (G1 : Graph) (s : RootsState) (GP : Graph),
      G.getTopoSort = .ok (stk, G1) ∧ TopoSpec G stk G1 ∧
      G1.getSCCRoots stk = .ok (s.root_cnt, s.roots) ∧
      RootsInv G.adj.find G1.getTranspose.adj.find G.V stk stk s ∧
      G.getMetaGraph = .ok (GP, G1) ∧
      MetaSpec s.roots G.adj.edges { V := s.root_cnt, E := 0, adj := [] } GP := by
  obtain ⟨stk, G1, h1, ht⟩ := getTopoSort_spec G h
  obtain ⟨s, h2, hinv⟩ := getSCCRoots_spec G h stk G1 ht
  have hes : ∀ e ∈ G1.adj.edges,
      (∃ r, arrGet s.roots e.1 = .ok r) ∧ ∃ r, arrGet s.roots e.2 = .ok r := by
    intro e he
    rw [ht.edges] at he
    have hr := h.2.2 e he
    obtain ⟨r1, hr1, -⟩ := hinv.rooted e.1 (hinv.popped e.1 ((ht.mem e.1).2 hr.1))
    obtain ⟨r2, hr2, -⟩ := hinv.rooted e.2 (hinv.popped e.2 ((ht.mem e.2).2 hr.2))
    exact ⟨⟨r1, hr1⟩, ⟨r2, hr2⟩⟩
  obtain ⟨GP, hg, hm⟩ := metaFold_spec s.roots G1.adj.edges
    { V := s.root_cnt, E := 0, adj := [] } hes
  refine ⟨stk, G1, s, GP, h1, ht, h2, hinv, ?_, ht.edges ▸ hm⟩
  rw [getMetaGraph_eq, h1]
  simp only [bind, Except.bind, h2, hg]
  rfl

end Graph

end ViewPoint

namespace ViewPoint

namespace Graph

theorem rootOf_eq_iff (roots : List (Option Int)) (x a : Int)
    (h : ∃ r, arrGet roots x = .ok r) : rootOf roots x = a ↔ arrGet roots x = .ok a := by
  obtain ⟨r, hr⟩ := h
  rw [arrGet_eq_rootOf roots x r hr, hr]
  constructor
  · intro e; rw [e]
  · intro e; cases e; rfl

/-- The result of `visits_all` depends on the graph only through `V` and the
successor lists. -/
theorem visits_all_congr (G G' : Graph) (hV : G.V = G'.V)
    (hf : ∀ x, G.adj.find x = G'.adj.find x) (src : Int) (b : Bool) (Ga : Graph)
    (h : G.visits_all src = .ok (b, Ga)) : ∃ Gb, G'.visits_all src = .ok (b, Gb) := by
  obtain ⟨s, rs, h1, h2, h3, h4, -⟩ := visits_all_run G src
  obtain ⟨s', rs', h1', h2', h3', h4', -⟩ := visits_all_run G' src
  have hp : rs.Perm rs' := by
    rw [List.perm_ext_iff_of_nodup h2 h2']
    intro v
    rw [h3 v, h3' v, reach_congr G'.adj.find G.adj.find hf]
  rw [h1] at h
  cases h
  refine ⟨{ G' with adj := s'.adj }, ?_⟩
  rw [h1', h4', h4, ← hV, hp.length_eq]

end Graph

/-- Claim C8. On a well-formed graph `getMetaGraph` returns a graph `GP` in
which the number of occurrences of `b` under `a` is the number of original
edges `(u, v)` with `roots[u] = a`, `roots[v] = b` and `a ≠ b`, so that no
vertex is its own successor, and `GP.E` is the number of original edges whose
endpoints have different roots. -/
theorem getMetaGraph_spec (G : Graph) (h : G.WellFormed) :
    ∃ (stk : List Int) (G1 : Graph) (cnt : Int) (roots : List (Option Int)) (GP : Graph),
      G.getTopoSort = .ok (stk, G1) ∧ G1.getSCCRoots stk = .ok (cnt, roots) ∧
      G.getMetaGraph = .ok (GP, G1) ∧
      (∀ a b, (GP.adj.find a).count b =
        G.adj.edges.countP
          (fun e => decide (arrGet roots e.1 = .ok a ∧ arrGet roots e.2 = .ok b ∧ a ≠ b))) ∧
      (∀ a, a ∉ GP.adj.find a) ∧
      GP.E = (G.adj.edges.countP
        (fun e => decide (arrGet roots e.1 ≠ arrGet roots e.2)) : Nat) := by
  obtain ⟨stk, G1, s, GP, h1, ht, h2, hinv, h3, hm⟩ := Graph.getMetaGraph_run G h
  have hes : ∀ e ∈ G.adj.edges,
      (∃ r, arrGet s.roots e.1 = .ok r) ∧ ∃ r, arrGet s.roots e.2 = .ok r := by
    intro e he
    have hr := h.2.2 e he
    obtain ⟨r1, hr1, -⟩ := hinv.rooted e.1 (hinv.popped e.1 ((ht.mem e.1).2 hr.1))
    obtain ⟨r2, hr2, -⟩ := hinv.rooted e.2 (hinv.popped e.2 ((ht.mem e.2).2 hr.2))
    exact ⟨⟨r1, hr1⟩, ⟨r2, hr2⟩⟩
  have hcount : ∀ a b, (GP.adj.find a).count b =
      G.adj.edges.countP
        (fun e => decide (arrGet s.roots e.1 = .ok a ∧ arrGet s.roots e.2 = .ok b ∧ a ≠ b)) := by
    intro a b
    rw [hm.count a b]
    simp only [AdjMap.find_nil, List.count_nil, Nat.zero_add]
    apply List.countP_congr
    intro e he
    simp only [decide_eq_true_eq]
    rw [Graph.rootOf_eq_iff _ _ _ (hes e he).1, Graph.rootOf_eq_iff _ _ _ (hes e he).2]
  refine ⟨stk, G1, s.root_cnt, s.roots, GP, h1, h2, h3, hcount, ?_, ?_⟩
  · intro a ha
    have := hcount a a
    rw [List.countP_eq_zero.2 (by simp)] at this
    exact (List.count_eq_zero.1 this) ha
  · rw [hm.E_eq]
    simp only [Int.zero_add, Nat.cast_inj]
    apply List.countP_congr
    intro e he
    obtain ⟨⟨r1, hr1⟩, ⟨r2, hr2⟩⟩ := hes e he
    simp only [decide_eq_true_eq, arrGet_eq_rootOf _ _ _ hr1, arrGet_eq_rootOf _ _ _ hr2,
      hr1, hr2, ne_eq, Except.ok.injEq]

theorem getMetaGraph_spec_witness :
    (read_initial_graph 4 5 [(0, 1), (1, 0), (0, 2), (1, 2), (2, 3)]).WellFormed ∧
    ∃ (stk : List Int) (G1 : Graph) (cnt : Int) (roots : List (Option Int)) (GP : Graph),
      (read_initial_graph 4 5 [(0, 1), (1, 0), (0, 2), (1, 2), (2, 3)]).getTopoSort
        = .ok (stk, G1) ∧
      G1.getSCCRoots stk = .ok (cnt, roots) ∧
      (read_initial_graph 4 5 [(0, 1), (1, 0), (0, 2), (1, 2), (2, 3)]).getMetaGraph
        = .ok (GP, G1) ∧
      (∀ a b, (GP.adj.find a).count b =
        (read_initial_graph 4 5 [(0, 1), (1, 0), (0, 2), (1, 2), (2, 3)]).adj.edges.countP
          (fun e => decide (arrGet roots e.1 = .ok a ∧ arrGet roots e.2 = .ok b ∧ a ≠ b))) ∧
      (∀ a, a ∉ GP.adj.find a) ∧
      GP.E = ((read_initial_graph 4 5 [(0, 1), (1, 0), (0, 2), (1, 2), (2, 3)]).adj.edges.countP
        (fun e => decide (arrGet roots e.1 ≠ arrGet roots e.2)) : Nat) :=
  ⟨by decide,
    getMetaGraph_spec (read_initial_graph 4 5 [(0, 1), (1, 0), (0, 2), (1, 2), (2, 3)])
      (by decide)⟩

end ViewPoint

namespace ViewPoint

/-! ## `getViewPoint` -/

theorem getViewPoint_of_meta (G GP G1 : Graph) (hm : G.getMetaGraph = .ok (GP, G1)) :
    getViewPoint G =
      if GP.getSourceSCC = -1 then
        .ok { result := -1, graph := G1, visitsAllCalls := 0 }
      else
        (G1.visits_all GP.getSourceSCC >>= fun r =>
          if r.1 = true then
            .ok { result := GP.getSourceSCC, graph := r.2, visitsAllCalls := 1 }
          else .ok { result := -1, graph := r.2, visitsAllCalls := 1 }) := by
  unfold getViewPoint
  rw [hm]
  simp only [bind, Except.bind, pure, Except.pure]
  split
  · rfl
  · cases G1.visits_all GP.getSourceSCC with
    | error e => rfl
    | ok r =>
      obtain ⟨b, G2⟩ := r
      cases b <;> rfl

/-- Claim C5. On a well-formed graph, when `getViewPoint` returns a vertex,
`visits_all` from that vertex returns `true`, both on the graph object as
`getViewPoint` left it and on the graph as it was before the call. -/
theorem getViewPoint_roundtrip (G : Graph) (h : G.WellFormed) (r : ViewResult)
    (hr : getViewPoint G = .ok r) (hx : r.result ≠ -1) :
    (∃ G', r.graph.visits_all r.result = .ok (true, G')) ∧
    (∃ G', G.visits_all r.result = .ok (true, G')) := by
  obtain ⟨stk, G1, s, GP, -, ht, -, -, hm, -⟩ := Graph.getMetaGraph_run G h
  rw [getViewPoint_of_meta G GP G1 hm] at hr
  by_cases hsrc : GP.getSourceSCC = -1
  · rw [if_pos hsrc] at hr
    cases hr
    exact absurd rfl hx
  · rw [if_neg hsrc] at hr
    obtain ⟨sv, rs, h1, -, -, -, hfind, -, -⟩ := Graph.visits_all_run G1 GP.getSourceSCC
    rw [h1] at hr
    simp only [bind, Except.bind] at hr
    by_cases hb : decide (G1.V = sv.cnt_vis) = true
    · rw [if_pos hb] at hr
      cases hr
      simp only
      rw [hb] at h1
      constructor
      · exact Graph.visits_all_congr G1 { G1 with adj := sv.adj } rfl
          (fun x => (hfind x).symm) _ _ _ h1
      · exact Graph.visits_all_congr G1 G ht.V_eq ht.find _ _ _ h1
    · rw [if_neg hb] at hr
      cases hr
      exact absurd rfl hx

theorem getViewPoint_roundtrip_witness :
    (read_initial_graph 4 4 [(0, 1), (1, 2), (2, 0), (0, 3)]).WellFormed ∧
    getViewPoint (read_initial_graph 4 4 [(0, 1), (1, 2), (2, 0), (0, 3)]) =
      .ok { result := 0,
            graph := { V := 4, E := 4, adj := [(0, [1, 3]), (1, [2]), (2, [0]), (3, [])] },
            visitsAllCalls := 1 } ∧
    ((0 : Int) ≠ -1) ∧
    (∃ G', Graph.visits_all
        { V := 4, E := 4, adj := [(0, [1, 3]), (1, [2]), (2, [0]), (3, [])] } 0
          = .ok (true, G')) ∧
    (∃ G', (read_initial_graph 4 4 [(0, 1), (1, 2), (2, 0), (0, 3)]).visits_all 0
          = .ok (true, G')) :=
  ⟨by decide, by decide, by decide,
    getViewPoint_roundtrip (read_initial_graph 4 4 [(0, 1), (1, 2), (2, 0), (0, 3)])
      (by decide)
      { result := 0,
        graph := { V := 4, E := 4, adj := [(0, [1, 3]), (1, [2]), (2, [0]), (3, [])] },
        visitsAllCalls := 1 }
      (by decide) (by decide)⟩

/-! ## Runs on which the condensation misses a component -/

/-- Claim C1, the run that contradicts it. The graph with one vertex and no
edge is well formed and vertex `0` reaches every vertex of `[0, 1)`, yet
`getViewPoint` returns `-1`: `getMetaGraph` registers no vertex at all, so
`getSourceSCC` finds no source. -/
theorem getViewPoint_single_vertex :
    (read_initial_graph 1 0 []).WellFormed ∧
    (∀ v, InRange 1 v → Reach (read_initial_graph 1 0 []).adj.find 0 v) ∧
    (read_initial_graph 1 0 []).getMetaGraph
      = .ok ({ V := 1, E := 0, adj := [] }, { V := 1, E := 0, adj := [(0, [])] }) ∧
    getViewPoint (read_initial_graph 1 0 [])
      = .ok { result := -1, graph := { V := 1, E := 0, adj := [(0, [])] },
              visitsAllCalls := 0 } := by
  refine ⟨by decide, ?_, by decide, by decide⟩
  intro v hv
  have : v = 0 := by unfold InRange at hv; omega
  subst this
  exact Relation.ReflTransGen.refl

/-- Claim C2, the run that contradicts it. On the three-cycle `0 → 1 → 2 → 0`
the decomposition puts all vertices in one component with root `0`, and
`getViewPoint` returns `-1` instead of that root. -/
theorem getViewPoint_three_cycle :
    (read_initial_graph 3 3 [(0, 1), (1, 2), (2, 0)]).WellFormed ∧
    (read_initial_graph 3 3 [(0, 1), (1, 2), (2, 0)]).getTopoSort
      = .ok ([0, 1, 2], { V := 3, E := 3, adj := [(0, [1]), (1, [2]), (2, [0])] }) ∧
    Graph.getSCCRoots { V := 3, E := 3, adj := [(0, [1]), (1, [2]), (2, [0])] } [0, 1, 2]
      = .ok (1, [some 0, some 0, some 0]) ∧
    getViewPoint (read_initial_graph 3 3 [(0, 1), (1, 2), (2, 0)])
      = .ok { result := -1, graph := { V := 3, E := 3, adj := [(0, [1]), (1, [2]), (2, [0])] },
              visitsAllCalls := 0 } := by
  refine ⟨by decide, by decide, by decide, by decide⟩

/-- Claim C9, the run that contradicts it. On the three-cycle the only root
is `0`, and the graph returned by `getMetaGraph` has `V = 1` but no adjacency
key at all. -/
theorem getMetaGraph_three_cycle :
    (read_initial_graph 3 3 [(0, 1), (1, 2), (2, 0)]).WellFormed ∧
    (read_initial_graph 3 3 [(0, 1), (1, 2), (2, 0)]).getMetaGraph
      = .ok ({ V := 1, E := 0, adj := [] },
          { V := 3, E := 3, adj := [(0, [1]), (1, [2]), (2, [0])] }) ∧
    sccRootList [some 0, some 0, some 0] = [0] ∧
    AdjMap.keys ([] : AdjMap) = [] := by
  refine ⟨by decide, by decide, by decide, rfl⟩

/-- Claim C7, the run that contradicts it. With `V = 3` and the single edge
`0 → 1` every vertex is its own component; the components of `0` and of `2`
have no entering edge, so the condensation has two zero-in-degree vertices;
`getMetaGraph` registers only `0` and `1`, and `getViewPoint` enters
`visits_all` once before it returns `-1`. -/
theorem getViewPoint_isolated_vertex :
    (read_initial_graph 3 1 [(0, 1)]).WellFormed ∧
    (read_initial_graph 3 1 [(0, 1)]).getTopoSort
      = .ok ([2, 0, 1], { V := 3, E := 1, adj := [(0, [1]), (1, []), (2, [])] }) ∧
    Graph.getSCCRoots { V := 3, E := 1, adj := [(0, [1]), (1, []), (2, [])] } [2, 0, 1]
      = .ok (3, [some 0, some 1, some 2]) ∧
    condensationSources [some 0, some 1, some 2] (read_initial_graph 3 1 [(0, 1)]).adj.edges
      = [0, 2] ∧
    (read_initial_graph 3 1 [(0, 1)]).getMetaGraph
      = .ok ({ V := 3, E := 1, adj := [(0, [1]), (1, [])] },
          { V := 3, E := 1, adj := [(0, [1]), (1, []), (2, [])] }) ∧
    getViewPoint (read_initial_graph 3 1 [(0, 1)])
      = .ok { result := -1, graph := { V := 3, E := 1, adj := [(0, [1]), (1, []), (2, [])] },
              visitsAllCalls := 1 } := by
  refine ⟨by decide, by decide, by decide, by decide, by decide, by decide⟩

end ViewPoint

namespace ViewPoint

/-! ## Totality -/

/-- Claim C16. On a well-formed graph every step of `getViewPoint` returns:
`getTopoSort`, `getSCCRoots` on its stack, `getMetaGraph`, `visits_all` from
any vertex of `[0, V)` and `getViewPoint` itself. No run ends in a fault, be it
exhausted fuel, an index outside `vis` or `roots`, or a read of a cell of
`roots` that was never written. -/
theorem getViewPoint_total (G : Graph) (h : G.WellFormed) :
    (∃ stk G1 cnt roots GP, G.getTopoSort = .ok (stk, G1) ∧
      G1.getSCCRoots stk = .ok (cnt, roots) ∧ G.getMetaGraph = .ok (GP, G1)) ∧
    (∀ src, InRange G.V src → ∃ b G', G.visits_all src = .ok (b, G')) ∧
    ∃ r, getViewPoint G = .ok r := by
  obtain ⟨stk, G1, s, GP, h1, -, h2, -, hm, -⟩ := Graph.getMetaGraph_run G h
  refine ⟨⟨stk, G1, s.root_cnt, s.roots, GP, h1, h2, hm⟩, ?_, ?_⟩
  · intro src _
    obtain ⟨sv, -, hv, -⟩ := Graph.visits_all_run G src
    exact ⟨_, _, hv⟩
  · rw [getViewPoint_of_meta G GP G1 hm]
    by_cases hsrc : GP.getSourceSCC = -1
    · rw [if_pos hsrc]; exact ⟨_, rfl⟩
    · rw [if_neg hsrc]
      obtain ⟨sv, -, hv, -⟩ := Graph.visits_all_run G1 GP.getSourceSCC
      rw [hv]
      simp only [bind, Except.bind]
      split <;> exact ⟨_, rfl⟩

theorem getViewPoint_total_witness :
    (read_initial_graph 4 4 [(0, 1), (1, 2), (2, 0), (0, 3)]).WellFormed ∧
    (∃ stk G1 cnt roots GP,
      (read_initial_graph 4 4 [(0, 1), (1, 2), (2, 0), (0, 3)]).getTopoSort = .ok (stk, G1) ∧
      G1.getSCCRoots stk = .ok (cnt, roots) ∧
      (read_initial_graph 4 4 [(0, 1), (1, 2), (2, 0), (0, 3)]).getMetaGraph = .ok (GP, G1)) ∧
    (∀ src, InRange (read_initial_graph 4 4 [(0, 1), (1, 2), (2, 0), (0, 3)]).V src →
      ∃ b G', (read_initial_graph 4 4 [(0, 1), (1, 2), (2, 0), (0, 3)]).visits_all src
        = .ok (b, G')) ∧
    ∃ r, getViewPoint (read_initial_graph 4 4 [(0, 1), (1, 2), (2, 0), (0, 3)]) = .ok r :=
  ⟨by decide,
    getViewPoint_total (read_initial_graph 4 4 [(0, 1), (1, 2), (2, 0), (0, 3)]) (by decide)⟩

/-! ## The stack of an acyclic graph -/

theorem eq_of_mutual_of_acyclic (succ : Int → List Int) (hac : Acyclic succ) {x z : Int}
    (h : Mutual succ x z) : z = x := by
  by_contra hne
  have h1 : Relation.TransGen (fun a b => b ∈ succ a) x z := by
    rcases Relation.reflTransGen_iff_eq_or_transGen.1 h.1 with e | t
    · exact absurd e hne
    · exact t
  have h2 : Relation.TransGen (fun a b => b ∈ succ a) z x := by
    rcases Relation.reflTransGen_iff_eq_or_transGen.1 h.2 with e | t
    · exact absurd e.symm hne
    · exact t
  exact hac x (h1.trans h2)

theorem acyclic_of_edges_increasing (m : AdjMap) (h : ∀ e ∈ m.edges, e.1 < e.2) :
    Acyclic m.find := by
  have key : ∀ a b, Relation.TransGen (fun a b => b ∈ m.find a) a b → a < b := by
    intro a b hab
    induction hab with
    | single hb => exact h (a, _) (AdjMap.mem_edges_of_mem_find m a _ hb)
    | tail _ hbc ih =>
      have := h (_, _) (AdjMap.mem_edges_of_mem_find m _ _ hbc)
      simp only at this
      omega
  intro x hx
  have := key x x hx
  omega

/-- Claim C13. On a well-formed graph without directed cycle the stack
returned by `getTopoSort` lists every vertex of `[0, V)` exactly once and, for
every edge `(u, v)`, holds `u` nearer the top than `v`: the stack splits as
`l1 ++ u :: l2` with `v` in `l2`. -/
theorem getTopoSort_topological (G : Graph) (h : G.WellFormed) (hac : Acyclic G.adj.find) :
    ∃ stk G1, G.getTopoSort = .ok (stk, G1) ∧ stk.Nodup ∧
      (∀ x, x ∈ stk ↔ InRange G.V x) ∧
      ∀ u v, v ∈ G.adj.find u → ∃ l1 l2, stk = l1 ++ u :: l2 ∧ v ∈ l2 := by
  obtain ⟨stk, G1, h1, ht⟩ := Graph.getTopoSort_spec G h
  refine ⟨stk, G1, h1, ht.nodup, ht.mem, ?_⟩
  intro u v huv
  have hu : InRange G.V u :=
    (h.2.2 (u, v) ((AdjMap.mem_find_iff G.adj h.2.1 u v).1 huv)).1
  have hv : InRange G.V v := h.succ_inRange u v huv
  obtain ⟨z, hz, l1, l2, e, hmem⟩ := ht.order u ((ht.mem u).2 hu) v ((ht.mem v).2 hv)
    (Relation.ReflTransGen.single huv) (fun hf => hf)
  have hzu : z = u := eq_of_mutual_of_acyclic G.adj.find hac hz
  subst hzu
  refine ⟨l1, l2, e, ?_⟩
  rcases List.mem_cons.1 hmem with e' | hm
  · exfalso
    subst e'
    exact hac v (Relation.TransGen.single huv)
  · exact hm

theorem getTopoSort_topological_witness :
    (read_initial_graph 4 4 [(0, 2), (0, 1), (1, 3), (2, 3)]).WellFormed ∧
    Acyclic (read_initial_graph 4 4 [(0, 2), (0, 1), (1, 3), (2, 3)]).adj.find ∧
    ∃ stk G1, (read_initial_graph 4 4 [(0, 2), (0, 1), (1, 3), (2, 3)]).getTopoSort
        = .ok (stk, G1) ∧ stk.Nodup ∧
      (∀ x, x ∈ stk ↔ InRange (read_initial_graph 4 4 [(0, 2), (0, 1), (1, 3), (2, 3)]).V x) ∧
      ∀ u v, v ∈ (read_initial_graph 4 4 [(0, 2), (0, 1), (1, 3), (2, 3)]).adj.find u →
        ∃ l1 l2, stk = l1 ++ u :: l2 ∧ v ∈ l2 :=
  ⟨by decide, acyclic_of_edges_increasing _ (by decide),
    getTopoSort_topological (read_initial_graph 4 4 [(0, 2), (0, 1), (1, 3), (2, 3)])
      (by decide) (acyclic_of_edges_increasing _ (by decide))⟩

end ViewPoint

namespace ViewPoint

/-! ## The record of the loop of `getSCCRoots` -/

namespace Graph

theorem sccLoopTraced_fst (fuel : Nat) :
    ∀ (stk : List Int) (s : RootsState) (tr : List (Int × List Int)),
      (sccLoopTraced fuel stk s tr).map Prod.fst = sccLoop fuel stk s := by
  intro stk
  induction stk with
  | nil => intro s tr; rfl
  | cons u stk ih =>
    intro s tr
    rw [sccLoopTraced, sccLoop]
    cases hv : vecGet s.vis u with
    | error e => rfl
    | ok seen =>
      cases seen with
      | true =>
        simp only [bind, Except.bind, if_true]
        exact ih s tr
      | false =>
        simp only [bind, Except.bind, Bool.false_eq_true, if_false]
        cases hb : buildGraph fuel u { adjT := s.adjT, vis := s.vis, component := [] } with
        | error e => rfl
        | ok b =>
          simp only
          cases hc : b.component with
          | nil => rfl
          | cons r rest =>
            simp only [pure, Except.pure]
            cases hr : List.foldlM (fun roots w => arrSet roots w r) s.roots (r :: rest) with
            | error e => rfl
            | ok roots =>
              simp only
              exact ih _ _

theorem sccLoopTraced_cons_marked (fuel : Nat) (u : Int) (stk : List Int) (s : RootsState)
    (tr : List (Int × List Int)) (h : vecGet s.vis u = .ok true) :
    sccLoopTraced fuel (u :: stk) s tr = sccLoopTraced fuel stk s tr := by
  rw [sccLoopTraced, h]
  rfl

theorem sccLoopTraced_cons_fresh (fuel : Nat) (u : Int) (stk : List Int) (s : RootsState)
    (tr : List (Int × List Int))
    (b : SccState) (r : Int) (rest : List Int) (roots : List (Option Int))
    (h : vecGet s.vis u = .ok false)
    (hb : buildGraph fuel u { adjT := s.adjT, vis := s.vis, component := [] } = .ok b)
    (hc : b.component = r :: rest)
    (hr : b.component.foldlM (fun roots w => arrSet roots w r) s.roots = .ok roots) :
    sccLoopTraced fuel (u :: stk) s tr =
      sccLoopTraced fuel stk
        { adjT := b.adjT, vis := b.vis, roots := roots, root_cnt := s.root_cnt + 1 }
        (tr ++ [(u, b.component)]) := by
  rw [sccLoopTraced, h]
  simp only [bind, Except.bind, Bool.false_eq_true, if_false, hb]
  rw [hc] at hr ⊢
  simp only [pure, Except.pure, hr]

/-- What one run of `buildGraph` from an unmarked vertex collects. -/
theorem buildGraph_component (succT : Int → List Int) (V : Int)
    (hrangeT : ∀ x, ∀ v ∈ succT x, InRange V v)
    (adjT : AdjMap) (vis : List Bool) (hlen : (vis.length : Int) = V)
    (hfind : ∀ x, adjT.find x = succT x) (u : Int) (huR : InRange V u)
    (hu : ¬ Marked vis u) (b : SccState)
    (hb : buildGraph V.toNat u { adjT := adjT, vis := vis, component := [] } = .ok b) :
    b.component.Nodup ∧ (∀ w ∈ b.component, ¬ Marked vis w) ∧
    (∀ x, Marked b.vis x ↔ Marked vis x ∨ x ∈ b.component) ∧
    (∀ w ∈ b.component, InRange V w) ∧ ∃ rest, b.component = u :: rest := by
  let sl := ((List.range V.toNat).map Int.ofNat).filter (fun x => decide (Marked vis x))
  have hsl : ∀ x, x ∈ sl ↔ Marked vis x := by
    intro x
    simp only [sl, List.mem_filter, decide_eq_true_eq]
    constructor
    · exact fun h => h.2
    · intro h
      refine ⟨(mem_vertexRange V x).2 ?_, h⟩
      have := h.inRange
      rw [hlen] at this
      exact this
  have husl : u ∉ sl := fun h => hu ((hsl u).1 h)
  obtain ⟨a', ha'⟩ := dfs_terminates_inRange succT V hrangeT u ⟨sl, []⟩ huR husl
  obtain ⟨pre, pst, he, -⟩ := dfs_shape succT _ u _ a' ha' husl
  have hr0 : SccRel succT V sl { adjT := adjT, vis := vis, component := [] } ⟨sl, []⟩ :=
    ⟨hlen, hsl, by simp, hfind⟩
  obtain ⟨b', hb', hrb⟩ := scc_sim succT V sl hrangeT V.toNat u _ _ a' huR hr0 ha'
  rw [hb] at hb'
  cases hb'
  have hcomp : b.component = u :: pre.reverse := by
    have h1 := hrb.comp
    rw [he.seen_eq] at h1
    have h2 : pre ++ [u] = b.component.reverse := List.append_cancel_right h1
    have h3 := congrArg List.reverse h2
    simp only [List.reverse_append, List.reverse_cons, List.reverse_nil, List.nil_append,
      List.reverse_reverse, List.singleton_append] at h3
    exact h3.symm
  have hmemC : ∀ x, x ∈ b.component ↔ x ∈ pre ++ [u] := by
    intro x
    rw [hcomp]
    simp only [List.mem_cons, List.mem_reverse, List.mem_append, List.mem_singleton]
    tauto
  have hF4 : ∀ x, Marked b.vis x ↔ Marked vis x ∨ x ∈ b.component := by
    intro x
    rw [← hrb.seen x, he.seen_eq, List.mem_append, hmemC, ← hsl x]
    tauto
  refine ⟨?_, ?_, hF4, ?_, ⟨pre.reverse, hcomp⟩⟩
  · have h2 : b.component.reverse = pre ++ [u] := by rw [hcomp]; simp
    have := he.nodup
    rw [← h2] at this
    exact List.nodup_reverse.1 this
  · intro w hw hm
    exact he.fresh w ((hmemC w).1 hw) ((hsl w).2 hm)
  · intro w hw
    have := ((hF4 w).2 (Or.inr hw)).inRange
    rw [hrb.len] at this
    exact this

theorem sccLoopTraced_spec (succ succT : Int → List Int) (V : Int) (L : List Int)
    (hT : ∀ x y, y ∈ succT x ↔ x ∈ succ y)
    (hrangeT : ∀ x, ∀ v ∈ succT x, InRange V v)
    (hnd : L.Nodup) (hmem : ∀ x, x ∈ L ↔ InRange V x)
    (hord : LeftOrder succ (fun _ => False) L) :
    ∀ (R P : List Int) (s : RootsState) (tr : List (Int × List Int)), L = P ++ R →
      RootsInv succ succT V L P s → TraceInv s tr →
      ∃ s' tr', sccLoopTraced V.toNat R s tr = .ok (s', tr') ∧
        RootsInv succ succT V L L s' ∧ TraceInv s' tr' := by
  intro R
  induction R with
  | nil =>
    intro P s tr hL hinv htr
    rw [List.append_nil] at hL
    subst hL
    exact ⟨s, tr, rfl, hinv, htr⟩
  | cons u R ih =>
    intro P s tr hL hinv htr
    have hL' : L = (P ++ [u]) ++ R := by rw [hL]; simp
    have huR : InRange V u := (hmem u).1 (by rw [hL]; simp)
    obtain ⟨seen, hseen, hsm⟩ := vecGet_of_inRange s.vis u (by rw [hinv.vlen]; exact huR)
    by_cases hm : Marked s.vis u
    · have : seen = true := hsm.2 hm
      subst this
      rw [sccLoopTraced_cons_marked V.toNat u R s tr hseen]
      have hinv' : RootsInv succ succT V L (P ++ [u]) s := by
        refine ⟨hinv.vlen, hinv.rlen, hinv.find, ?_, hinv.sccClosed, hinv.rooted, hinv.canon,
          hinv.unwritten, hinv.counted⟩
        intro x hx
        rcases List.mem_append.1 hx with hx | hx
        · exact hinv.popped x hx
        · rw [List.mem_singleton] at hx; subst hx; exact hm
      exact ih (P ++ [u]) s tr hL' hinv' htr
    · have : seen = false := by
        cases seen with
        | false => rfl
        | true => exact absurd (hsm.1 rfl) hm
      subst this
      obtain ⟨b, roots', hb, ⟨rest, hcomp⟩, hroots, hinv'⟩ :=
        sccLoop_step succ succT V L hT hrangeT hnd hmem hord P R u s hL hinv hm
      obtain ⟨c1, c2, c3, c4, -⟩ := buildGraph_component succT V hrangeT s.adjT s.vis
        hinv.vlen hinv.find u huR hm b hb
      obtain ⟨roots'', hf1, -, hf3, -⟩ := arrSet_fold u b.component s.roots (by
        intro w hw
        have := c4 w hw
        unfold InRange at this ⊢
        rw [hinv.rlen]
        exact this)
      rw [hroots] at hf1
      cases hf1
      have htr' : TraceInv
          { adjT := b.adjT, vis := b.vis, roots := roots', root_cnt := s.root_cnt + 1 }
          (tr ++ [(u, b.component)]) := by
        refine ⟨?_, ?_, ?_, ?_, ?_⟩
        · simp only [List.flatMap_append, List.flatMap_cons, List.flatMap_nil, List.append_nil]
          rw [List.nodup_append]
          refine ⟨htr.nodup, c1, ?_⟩
          intro x hx hxc
          exact c2 x hxc ((htr.marked x).1 hx)
        · intro x
          simp only [List.flatMap_append, List.flatMap_cons, List.flatMap_nil, List.append_nil,
            List.mem_append]
          rw [c3 x, htr.marked x]
        · intro p hp
          rcases List.mem_append.1 hp with hp | hp
          · exact htr.heads p hp
          · rw [List.mem_singleton] at hp
            subst hp
            exact ⟨rest, hcomp⟩
        · intro p hp w hw
          simp only [hf3]
          rcases List.mem_append.1 hp with hp | hp
          · have hwm : Marked s.vis w :=
              (htr.marked w).1 (List.mem_flatMap.2 ⟨p, hp, hw⟩)
            rw [if_neg (fun hc => c2 w hc hwm)]
            exact htr.roots p hp w hw
          · rw [List.mem_singleton] at hp
            subst hp
            rw [if_pos hw]
        · simp only [htr.count, List.length_append, List.length_singleton, Nat.cast_add,
            Nat.cast_one]
      obtain ⟨s', tr', hs', hfin, hfin'⟩ := ih (P ++ [u]) _ _ hL' hinv' htr'
      refine ⟨s', tr', ?_, hfin, hfin'⟩
      rw [sccLoopTraced_cons_fresh V.toNat u R s tr b u rest roots' hseen hb hcomp hroots]
      exact hs'

theorem getSCCRootsTraced_fst (G : Graph) (stk : List Int) :
    (G.getSCCRootsTraced stk).map (fun r => (r.1, r.2.1)) = G.getSCCRoots stk := by
  unfold getSCCRootsTraced getSCCRoots
  cases vecMake G.V with
  | error e => rfl
  | ok vis =>
    cases arrMake G.V with
    | error e => rfl
    | ok roots =>
      simp only [bind, Except.bind]
      rw [← sccLoopTraced_fst G.V.toNat stk _ []]
      cases sccLoopTraced G.V.toNat stk
        { adjT := G.getTranspose.adj, vis := vis, roots := roots, root_cnt := 0 } [] with
      | error e => rfl
      | ok r => rfl

/-- On a well-formed graph the traced `getSCCRoots` returns what `getSCCRoots`
returns, with a record that satisfies `TraceInv`. -/
theorem getSCCRootsTraced_spec (G : Graph) (h : G.WellFormed) (stk : List Int) (G1 : Graph)
    (ht : TopoSpec G stk G1) :
    ∃ s tr, G1.getSCCRootsTraced stk = .ok (s.root_cnt, s.roots, tr) ∧
      G1.getSCCRoots stk = .ok (s.root_cnt, s.roots) ∧
      RootsInv G.adj.find G1.getTranspose.adj.find G.V stk stk s ∧ TraceInv s tr := by
  have hV : 0 ≤ G.V := h.1
  have hT : ∀ x y, y ∈ G1.getTranspose.adj.find x ↔ x ∈ G.adj.find y := by
    intro x y
    rw [mem_getTranspose G1 ht.ordered, ht.find]
  have hrangeT : ∀ x, ∀ v ∈ G1.getTranspose.adj.find x, InRange G.V v := by
    intro x v hv
    have := (hT x v).1 hv
    exact (h.2.2 (v, x) ((AdjMap.mem_find_iff G.adj h.2.1 v x).1 this)).1
  have htr0 : TraceInv
      { adjT := G1.getTranspose.adj, vis := List.replicate G.V.toNat false,
        roots := List.replicate G.V.toNat none, root_cnt := 0 } [] := by
    refine ⟨by simp, ?_, by simp, by simp, rfl⟩
    intro x
    simp only [List.flatMap_nil, List.not_mem_nil, false_iff]
    exact not_marked_replicate _ x
  obtain ⟨s, tr, hs, hinv, htr⟩ := sccLoopTraced_spec G.adj.find G1.getTranspose.adj.find G.V
    stk hT hrangeT ht.nodup ht.mem ht.order stk [] _ [] rfl
    (rootsInv_init G.adj.find G1.getTranspose.adj.find G.V hV stk G1.getTranspose.adj
      (fun _ => rfl)) htr0
  have hT' : G1.getSCCRootsTraced stk = .ok (s.root_cnt, s.roots, tr) := by
    unfold getSCCRootsTraced vecMake arrMake
    rw [ht.V_eq]
    simp only [if_pos hV, bind, Except.bind, hs]
    rfl
  refine ⟨s, tr, hT', ?_, hinv, htr⟩
  rw [← getSCCRootsTraced_fst, hT']
  rfl

end Graph

end ViewPoint

namespace ViewPoint

/-! ## Roots and components -/

theorem arrGet_ok_inv (roots : List (Option Int)) (u r : Int) (h : arrGet roots u = .ok r) :
    InRange roots.length u ∧ roots.getD u.toNat none = some r := by
  unfold arrGet at h
  by_cases hu : 0 ≤ u ∧ u < (roots.length : Int)
  · rw [if_pos hu] at h
    refine ⟨hu, ?_⟩
    cases hg : roots.getD u.toNat none with
    | none => rw [hg] at h; cases h
    | some r' => rw [hg] at h; cases h; rfl
  · rw [if_neg hu] at h; cases h

theorem arrGet_of_getD (roots : List (Option Int)) (u r : Int) (hu : InRange roots.length u)
    (h : roots.getD u.toNat none = some r) : arrGet roots u = .ok r := by
  unfold arrGet
  unfold InRange at hu
  rw [if_pos hu, h]

theorem mem_sccRootList (roots : List (Option Int)) (x : Int) :
    x ∈ sccRootList roots ↔ ∃ u, arrGet roots u = .ok x := by
  unfold sccRootList
  rw [List.mem_dedup, List.mem_filterMap]
  constructor
  · rintro ⟨o, ho, e⟩
    simp only [id] at e
    subst e
    obtain ⟨i, hi, hget⟩ := List.getElem_of_mem ho
    refine ⟨(i : Int), arrGet_of_getD roots i x ⟨by omega, by omega⟩ ?_⟩
    simp only [Int.toNat_ofNat, List.getD_eq_getElem?_getD, List.getElem?_eq_getElem hi, hget,
      Option.getD_some]
  · rintro ⟨u, hu⟩
    obtain ⟨hr, hg⟩ := arrGet_ok_inv roots u x hu
    refine ⟨some x, ?_, rfl⟩
    have hlt : u.toNat < roots.length := by unfold InRange at hr; omega
    rw [List.getD_eq_getElem?_getD, List.getElem?_eq_getElem hlt] at hg
    simp only [Option.getD_some] at hg
    rw [← hg]
    exact List.getElem_mem hlt

namespace Graph

theorem RootsInv.roots_inRange {succ succT : Int → List Int} {V : Int} {L P : List Int}
    {s : RootsState} (hinv : RootsInv succ succT V L P s) {u r : Int}
    (h : arrGet s.roots u = .ok r) : InRange V u := by
  have := (arrGet_ok_inv s.roots u r h).1
  rw [hinv.rlen] at this
  exact this

/-- The number of roots counted by the loop is the number of distinct values
in `roots`. -/
theorem RootsInv.root_cnt_eq {succ succT : Int → List Int} {V : Int} {L : List Int}
    {s : RootsState} (hinv : RootsInv succ succT V L L s) (hmem : ∀ x, x ∈ L ↔ InRange V x) :
    s.root_cnt = ((sccRootList s.roots).length : Int) := by
  obtain ⟨rs, hnd, hcnt, hrs⟩ := hinv.counted
  have hp : (sccRootList s.roots).Perm rs := by
    have hnd' : (sccRootList s.roots).Nodup := by
      unfold sccRootList; exact List.nodup_dedup _
    rw [List.perm_ext_iff_of_nodup hnd' hnd]
    intro x
    rw [mem_sccRootList, hrs]
    constructor
    · rintro ⟨u, hu⟩
      have hur := hinv.roots_inRange hu
      obtain ⟨r, h1, -, h3, -⟩ := hinv.rooted u (hinv.popped u ((hmem u).2 hur))
      rw [hu] at h1
      cases h1
      exact ⟨hinv.popped x ((hmem x).2 (hinv.roots_inRange h3)), h3⟩
    · rintro ⟨-, hx⟩
      exact ⟨x, hx⟩
  rw [hcnt, hp.length_eq]

end Graph

/-- Claim C11. On a well-formed graph, for every component that the loop of
`getSCCRoots` starts by popping `u`, the collected component begins with `u`,
every member gets the root `u`, and `u` is at or before every member in the
stack; every vertex of `[0, V)` lies in such a component, and
`roots[roots[v]] = roots[v]`. -/
theorem sccRoots_root_is_pop (G : Graph) (h : G.WellFormed) :
    ∃ stk G1 cnt roots tr, G.getTopoSort = .ok (stk, G1) ∧
      G1.getSCCRootsTraced stk = .ok (cnt, roots, tr) ∧
      G1.getSCCRoots stk = .ok (cnt, roots) ∧
      (∀ p ∈ tr, (∃ rest, p.2 = p.1 :: rest) ∧
        ∀ w ∈ p.2, arrGet roots w = .ok p.1 ∧ Before stk p.1 w) ∧
      (∀ v, InRange G.V v → ∃ p ∈ tr, v ∈ p.2) ∧
      (∀ v, InRange G.V v → ∃ r, arrGet roots v = .ok r ∧ arrGet roots r = .ok r) := by
  obtain ⟨stk, G1, h1, ht⟩ := Graph.getTopoSort_spec G h
  obtain ⟨s, tr, h2, h3, hinv, htr⟩ := Graph.getSCCRootsTraced_spec G h stk G1 ht
  refine ⟨stk, G1, s.root_cnt, s.roots, tr, h1, h2, h3, ?_, ?_, ?_⟩
  · intro p hp
    refine ⟨htr.heads p hp, fun w hw => ⟨htr.roots p hp w hw, ?_⟩⟩
    have hwm : Marked s.vis w := (htr.marked w).1 (List.mem_flatMap.2 ⟨p, hp, hw⟩)
    obtain ⟨r, hr1, -, -, hr4⟩ := hinv.rooted w hwm
    rw [htr.roots p hp w hw] at hr1
    cases hr1
    exact hr4
  · intro v hv
    have := (htr.marked v).2 (hinv.popped v ((ht.mem v).2 hv))
    obtain ⟨p, hp, hvp⟩ := List.mem_flatMap.1 this
    exact ⟨p, hp, hvp⟩
  · intro v hv
    obtain ⟨r, hr1, -, hr3, -⟩ := hinv.rooted v (hinv.popped v ((ht.mem v).2 hv))
    exact ⟨r, hr1, hr3⟩

theorem sccRoots_root_is_pop_witness :
    (read_initial_graph 4 4 [(0, 1), (1, 2), (2, 0), (0, 3)]).WellFormed ∧
    ∃ stk G1 cnt roots tr,
      (read_initial_graph 4 4 [(0, 1), (1, 2), (2, 0), (0, 3)]).getTopoSort = .ok (stk, G1) ∧
      G1.getSCCRootsTraced stk = .ok (cnt, roots, tr) ∧
      G1.getSCCRoots stk = .ok (cnt, roots) ∧
      (∀ p ∈ tr, (∃ rest, p.2 = p.1 :: rest) ∧
        ∀ w ∈ p.2, arrGet roots w = .ok p.1 ∧ Before stk p.1 w) ∧
      (∀ v, InRange (read_initial_graph 4 4 [(0, 1), (1, 2), (2, 0), (0, 3)]).V v →
        ∃ p ∈ tr, v ∈ p.2) ∧
      (∀ v, InRange (read_initial_graph 4 4 [(0, 1), (1, 2), (2, 0), (0, 3)]).V v →
        ∃ r, arrGet roots v = .ok r ∧ arrGet roots r = .ok r) :=
  ⟨by decide,
    sccRoots_root_is_pop (read_initial_graph 4 4 [(0, 1), (1, 2), (2, 0), (0, 3)]) (by decide)⟩

/-- Claim C12. On a well-formed graph the components collected by the loop of
`getSCCRoots` list every vertex of `[0, V)` exactly once, so that every cell
of `roots` is written exactly once; the value written lies in `[0, V)`; and
`root_cnt` is the number of components and the number of distinct values in
`roots`. -/
theorem sccRoots_partition (G : Graph) (h : G.WellFormed) :
    ∃ stk G1 cnt roots tr, G.getTopoSort = .ok (stk, G1) ∧
      G1.getSCCRootsTraced stk = .ok (cnt, roots, tr) ∧
      G1.getSCCRoots stk = .ok (cnt, roots) ∧
      (tr.flatMap Prod.snd).Nodup ∧
      (∀ v, v ∈ tr.flatMap Prod.snd ↔ InRange G.V v) ∧
      (∀ p ∈ tr, ∀ w ∈ p.2, arrGet roots w = .ok p.1) ∧
      (∀ v, InRange G.V v → ∃ r, arrGet roots v = .ok r ∧ InRange G.V r) ∧
      cnt = (tr.length : Int) ∧ cnt = ((sccRootList roots).length : Int) := by
  obtain ⟨stk, G1, h1, ht⟩ := Graph.getTopoSort_spec G h
  obtain ⟨s, tr, h2, h3, hinv, htr⟩ := Graph.getSCCRootsTraced_spec G h stk G1 ht
  refine ⟨stk, G1, s.root_cnt, s.roots, tr, h1, h2, h3, htr.nodup, ?_, htr.roots, ?_,
    htr.count, hinv.root_cnt_eq ht.mem⟩
  · intro v
    rw [htr.marked v]
    constructor
    · intro hm
      have := hm.inRange
      rw [hinv.vlen] at this
      exact this
    · intro hv
      exact hinv.popped v ((ht.mem v).2 hv)
  · intro v hv
    obtain ⟨r, hr1, -, hr3, -⟩ := hinv.rooted v (hinv.popped v ((ht.mem v).2 hv))
    exact ⟨r, hr1, hinv.roots_inRange hr3⟩

theorem sccRoots_partition_witness :
    (read_initial_graph 4 4 [(0, 1), (1, 2), (2, 0), (0, 3)]).WellFormed ∧
    ∃ stk G1 cnt roots tr,
      (read_initial_graph 4 4 [(0, 1), (1, 2), (2, 0), (0, 3)]).getTopoSort = .ok (stk, G1) ∧
      G1.getSCCRootsTraced stk = .ok (cnt, roots, tr) ∧
      G1.getSCCRoots stk = .ok (cnt, roots) ∧
      (tr.flatMap Prod.snd).Nodup ∧
      (∀ v, v ∈ tr.flatMap Prod.snd ↔
        InRange (read_initial_graph 4 4 [(0, 1), (1, 2), (2, 0), (0, 3)]).V v) ∧
      (∀ p ∈ tr, ∀ w ∈ p.2, arrGet roots w = .ok p.1) ∧
      (∀ v, InRange (read_initial_graph 4 4 [(0, 1), (1, 2), (2, 0), (0, 3)]).V v →
        ∃ r, arrGet roots v = .ok r ∧
          InRange (read_initial_graph 4 4 [(0, 1), (1, 2), (2, 0), (0, 3)]).V r) ∧
      cnt = (tr.length : Int) ∧ cnt = ((sccRootList roots).length : Int) :=
  ⟨by decide,
    sccRoots_partition (read_initial_graph 4 4 [(0, 1), (1, 2), (2, 0), (0, 3)]) (by decide)⟩

end ViewPoint

namespace ViewPoint

/-! ## Roots as representatives, and the edges of the condensation -/

namespace Graph

theorem RootsInv.rootOf_spec {succ succT : Int → List Int} {V : Int} {L : List Int}
    {s : RootsState} (hinv : RootsInv succ succT V L L s) (hmem : ∀ x, x ∈ L ↔ InRange V x)
    {x : Int} (hx : InRange V x) :
    arrGet s.roots x = .ok (rootOf s.roots x) ∧ Mutual succ x (rootOf s.roots x) ∧
      rootOf s.roots (rootOf s.roots x) = rootOf s.roots x ∧ InRange V (rootOf s.roots x) := by
  obtain ⟨r, h1, h2, h3, -⟩ := hinv.rooted x (hinv.popped x ((hmem x).2 hx))
  have e := arrGet_eq_rootOf s.roots x r h1
  rw [e]
  exact ⟨h1, h2, arrGet_eq_rootOf s.roots r r h3, hinv.roots_inRange h3⟩

theorem RootsInv.rootOf_same {succ succT : Int → List Int} {V : Int} {L : List Int}
    {s : RootsState} (hinv : RootsInv succ succT V L L s) (hmem : ∀ x, x ∈ L ↔ InRange V x)
    {x y : Int} (hx : InRange V x) (hy : InRange V y) :
    rootOf s.roots x = rootOf s.roots y ↔ Mutual succ x y := by
  obtain ⟨hx1, hx2, -, -⟩ := hinv.rootOf_spec hmem hx
  obtain ⟨hy1, hy2, -, -⟩ := hinv.rootOf_spec hmem hy
  constructor
  · intro e
    rw [e] at hx2
    exact hx2.trans hy2.symm
  · intro hm
    have := hinv.canon x y (hinv.popped x ((hmem x).2 hx)) hm
    rw [hx1, hy1] at this
    exact Except.ok.inj this

theorem MetaSpec.mem_find {roots : List (Option Int)} {es : List (Int × Int)} {cnt : Int}
    {GP : Graph} (hm : MetaSpec roots es { V := cnt, E := 0, adj := [] } GP) (a b : Int) :
    b ∈ GP.adj.find a ↔
      ∃ e ∈ es, rootOf roots e.1 = a ∧ rootOf roots e.2 = b ∧ a ≠ b := by
  rw [← List.count_pos_iff, hm.count a b]
  simp only [AdjMap.find_nil, List.count_nil, Nat.zero_add, List.countP_pos_iff,
    decide_eq_true_eq]

theorem MetaSpec.hasKey_iff {roots : List (Option Int)} {es : List (Int × Int)} {cnt : Int}
    {GP : Graph} (hm : MetaSpec roots es { V := cnt, E := 0, adj := [] } GP) (k : Int) :
    GP.adj.hasKey k = true ↔
      ∃ e ∈ es, rootOf roots e.1 ≠ rootOf roots e.2 ∧
        (rootOf roots e.1 = k ∨ rootOf roots e.2 = k) := by
  rw [hm.keys k]
  simp [AdjMap.hasKey]

theorem MetaSpec.adj_ordered {roots : List (Option Int)} {es : List (Int × Int)} {cnt : Int}
    {GP : Graph} (hm : MetaSpec roots es { V := cnt, E := 0, adj := [] } GP) :
    GP.adj.Ordered := hm.ordered List.Pairwise.nil

end Graph

namespace AdjMap

theorem inDegree_eq_zero_iff (m : AdjMap) (h : m.Ordered) (k : Int) :
    m.inDegree k = 0 ↔ ∀ a, k ∉ m.find a := by
  unfold inDegree
  rw [List.count_eq_zero]
  constructor
  · intro hk a ha
    apply hk
    exact List.mem_map.2 ⟨(a, k), (mem_find_iff m h a k).1 ha, rfl⟩
  · intro hk hmem
    obtain ⟨e, he, ek⟩ := List.mem_map.1 hmem
    apply hk e.1
    rw [mem_find_iff m h]
    rw [← ek]
    exact he

theorem hasKey_of_mem_find (m : AdjMap) (a b : Int) (h : b ∈ m.find a) : m.hasKey a = true := by
  cases hk : m.hasKey a with
  | true => rfl
  | false =>
    rw [find_eq_nil_of_not_hasKey m a hk] at h
    exact absurd h (List.not_mem_nil _)

theorem mem_vertices (m : AdjMap) (k : Int) :
    k ∈ m.vertices ↔ m.hasKey k = true ∨ ∃ a, (a, k) ∈ m.edges := by
  unfold vertices
  rw [List.mem_dedup, List.mem_append, hasKey_iff_mem_keys]
  constructor
  · rintro (h | h)
    · exact Or.inl h
    · obtain ⟨e, he, ek⟩ := List.mem_map.1 h
      exact Or.inr ⟨e.1, by rw [← ek]; exact he⟩
  · rintro (h | ⟨a, h⟩)
    · exact Or.inl h
    · exact Or.inr (List.mem_map.2 ⟨(a, k), h, rfl⟩)

end AdjMap

/-- In a non-empty finite list every transitive irreflexive relation has a
minimal element. -/
theorem exists_minimal_of_list (R : Int → Int → Prop) (htrans : ∀ a b c, R a b → R b c → R a c)
    (hirr : ∀ a, ¬ R a a) :
    ∀ K : List Int, K ≠ [] → ∃ m ∈ K, ∀ a ∈ K, ¬ R a m := by
  intro K
  induction K with
  | nil => intro h; exact absurd rfl h
  | cons k K ih =>
    intro _
    by_cases hK : K = []
    · subst hK
      refine ⟨k, List.mem_singleton_self k, ?_⟩
      intro a ha
      rw [List.mem_singleton] at ha
      subst ha
      exact hirr a
    · obtain ⟨m, hm, hmin⟩ := ih hK
      by_cases hkm : R k m
      · refine ⟨k, List.mem_cons_self _ _, ?_⟩
        intro a ha hak
        rcases List.mem_cons.1 ha with e | ha
        · subst e; exact hirr a hak
        · exact hmin a ha (htrans a k m hak hkm)
      · refine ⟨m, List.mem_cons_of_mem _ hm, ?_⟩
        intro a ha
        rcases List.mem_cons.1 ha with e | ha
        · subst e; exact hkm
        · exact hmin a ha

end ViewPoint

namespace ViewPoint

namespace Graph

/-- On a well-formed graph `getMetaGraph` returns, and the condensation it
returns is described by `CondFacts`. -/
theorem getMetaGraph_cond (G : Graph) (h : G.WellFormed) :
    ∃ (stk : List Int) (G1 : Graph) (s : RootsState) (GP : Graph),
      G.getTopoSort = .ok (stk, G1) ∧ TopoSpec G stk G1 ∧
      G1.getSCCRoots stk = .ok (s.root_cnt, s.roots) ∧
      G.getMetaGraph = .ok (GP, G1) ∧ CondFacts G s.roots GP := by
  obtain ⟨stk, G1, s, GP, h1, ht, h2, hinv, hm, hs⟩ := getMetaGraph_run G h
  exact ⟨stk, G1, s, GP, h1, ht, h2, hm,
    ⟨hs.adj_ordered, hs.mem_find, hs.hasKey_iff,
      fun x hx => hinv.rootOf_spec ht.mem hx,
      fun x y hx hy => hinv.rootOf_same ht.mem hx hy⟩⟩

theorem CondFacts.edge_reach {G : Graph} {roots : List (Option Int)} {GP : Graph}
    (hc : CondFacts G roots GP) (h : G.WellFormed) {a b : Int} (hab : b ∈ GP.adj.find a) :
    Reach G.adj.find a b ∧ a ≠ b ∧ rootOf roots a = a ∧ rootOf roots b = b ∧
      InRange G.V a ∧ InRange G.V b := by
  obtain ⟨e, he, ha, hb, hne⟩ := (hc.edge a b).1 hab
  have hr := h.2.2 e he
  obtain ⟨-, m1, i1, r1⟩ := hc.root e.1 hr.1
  obtain ⟨-, m2, i2, r2⟩ := hc.root e.2 hr.2
  rw [ha] at m1 i1 r1
  rw [hb] at m2 i2 r2
  refine ⟨?_, hne, i1, i2, r1, r2⟩
  have hedge : e.2 ∈ G.adj.find e.1 := (AdjMap.mem_find_iff G.adj h.2.1 e.1 e.2).2 he
  exact (m1.2.trans (Relation.ReflTransGen.single hedge)).trans m2.1

theorem CondFacts.reach {G : Graph} {roots : List (Option Int)} {GP : Graph}
    (hc : CondFacts G roots GP) (h : G.WellFormed) {a b : Int}
    (hab : Reach GP.adj.find a b) : Reach G.adj.find a b := by
  induction hab with
  | refl => exact Relation.ReflTransGen.refl
  | tail _ hbc ih => exact ih.trans (hc.edge_reach h hbc).1

theorem CondFacts.acyclic {G : Graph} {roots : List (Option Int)} {GP : Graph}
    (hc : CondFacts G roots GP) (h : G.WellFormed) : Acyclic GP.adj.find := by
  intro k hk
  obtain ⟨b, hkb, hbk⟩ := Relation.TransGen.head'_iff.1 hk
  obtain ⟨h1, hne, rk, rb, ik, ib⟩ := hc.edge_reach h hkb
  have h2 : Reach G.adj.find b k := hc.reach h hbk
  have := (hc.same k b ik ib).2 ⟨h1, h2⟩
  rw [rk, rb] at this
  exact hne this

end Graph

/-- Claim C20. On a well-formed graph the graph returned by `getMetaGraph` has
no directed cycle, in particular no self-loop, and when it has at least one
adjacency key it has a vertex of in-degree zero. -/
theorem getMetaGraph_acyclic (G : Graph) (h : G.WellFormed) :
    ∃ GP G1, G.getMetaGraph = .ok (GP, G1) ∧ Acyclic GP.adj.find ∧
      (∀ a, a ∉ GP.adj.find a) ∧
      (GP.adj.keys ≠ [] → ∃ m, m ∈ GP.adj.vertices ∧ GP.adj.inDegree m = 0) := by
  obtain ⟨stk, G1, s, GP, -, -, -, hm, hc⟩ := Graph.getMetaGraph_cond G h
  have hac := hc.acyclic h
  refine ⟨GP, G1, hm, hac, ?_, ?_⟩
  · intro a ha
    exact hac a (Relation.TransGen.single ha)
  · intro hne
    obtain ⟨m, hmK, hmin⟩ := exists_minimal_of_list
      (Relation.TransGen (fun a b => b ∈ GP.adj.find a))
      (fun a b c hab hbc => hab.trans hbc) hac GP.adj.keys hne
    refine ⟨m, (AdjMap.mem_vertices GP.adj m).2
      (Or.inl ((AdjMap.hasKey_iff_mem_keys GP.adj m).2 hmK)), ?_⟩
    rw [AdjMap.inDegree_eq_zero_iff GP.adj hc.ordered]
    intro a ha
    have haK : a ∈ GP.adj.keys :=
      (AdjMap.hasKey_iff_mem_keys GP.adj a).1 (AdjMap.hasKey_of_mem_find GP.adj a m ha)
    exact hmin a haK (Relation.TransGen.single ha)

theorem getMetaGraph_acyclic_witness :
    (read_initial_graph 4 5 [(0, 1), (1, 0), (0, 2), (1, 2), (2, 3)]).WellFormed ∧
    ∃ GP G1, (read_initial_graph 4 5 [(0, 1), (1, 0), (0, 2), (1, 2), (2, 3)]).getMetaGraph
        = .ok (GP, G1) ∧ Acyclic GP.adj.find ∧
      (∀ a, a ∉ GP.adj.find a) ∧
      (GP.adj.keys ≠ [] → ∃ m, m ∈ GP.adj.vertices ∧ GP.adj.inDegree m = 0) :=
  ⟨by decide,
    getMetaGraph_acyclic (read_initial_graph 4 5 [(0, 1), (1, 0), (0, 2), (1, 2), (2, 3)])
      (by decide)⟩

end ViewPoint

namespace ViewPoint

/-! ## The source of the condensation -/

namespace Graph

theorem mem_sources (m : AdjMap) (x : Int) :
    x ∈ m.sources ↔ x ∈ m.vertices ∧ m.inDegree x = 0 := by
  simp [AdjMap.sources]

/-- The three ways `getSourceSCC` can end on a graph none of whose vertices is
`-1`. -/
theorem getSourceSCC_cases (Gp : Graph) (hne : ∀ v ∈ Gp.adj.vertices, v ≠ -1) :
    (Gp.adj.sources = [] ∧ Gp.getSourceSCC = -1) ∨
    (∃ z, Gp.adj.sources = [z] ∧ Gp.getSourceSCC = z) ∨
    (2 ≤ Gp.adj.sources.length ∧ Gp.getSourceSCC = -1) := by
  have hz := zeros_perm_sources Gp.adj (inDegTable Gp.adj) (List.Perm.refl _)
  have hl : ∀ p ∈ inDegTable Gp.adj, p.2 = 0 → p.1 ≠ -1 := by
    intro p hp _
    exact hne _ ((mem_inDegTable Gp.adj p.1 p.2).1 hp).1
  have hscan := sourceScan_init (inDegTable Gp.adj) hl
  unfold getSourceSCC getSourceSCCIn
  rw [hscan]
  generalize ((inDegTable Gp.adj).filter (fun p => p.2 = 0)).map Prod.fst = zs at hz
  match zs, hz with
  | [], hz => exact Or.inl ⟨hz.symm.eq_nil, rfl⟩
  | [z], hz => exact Or.inr (Or.inl ⟨z, List.perm_singleton.1 hz.symm, rfl⟩)
  | z1 :: z2 :: zs, hz =>
    refine Or.inr (Or.inr ⟨?_, rfl⟩)
    rw [← hz.length_eq]
    simp

theorem getSourceSCC_of_unique (Gp : Graph) (hne : ∀ v ∈ Gp.adj.vertices, v ≠ -1) (x : Int)
    (hx : x ∈ Gp.adj.vertices) (hd : Gp.adj.inDegree x = 0)
    (huniq : ∀ y ∈ Gp.adj.vertices, Gp.adj.inDegree y = 0 → y = x) :
    Gp.getSourceSCC = x := by
  have hxs : x ∈ Gp.adj.sources := (mem_sources Gp.adj x).2 ⟨hx, hd⟩
  have hnd : Gp.adj.sources.Nodup := (List.nodup_dedup _).filter _
  rcases getSourceSCC_cases Gp hne with ⟨h1, -⟩ | ⟨z, h1, h2⟩ | ⟨h1, -⟩
  · rw [h1] at hxs; exact absurd hxs (List.not_mem_nil _)
  · rw [h1] at hxs
    rw [h2]
    exact (List.mem_singleton.1 hxs).symm
  · exfalso
    match hs : Gp.adj.sources, h1, hnd with
    | [], h1, _ => simp at h1
    | [_], h1, _ => simp at h1
    | a :: b :: _, _, hnd =>
      have ha : a ∈ Gp.adj.sources := by rw [hs]; simp
      have hb : b ∈ Gp.adj.sources := by rw [hs]; simp
      have ea := huniq a ((mem_sources _ a).1 ha).1 ((mem_sources _ a).1 ha).2
      have eb := huniq b ((mem_sources _ b).1 hb).1 ((mem_sources _ b).1 hb).2
      rw [List.nodup_cons] at hnd
      exact hnd.1 (by rw [ea, eb]; simp)

theorem getSourceSCC_inv (Gp : Graph) (hne : ∀ v ∈ Gp.adj.vertices, v ≠ -1)
    (hx : Gp.getSourceSCC ≠ -1) :
    Gp.getSourceSCC ∈ Gp.adj.vertices ∧ Gp.adj.inDegree Gp.getSourceSCC = 0 := by
  rcases getSourceSCC_cases Gp hne with ⟨-, h2⟩ | ⟨z, h1, h2⟩ | ⟨-, h2⟩
  · exact absurd h2 hx
  · rw [h2]
    exact (mem_sources Gp.adj z).1 (by rw [h1]; exact List.mem_singleton_self z)
  · exact absurd h2 hx

/-! ## Edges that leave or enter a component -/

theorem exists_entry_edge (succ : Int → List Int) {w x : Int} (hr : Reach succ w x)
    (hn : ¬ Mutual succ w x) :
    ∃ a b, b ∈ succ a ∧ Reach succ w a ∧ Mutual succ b x ∧ ¬ Mutual succ a x := by
  induction hr with
  | refl => exact absurd (Mutual.refl succ w) hn
  | tail hwb hbc ih =>
    rename_i b c
    by_cases hm : Mutual succ b c
    · have hn' : ¬ Mutual succ w b := fun h => hn (h.trans hm)
      obtain ⟨a, b', hab, hwa, hb', ha⟩ := ih hn'
      exact ⟨a, b', hab, hwa, hb'.trans hm, fun h => ha (h.trans hm.symm)⟩
    · exact ⟨b, c, hbc, hwb, Mutual.refl succ c, hm⟩

theorem exists_exit_edge (succ : Int → List Int) {w x : Int} (hr : Reach succ w x)
    (hn : ¬ Mutual succ w x) :
    ∃ a b, b ∈ succ a ∧ Mutual succ w a ∧ ¬ Mutual succ w b := by
  induction hr with
  | refl => exact absurd (Mutual.refl succ w) hn
  | tail hwb hbc ih =>
    rename_i b c
    by_cases hm : Mutual succ w b
    · exact ⟨b, c, hbc, hm, hn⟩
    · exact ih hm

theorem CondFacts.vertex_root {G : Graph} {roots : List (Option Int)} {GP : Graph}
    (hc : CondFacts G roots GP) (h : G.WellFormed) {k : Int} (hk : k ∈ GP.adj.vertices) :
    InRange G.V k ∧ rootOf roots k = k := by
  rcases (AdjMap.mem_vertices GP.adj k).1 hk with hk | ⟨a, hk⟩
  · obtain ⟨e, he, -, hor⟩ := (hc.key k).1 hk
    have hr := h.2.2 e he
    rcases hor with e1 | e2
    · obtain ⟨-, -, i1, r1⟩ := hc.root e.1 hr.1
      rw [e1] at i1 r1
      exact ⟨r1, i1⟩
    · obtain ⟨-, -, i2, r2⟩ := hc.root e.2 hr.2
      rw [e2] at i2 r2
      exact ⟨r2, i2⟩
  · have := hc.edge_reach h ((AdjMap.mem_find_iff GP.adj hc.ordered a k).2 hk)
    exact ⟨this.2.2.2.2.2, this.2.2.2.1⟩

/-- A root has in-degree zero in the condensation exactly when no edge between
different components enters its component. -/
theorem CondFacts.inDegree_zero_iff {G : Graph} {roots : List (Option Int)} {GP : Graph}
    (hc : CondFacts G roots GP) (k : Int) :
    GP.adj.inDegree k = 0 ↔
      ∀ e ∈ G.adj.edges, rootOf roots e.2 = k → rootOf roots e.1 = k := by
  rw [AdjMap.inDegree_eq_zero_iff GP.adj hc.ordered]
  constructor
  · intro hk e he h2
    by_contra h1
    exact hk (rootOf roots e.1) ((hc.edge _ k).2 ⟨e, he, rfl, h2, h1⟩)
  · intro hk a ha
    obtain ⟨e, he, h1, h2, hne⟩ := (hc.edge a k).1 ha
    exact hne (h1.symm.trans (hk e he h2))

end Graph

end ViewPoint

namespace ViewPoint

namespace Graph

theorem CondFacts.vertices_ne {G : Graph} {roots : List (Option Int)} {GP : Graph}
    (hc : CondFacts G roots GP) (h : G.WellFormed) : ∀ v ∈ GP.adj.vertices, v ≠ -1 := by
  intro v hv e
  have := (hc.vertex_root h hv).1
  unfold InRange at this
  omega

/-- When a vertex `w` reaches all of `[0, V)` and some vertex is outside its
component, `getSourceSCC` of the condensation returns the root of `w`. -/
theorem CondFacts.source_of_viewpoint {G : Graph} {roots : List (Option Int)} {GP : Graph}
    (hc : CondFacts G roots GP) (h : G.WellFormed) (w : Int) (hw : InRange G.V w)
    (hall : ∀ v, InRange G.V v → Reach G.adj.find w v)
    (h2 : ∃ v, InRange G.V v ∧ ¬ Mutual G.adj.find w v) :
    GP.getSourceSCC = rootOf roots w := by
  obtain ⟨-, mw, iw, rw'⟩ := hc.root w hw
  have edge_range : ∀ a b, b ∈ G.adj.find a → InRange G.V a ∧ InRange G.V b := by
    intro a b hab
    exact h.2.2 (a, b) ((AdjMap.mem_find_iff G.adj h.2.1 a b).1 hab)
  apply getSourceSCC_of_unique GP (hc.vertices_ne h)
  · -- the root of `w` is registered
    obtain ⟨v, hv, hnv⟩ := h2
    obtain ⟨a, b, hab, hwa, hwb⟩ := exists_exit_edge G.adj.find (hall v hv) hnv
    obtain ⟨ha, hb⟩ := edge_range a b hab
    rw [AdjMap.mem_vertices]
    left
    rw [hc.key]
    refine ⟨(a, b), (AdjMap.mem_find_iff G.adj h.2.1 a b).1 hab, ?_, Or.inl ?_⟩
    · intro e
      exact hwb (hwa.trans ((hc.same a b ha hb).1 e))
    · exact ((hc.same w a hw ha).2 hwa).symm
  · -- no edge of the condensation enters it
    rw [hc.inDegree_zero_iff]
    intro e he h2e
    have hr := h.2.2 e he
    have hedge : e.2 ∈ G.adj.find e.1 := (AdjMap.mem_find_iff G.adj h.2.1 e.1 e.2).2 he
    have m2 : Mutual G.adj.find e.2 w := (hc.same e.2 w hr.2 hw).1 h2e
    have m1 : Mutual G.adj.find e.1 w :=
      ⟨(Relation.ReflTransGen.single hedge).trans m2.1, hall e.1 hr.1⟩
    exact (hc.same e.1 w hr.1 hw).2 m1
  · -- every other registered root has an entering edge
    intro y hy hd
    obtain ⟨iy, ry⟩ := hc.vertex_root h hy
    by_contra hne
    have hnm : ¬ Mutual G.adj.find w y := by
      intro hm
      have := (hc.same w y hw iy).2 hm
      rw [ry] at this
      exact hne this.symm
    obtain ⟨a, b, hab, -, hby, hay⟩ := exists_entry_edge G.adj.find (hall y iy) hnm
    obtain ⟨ha, hb⟩ := edge_range a b hab
    have hb' : rootOf roots b = y := by
      rw [← ry]; exact (hc.same b y hb iy).2 hby
    have ha' : rootOf roots a ≠ y := by
      intro e
      rw [← ry] at e
      exact hay ((hc.same a y ha iy).1 e)
    have := (hc.inDegree_zero_iff y).1 hd (a, b)
      ((AdjMap.mem_find_iff G.adj h.2.1 a b).1 hab) hb'
    exact ha' this

/-- On a well-formed graph, `visits_all` from a vertex of `[0, V)` on a graph
with the same `V` and successor lists answers whether that vertex reaches all
of `[0, V)`. -/
theorem visits_all_iff (G G1 : Graph) (h : G.WellFormed) (hV : G1.V = G.V)
    (hf : ∀ x, G1.adj.find x = G.adj.find x) (src : Int) (hs : InRange G.V src) :
    ∃ b G2, G1.visits_all src = .ok (b, G2) ∧ G2.V = G.V ∧ G2.E = G1.E ∧
      (∀ x, G2.adj.find x = G.adj.find x) ∧ G2.adj.edges = G1.adj.edges ∧
      (G1.adj.Ordered → G2.adj.Ordered) ∧
      (b = true ↔ ∀ v, InRange G.V v → Reach G.adj.find src v) := by
  obtain ⟨sv, rs, h1, h2, h3, h4, h5, h6, h7⟩ := visits_all_run G1 src
  have h3' : ∀ v, v ∈ rs ↔ Reach G.adj.find src v := by
    intro v
    rw [h3 v, reach_congr G.adj.find G1.adj.find hf]
  refine ⟨_, _, h1, hV, rfl, fun x => (h5 x).trans (hf x), h6, h7, ?_⟩
  rw [decide_eq_true_eq, h4, hV,
    length_eq_iff_covers G.V h.1 rs h2 (fun v hv => h.reach_inRange hs ((h3' v).1 hv))]
  constructor
  · intro hall v hv; exact (h3' v).1 (hall v hv)
  · intro hall v hv; exact (h3' v).2 (hall v hv)

end Graph

theorem reach_eq_of_find_nil (succ : Int → List Int) {x y : Int} (hx : succ x = [])
    (h : Reach succ x y) : y = x := by
  induction h with
  | refl => rfl
  | tail _ hbc ih =>
    subst ih
    rw [hx] at hbc
    exact absurd hbc (List.not_mem_nil _)

/-- Claim C19. On a well-formed graph with at least two strongly connected
components, `getViewPoint` returns `x ≠ -1` exactly when some vertex reaches
every vertex of `[0, V)`; then `x` is a root chosen by `getSCCRoots`, no edge
between different components enters its component, and it is the root of
every component that no such edge enters. -/
theorem getViewPoint_two_components (G : Graph) (h : G.WellFormed)
    (h2 : ∃ u v, InRange G.V u ∧ InRange G.V v ∧ ¬ Mutual G.adj.find u v) :
    ∃ stk G1 cnt roots r, G.getTopoSort = .ok (stk, G1) ∧
      G1.getSCCRoots stk = .ok (cnt, roots) ∧ getViewPoint G = .ok r ∧
      (r.result ≠ -1 ↔ ∃ w, InRange G.V w ∧ ∀ v, InRange G.V v → Reach G.adj.find w v) ∧
      (r.result ≠ -1 →
        InRange G.V r.result ∧ arrGet roots r.result = .ok r.result ∧
        (∀ e ∈ G.adj.edges, rootOf roots e.2 = r.result → rootOf roots e.1 = r.result) ∧
        ∀ y, InRange G.V y →
          (∀ e ∈ G.adj.edges, rootOf roots e.2 = rootOf roots y →
            rootOf roots e.1 = rootOf roots y) →
          rootOf roots y = r.result) := by
  obtain ⟨stk, G1, s, GP, h1, ht, hroots, hm, hc⟩ := Graph.getMetaGraph_cond G h
  have hview := getViewPoint_of_meta G GP G1 hm
  have hne := hc.vertices_ne h
  -- a viewpoint makes `getSourceSCC` return its root
  have hsrc : ∀ w, InRange G.V w → (∀ v, InRange G.V v → Reach G.adj.find w v) →
      GP.getSourceSCC = rootOf s.roots w ∧ ∀ v, InRange G.V v →
        Reach G.adj.find (rootOf s.roots w) v := by
    intro w hw hall
    have hex : ∃ v, InRange G.V v ∧ ¬ Mutual G.adj.find w v := by
      obtain ⟨u, v, hu, hv, huv⟩ := h2
      by_cases hwu : Mutual G.adj.find w u
      · exact ⟨v, hv, fun hwv => huv (hwu.symm.trans hwv)⟩
      · exact ⟨u, hu, hwu⟩
    refine ⟨hc.source_of_viewpoint h w hw hall hex, fun v hv => ?_⟩
    exact (hc.root w hw).2.1.2.trans (hall v hv)
  by_cases hs : GP.getSourceSCC = -1
  · rw [if_pos hs] at hview
    refine ⟨stk, G1, s.root_cnt, s.roots, _, h1, hroots, hview, ?_, ?_⟩
    · simp only [ne_eq, not_true_eq_false, false_iff]
      rintro ⟨w, hw, hall⟩
      have := (hsrc w hw hall).1
      rw [hs] at this
      have hr := (hc.root w hw).2.2.2
      rw [← this] at hr
      unfold InRange at hr
      omega
    · intro hx; exact absurd rfl hx
  · rw [if_neg hs] at hview
    obtain ⟨hv1, hv2⟩ := Graph.getSourceSCC_inv GP hne hs
    obtain ⟨ix, rx⟩ := hc.vertex_root h hv1
    obtain ⟨b, G2, hvis, -, -, -, -, -, hb⟩ :=
      Graph.visits_all_iff G G1 h ht.V_eq ht.find GP.getSourceSCC ix
    rw [hvis] at hview
    simp only [bind, Except.bind] at hview
    by_cases hbt : b = true
    · rw [if_pos hbt] at hview
      refine ⟨stk, G1, s.root_cnt, s.roots, _, h1, hroots, hview, ?_, ?_⟩
      · simp only [ne_eq, hs, not_false_eq_true, true_iff]
        exact ⟨GP.getSourceSCC, ix, hb.1 hbt⟩
      · intro _
        simp only
        refine ⟨ix, ?_, (hc.inDegree_zero_iff _).1 hv2, ?_⟩
        · have := (hc.root _ ix).1
          rw [rx] at this
          exact this
        · intro y hy hnone
          by_contra hne'
          have hnm : ¬ Mutual G.adj.find GP.getSourceSCC y := by
            intro hmu
            have := (hc.same _ y ix hy).2 hmu
            rw [rx] at this
            exact hne' this.symm
          obtain ⟨a, b', hab, -, hby, hay⟩ :=
            Graph.exists_entry_edge G.adj.find (hb.1 hbt y hy) hnm
          have her := h.2.2 (a, b') ((AdjMap.mem_find_iff G.adj h.2.1 a b').1 hab)
          have e2 : rootOf s.roots b' = rootOf s.roots y := (hc.same b' y her.2 hy).2 hby
          have e1 := hnone (a, b') ((AdjMap.mem_find_iff G.adj h.2.1 a b').1 hab) e2
          exact hay ((hc.same a y her.1 hy).1 e1)
    · rw [if_neg hbt] at hview
      refine ⟨stk, G1, s.root_cnt, s.roots, _, h1, hroots, hview, ?_, ?_⟩
      · simp only [ne_eq, not_true_eq_false, false_iff]
        rintro ⟨w, hw, hall⟩
        obtain ⟨e, hall'⟩ := hsrc w hw hall
        rw [← e] at hall'
        exact hbt (hb.2 hall')
      · intro hx; exact absurd rfl hx

theorem getViewPoint_two_components_witness :
    (read_initial_graph 4 4 [(0, 1), (1, 2), (2, 0), (0, 3)]).WellFormed ∧
    (∃ u v, InRange (read_initial_graph 4 4 [(0, 1), (1, 2), (2, 0), (0, 3)]).V u ∧
      InRange (read_initial_graph 4 4 [(0, 1), (1, 2), (2, 0), (0, 3)]).V v ∧
      ¬ Mutual (read_initial_graph 4 4 [(0, 1), (1, 2), (2, 0), (0, 3)]).adj.find u v) ∧
    ∃ stk G1 cnt roots r,
      (read_initial_graph 4 4 [(0, 1), (1, 2), (2, 0), (0, 3)]).getTopoSort = .ok (stk, G1) ∧
      G1.getSCCRoots stk = .ok (cnt, roots) ∧
      getViewPoint (read_initial_graph 4 4 [(0, 1), (1, 2), (2, 0), (0, 3)]) = .ok r ∧
      (r.result ≠ -1 ↔ ∃ w, InRange (read_initial_graph 4 4 [(0, 1), (1, 2), (2, 0), (0, 3)]).V w ∧
        ∀ v, InRange (read_initial_graph 4 4 [(0, 1), (1, 2), (2, 0), (0, 3)]).V v →
          Reach (read_initial_graph 4 4 [(0, 1), (1, 2), (2, 0), (0, 3)]).adj.find w v) ∧
      (r.result ≠ -1 →
        InRange (read_initial_graph 4 4 [(0, 1), (1, 2), (2, 0), (0, 3)]).V r.result ∧
        arrGet roots r.result = .ok r.result ∧
        (∀ e ∈ (read_initial_graph 4 4 [(0, 1), (1, 2), (2, 0), (0, 3)]).adj.edges,
          rootOf roots e.2 = r.result → rootOf roots e.1 = r.result) ∧
        ∀ y, InRange (read_initial_graph 4 4 [(0, 1), (1, 2), (2, 0), (0, 3)]).V y →
          (∀ e ∈ (read_initial_graph 4 4 [(0, 1), (1, 2), (2, 0), (0, 3)]).adj.edges,
            rootOf roots e.2 = rootOf roots y → rootOf roots e.1 = rootOf roots y) →
          rootOf roots y = r.result) :=
  have hne : ∃ u v, InRange (read_initial_graph 4 4 [(0, 1), (1, 2), (2, 0), (0, 3)]).V u ∧
      InRange (read_initial_graph 4 4 [(0, 1), (1, 2), (2, 0), (0, 3)]).V v ∧
      ¬ Mutual (read_initial_graph 4 4 [(0, 1), (1, 2), (2, 0), (0, 3)]).adj.find u v :=
    ⟨3, 0, by decide, by decide, fun hm =>
      absurd (reach_eq_of_find_nil _ (by decide) hm.1) (by decide)⟩
  ⟨by decide, hne,
    getViewPoint_two_components (read_initial_graph 4 4 [(0, 1), (1, 2), (2, 0), (0, 3)])
      (by decide) hne⟩

end ViewPoint

namespace ViewPoint

/-! ## `visits_all` from a vertex outside `[0, V)` -/

/-- Claim C14 fails: with `V = 1`, no edge and `src = 5`, which is outside
`[0, 1)`, `visits_all` does not fail; it returns `true`, and leaves `5` behind
as a key. -/
theorem visits_all_outside_returns_true :
    ¬ InRange (read_initial_graph 1 0 []).V 5 ∧
    (read_initial_graph 1 0 []).visits_all 5
      = .ok (true, { V := 1, E := 0, adj := [(5, [])] }) := by
  refine ⟨by decide, by decide⟩

/-- Claim C14 as amended. For every graph and every `src` outside `[0, V)`,
`visits_all` makes no check and does not fail: it returns the boolean
`V == cnt_vis`, where `cnt_vis` ends as the number of vertices reachable from
`src`; on a well-formed graph `src` reaches itself only, so the result is
`V == 1`. -/
theorem visits_all_outside (G : Graph) (src : Int) (hs : ¬ InRange G.V src) :
    ∃ (s : Graph.VisitState) (rs : List Int),
      G.visits_all src = .ok (decide (G.V = s.cnt_vis), { G with adj := s.adj }) ∧
      rs.Nodup ∧ (∀ v, v ∈ rs ↔ Reach G.adj.find src v) ∧ s.cnt_vis = (rs.length : Int) ∧
      (G.WellFormed → s.cnt_vis = 1) := by
  obtain ⟨s, rs, h1, h2, h3, h4, -⟩ := Graph.visits_all_run G src
  refine ⟨s, rs, h1, h2, h3, h4, ?_⟩
  intro hwf
  have hnil : G.adj.find src = [] := by
    rw [List.eq_nil_iff_forall_not_mem]
    intro v hv
    exact hs (hwf.2.2 (src, v) ((AdjMap.mem_find_iff G.adj hwf.2.1 src v).1 hv)).1
  have hp : rs.Perm [src] := by
    rw [List.perm_ext_iff_of_nodup h2 (List.nodup_singleton src)]
    intro v
    rw [h3 v, List.mem_singleton]
    constructor
    · exact reach_eq_of_find_nil G.adj.find hnil
    · intro e; rw [e]; exact Relation.ReflTransGen.refl
  rw [h4, hp.length_eq]
  rfl

theorem visits_all_outside_witness :
    ¬ InRange (read_initial_graph 3 1 [(0, 1)]).V 7 ∧
    ∃ (s : Graph.VisitState) (rs : List Int),
      (read_initial_graph 3 1 [(0, 1)]).visits_all 7
        = .ok (decide ((read_initial_graph 3 1 [(0, 1)]).V = s.cnt_vis),
            { read_initial_graph 3 1 [(0, 1)] with adj := s.adj }) ∧
      rs.Nodup ∧ (∀ v, v ∈ rs ↔ Reach (read_initial_graph 3 1 [(0, 1)]).adj.find 7 v) ∧
      s.cnt_vis = (rs.length : Int) ∧
      ((read_initial_graph 3 1 [(0, 1)]).WellFormed → s.cnt_vis = 1) :=
  ⟨by decide, visits_all_outside (read_initial_graph 3 1 [(0, 1)]) 7 (by decide)⟩

end ViewPoint

namespace ViewPoint

/-! ## What the calls leave unchanged -/

theorem foldlM_cons_ok {α β : Type} (f : α → β → Except Fault α) (b : β) (l : List β)
    (a a' : α) (h : (b :: l).foldlM f a = .ok a') :
    ∃ a1, f a b = .ok a1 ∧ l.foldlM f a1 = .ok a' := by
  rw [List.foldlM_cons] at h
  cases h1 : f a b with
  | error e => rw [h1] at h; cases h
  | ok a1 => rw [h1] at h; exact ⟨a1, rfl, h⟩

namespace Graph

theorem TopoFrame.topo_refl (s : TopoState) : TopoFrame s s :=
  ⟨rfl, fun _ => rfl, rfl, [], rfl, by simp⟩

theorem TopoFrame.topo_trans {s s1 s2 : TopoState} (h1 : TopoFrame s s1) (h2 : TopoFrame s1 s2) :
    TopoFrame s s2 := by
  obtain ⟨a1, b1, c1, n1, d1, e1⟩ := h1
  obtain ⟨a2, b2, c2, n2, d2, e2⟩ := h2
  refine ⟨a2.trans a1, fun x => (b2 x).trans (b1 x), c2.trans c1, n2 ++ n1, ?_, ?_⟩
  · rw [d2, d1, List.append_assoc]
  · intro k
    rw [e2 k, e1 k, List.mem_append]
    tauto

theorem buildTopo_ok_inv (n : Nat) (u : Int) (s s' : TopoState)
    (h : buildTopo (n + 1) u s = .ok s') :
    ∃ vis1 s2, vecSet s.vis u true = .ok vis1 ∧
      ((s.adj.index u).find u).foldlM
        (fun s v => do
          if !(← vecGet s.vis v) then buildTopo n v s else pure s)
        { s with vis := vis1, adj := s.adj.index u } = .ok s2 ∧
      s' = { s2 with stk := u :: s2.stk } := by
  rw [buildTopo_succ] at h
  cases h1 : vecSet s.vis u true with
  | error e => rw [h1] at h; cases h
  | ok vis1 =>
    rw [h1] at h
    simp only [bind, Except.bind] at h
    cases h2 : ((s.adj.index u).find u).foldlM
        (fun s v => do
          if !(← vecGet s.vis v) then buildTopo n v s else pure s)
        { s with vis := vis1, adj := s.adj.index u } with
    | error e =>
      simp only [bind, Except.bind] at h2
      rw [h2] at h; cases h
    | ok s2 =>
      have h2' := h2
      simp only [bind, Except.bind] at h2
      rw [h2] at h
      cases h
      exact ⟨vis1, s2, rfl, h2', rfl⟩

theorem topoBody_ok_inv (n : Nat) (s s1 : TopoState) (v : Int)
    (h : (do if !(← vecGet s.vis v) then buildTopo n v s else pure s :
      Except Fault TopoState) = .ok s1) :
    (vecGet s.vis v = .ok true ∧ s1 = s) ∨
      (vecGet s.vis v = .ok false ∧ buildTopo n v s = .ok s1) := by
  cases hv : vecGet s.vis v with
  | error e =>
    rw [hv] at h; cases h
  | ok b =>
    rw [topoBody_eq n s v b hv] at h
    cases b with
    | true =>
      simp only [if_true] at h
      cases h
      exact Or.inl ⟨rfl, rfl⟩
    | false =>
      simp only [Bool.false_eq_true, if_false] at h
      exact Or.inr ⟨rfl, h⟩

theorem vecSet_length (vis vis1 : List Bool) (u : Int) (b : Bool)
    (h : vecSet vis u b = .ok vis1) : vis1.length = vis.length := by
  unfold vecSet at h
  split at h
  · cases h; simp
  · cases h

theorem topoList_frame (n : Nat)
    (hd : ∀ u s s', buildTopo n u s = .ok s' → TopoFrame s s') :
    ∀ (l : List Int) (s s' : TopoState),
      l.foldlM
        (fun s v => do
          if !(← vecGet s.vis v) then buildTopo n v s else pure s) s = .ok s' →
      TopoFrame s s' := by
  intro l
  induction l with
  | nil =>
    intro s s' h
    cases h
    exact TopoFrame.topo_refl s
  | cons v l ih =>
    intro s s' h
    obtain ⟨s1, h1, h2⟩ := foldlM_cons_ok _ v l s s' h
    rcases topoBody_ok_inv n s s1 v h1 with ⟨-, e⟩ | ⟨-, hb⟩
    · subst e; exact ih s1 s' h2
    · exact (hd v s s1 hb).topo_trans (ih s1 s' h2)

theorem buildTopo_frame : ∀ n u s s', buildTopo n u s = .ok s' → TopoFrame s s' := by
  intro n
  induction n with
  | zero => intro u s s' h; rw [buildTopo_zero] at h; cases h
  | succ n ih =>
    intro u s s' h
    obtain ⟨vis1, s2, h1, h2, e⟩ := buildTopo_ok_inv n u s s' h
    obtain ⟨a, b, c, new, d, k⟩ := topoList_frame n ih _ _ _ h2
    subst e
    refine ⟨?_, ?_, ?_, u :: new, ?_, ?_⟩
    · simpa [AdjMap.edges_index] using a
    · intro x
      simpa [AdjMap.find_index] using b x
    · simpa [vecSet_length _ _ _ _ h1] using c
    · simpa using d
    · intro x
      have := k x
      simp only [AdjMap.hasKey_index, Bool.or_eq_true, beq_iff_eq] at this
      rw [this, List.mem_cons]
      constructor
      · rintro ((h | h) | h)
        · exact Or.inl h
        · exact Or.inr (Or.inl h.symm)
        · exact Or.inr (Or.inr h)
      · rintro (h | h | h)
        · exact Or.inl (Or.inl h)
        · exact Or.inl (Or.inr h.symm)
        · exact Or.inr h

/-- Whenever `getTopoSort` returns, on any graph, it has kept `V`, `E`, the
edges and the successor sequences, and the keys afterwards are the keys
before plus the vertices on the stack. -/
theorem getTopoSort_frame (G : Graph) (stk : List Int) (G1 : Graph)
    (h : G.getTopoSort = .ok (stk, G1)) :
    Frame G G1 ∧ ∀ k, G1.adj.hasKey k = true ↔ (G.adj.hasKey k = true ∨ k ∈ stk) := by
  rw [getTopoSort_eq] at h
  cases h1 : vecMake G.V with
  | error e => rw [h1] at h; cases h
  | ok vis =>
    rw [h1] at h
    simp only [bind, Except.bind] at h
    cases h2 : ((List.range G.V.toNat).map Int.ofNat).foldlM
        (fun s v => do
          if !(← vecGet s.vis v) then buildTopo G.V.toNat v s else pure s)
        ({ adj := G.adj, vis := vis, stk := [] } : TopoState) with
    | error e =>
      simp only [bind, Except.bind] at h2
      rw [h2] at h; cases h
    | ok s =>
      obtain ⟨a, b, -, new, d, k⟩ := topoList_frame _ (buildTopo_frame _) _ _ _ h2
      simp only [bind, Except.bind] at h2
      rw [h2] at h
      simp only [pure, Except.pure, Except.ok.injEq, Prod.mk.injEq] at h
      obtain ⟨e1, e2⟩ := h
      subst e1; subst e2
      simp only [List.append_nil] at d
      refine ⟨⟨rfl, rfl, a, b, fun x hx => (k x).2 (Or.inl hx)⟩, ?_⟩
      intro x
      rw [d]
      exact k x

theorem VisitFrame.visit_refl (s : VisitState) : VisitFrame s s :=
  ⟨rfl, fun _ => rfl, fun _ h => h⟩

theorem VisitFrame.visit_trans {s s1 s2 : VisitState} (h1 : VisitFrame s s1) (h2 : VisitFrame s1 s2) :
    VisitFrame s s2 :=
  ⟨h2.1.trans h1.1, fun x => (h2.2.1 x).trans (h1.2.1 x), fun k hk => h2.2.2 k (h1.2.2 k hk)⟩

theorem visitList_frame (n : Nat)
    (hd : ∀ u s s', visit n u s = .ok s' → VisitFrame s s') :
    ∀ (l : List Int) (s s' : VisitState),
      l.foldlM
        (fun s v =>
          if s.vis.get v = true then
            (pure { s with vis := s.vis.index v } : Except Fault VisitState)
          else visit n v { s with vis := s.vis.index v }) s = .ok s' →
      VisitFrame s s' := by
  intro l
  induction l with
  | nil =>
    intro s s' h
    cases h
    exact VisitFrame.visit_refl s
  | cons v l ih =>
    intro s s' h
    obtain ⟨s1, h1, h2⟩ := foldlM_cons_ok _ v l s s' h
    have hf1 : VisitFrame s s1 := by
      by_cases hg : s.vis.get v = true
      · rw [if_pos hg] at h1
        cases h1
        exact ⟨rfl, fun _ => rfl, fun _ h => h⟩
      · rw [if_neg hg] at h1
        have hf := hd v _ s1 h1
        exact hf
    exact hf1.visit_trans (ih s1 s' h2)

theorem visit_frame : ∀ n u s s', visit n u s = .ok s' → VisitFrame s s' := by
  intro n
  induction n with
  | zero => intro u s s' h; rw [visit_zero] at h; cases h
  | succ n ih =>
    intro u s s' h
    rw [visit_succ] at h
    obtain ⟨a, b, c⟩ := visitList_frame n ih _ _ _ h
    refine ⟨?_, ?_, ?_⟩
    · simpa [AdjMap.edges_index] using a
    · intro x
      simpa [AdjMap.find_index] using b x
    · intro k hk
      apply c k
      simp only [AdjMap.hasKey_index, Bool.or_eq_true, beq_iff_eq]
      exact Or.inl hk

/-- Whenever `visits_all` returns, on any graph, it has kept `V`, `E`, the
edges and the successor sequences, and removed no key. -/
theorem visits_all_frame (G : Graph) (src : Int) (b : Bool) (G' : Graph)
    (h : G.visits_all src = .ok (b, G')) : Frame G G' := by
  rw [visits_all_eq] at h
  cases h1 : visit (edgeCount G.adj + 1) src
      { adj := G.adj,
        vis := G.adj.foldl (fun vis p => VisMap.assign vis p.1 false) ([] : VisMap),
        cnt_vis := 0 } with
  | error e => rw [h1] at h; cases h
  | ok s =>
    rw [h1] at h
    simp only [bind, Except.bind, pure, Except.pure, Except.ok.injEq, Prod.mk.injEq] at h
    obtain ⟨-, e⟩ := h
    subst e
    obtain ⟨a, b', c⟩ := visit_frame _ _ _ _ h1
    exact ⟨rfl, rfl, a, b', c⟩

theorem Frame.frame_refl (G : Graph) : Frame G G := ⟨rfl, rfl, rfl, fun _ => rfl, fun _ h => h⟩

theorem Frame.frame_trans {G G1 G2 : Graph} (h1 : Frame G G1) (h2 : Frame G1 G2) : Frame G G2 :=
  ⟨h2.1.trans h1.1, h2.2.1.trans h1.2.1, h2.2.2.1.trans h1.2.2.1,
    fun x => (h2.2.2.2.1 x).trans (h1.2.2.2.1 x),
    fun k hk => h2.2.2.2.2 k (h1.2.2.2.2 k hk)⟩

end Graph

end ViewPoint

namespace ViewPoint

/-! ## The keys that `visits_all` and `getViewPoint` add -/

namespace Graph

theorem VisitKeys.keys_refl (s : VisitState) : VisitKeys s s := by
  refine ⟨fun _ h => h, fun k => ?_⟩
  constructor
  · intro h; exact Or.inl h
  · rintro (h | ⟨h1, h2⟩)
    · exact h
    · rw [h1] at h2; cases h2

theorem VisitKeys.keys_trans {s s1 s2 : VisitState} (h1 : VisitKeys s s1) (h2 : VisitKeys s1 s2) :
    VisitKeys s s2 := by
  refine ⟨fun k h => h2.1 k (h1.1 k h), fun k => ?_⟩
  rw [h2.2 k, h1.2 k]
  constructor
  · rintro ((h | ⟨a, b⟩) | ⟨a, b⟩)
    · exact Or.inl h
    · exact Or.inr ⟨h2.1 k a, b⟩
    · refine Or.inr ⟨a, ?_⟩
      cases hk : s.vis.get k with
      | false => rfl
      | true => rw [h1.1 k hk] at b; cases b
  · rintro (h | ⟨a, b⟩)
    · exact Or.inl (Or.inl h)
    · cases hk : s1.vis.get k with
      | false => exact Or.inr ⟨a, rfl⟩
      | true => exact Or.inl (Or.inr ⟨rfl, b⟩)

/-- The read `vis[v]` inserts into the visited table only; marks and keys of
the adjacency container stay. -/
theorem VisitKeys.of_index (s : VisitState) (v : Int) :
    VisitKeys s { s with vis := s.vis.index v } := by
  refine ⟨fun k h => ?_, fun k => ?_⟩
  · show (s.vis.index v).get k = true
    rw [VisMap.get_index]; exact h
  · show s.adj.hasKey k = true ↔
      (s.adj.hasKey k = true ∨ ((s.vis.index v).get k = true ∧ s.vis.get k = false))
    rw [VisMap.get_index]
    constructor
    · intro h; exact Or.inl h
    · rintro (h | ⟨h1, h2⟩)
      · exact h
      · rw [h1] at h2; cases h2

/-- The first two statements of `visit`, `vis[u] = 1` and the read `adj[u]`,
mark `u` and make it a key. -/
theorem VisitKeys.of_enter (s : VisitState) (u : Int) (hu : s.vis.get u = false) :
    VisitKeys s
      { adj := s.adj.index u, vis := s.vis.assign u true, cnt_vis := s.cnt_vis + 1 } := by
  refine ⟨fun k h => ?_, fun k => ?_⟩
  · show (s.vis.assign u true).get k = true
    rw [VisMap.get_assign]
    split
    · rfl
    · exact h
  · show (s.adj.index u).hasKey k = true ↔
      (s.adj.hasKey k = true ∨ ((s.vis.assign u true).get k = true ∧ s.vis.get k = false))
    rw [AdjMap.hasKey_index, VisMap.get_assign]
    simp only [Bool.or_eq_true, beq_iff_eq]
    by_cases hk : k = u
    · subst hk
      simp [hu]
    · have hk' : ¬ u = k := fun e => hk e.symm
      simp only [hk, hk', if_false, or_false]
      constructor
      · intro h; exact Or.inl h
      · rintro (h | ⟨h1, h2⟩)
        · exact h
        · rw [h1] at h2; cases h2

theorem visitList_keys (n : Nat)
    (hd : ∀ u s s', visit n u s = .ok s' → s.vis.get u = false → VisitKeys s s') :
    ∀ (l : List Int) (s s' : VisitState),
      l.foldlM
        (fun s v =>
          if s.vis.get v = true then
            (pure { s with vis := s.vis.index v } : Except Fault VisitState)
          else visit n v { s with vis := s.vis.index v }) s = .ok s' →
      VisitKeys s s' := by
  intro l
  induction l with
  | nil =>
    intro s s' h
    cases h
    exact VisitKeys.keys_refl s
  | cons v l ih =>
    intro s s' h
    obtain ⟨s1, h1, h2⟩ := foldlM_cons_ok _ v l s s' h
    have hk1 : VisitKeys s s1 := by
      by_cases hg : s.vis.get v = true
      · rw [if_pos hg] at h1
        cases h1
        exact VisitKeys.of_index s v
      · rw [if_neg hg] at h1
        have hv : (VisMap.index s.vis v).get v = false := by
          rw [VisMap.get_index]
          cases hb : s.vis.get v with
          | false => rfl
          | true => exact absurd hb hg
        have hf := hd v { s with vis := s.vis.index v } s1 h1 hv
        exact (VisitKeys.of_index s v).keys_trans hf
    exact hk1.keys_trans (ih s1 s' h2)

/-- A call of `visit` on a vertex not yet marked adds as keys exactly the
vertices it marks. -/
theorem visit_keys :
    ∀ n u s s', visit n u s = .ok s' → s.vis.get u = false → VisitKeys s s' := by
  intro n
  induction n with
  | zero => intro u s s' h; rw [visit_zero] at h; cases h
  | succ n ih =>
    intro u s s' h hu
    rw [visit_succ] at h
    exact (VisitKeys.of_enter s u hu).keys_trans (visitList_keys n ih _ _ _ h)

/-- On every graph the call `visit(src)` of `visits_all` returns with a state
`s`; the vertices it has visited, those with `vis[k] = 1` in `s`, are the
vertices reachable from `src`, and the keys it leaves are the keys it found
plus exactly these vertices. `V`, `E`, the edges and the successor sequences
are kept. -/
theorem visits_all_keys (G : Graph) (src : Int) :
    ∃ s : VisitState,
      visit (edgeCount G.adj + 1) src
        { adj := G.adj,
          vis := G.adj.foldl (fun vis p => VisMap.assign vis p.1 false) ([] : VisMap),
          cnt_vis := 0 } = .ok s ∧
      G.visits_all src = .ok (decide (G.V = s.cnt_vis), { G with adj := s.adj }) ∧
      Frame G { G with adj := s.adj } ∧
      (G.adj.Ordered → s.adj.Ordered) ∧
      (∀ k, s.vis.get k = true ↔ Reach G.adj.find src k) ∧
      (∀ k, s.adj.hasKey k = true ↔ (G.adj.hasKey k = true ∨ s.vis.get k = true)) ∧
      ∀ k, s.adj.hasKey k = true ↔ (G.adj.hasKey k = true ∨ Reach G.adj.find src k) := by
  let U : Finset Int := insert src (G.adj.edges.map Prod.snd).toFinset
  have hU : ∀ x ∈ U, ∀ v ∈ G.adj.find x, v ∈ U := by
    intro x _ v hv
    simp only [U, Finset.mem_insert, List.mem_toFinset, List.mem_map]
    exact Or.inr ⟨(x, v), AdjMap.mem_edges_of_mem_find G.adj x v hv, rfl⟩
  have hcard : (U \ ([] : List Int).toFinset).card ≤ edgeCount G.adj + 1 := by
    simp only [List.toFinset_nil, Finset.sdiff_empty, U]
    refine le_trans (Finset.card_insert_le _ _) ?_
    have := List.toFinset_card_le (G.adj.edges.map Prod.snd)
    rw [List.length_map, AdjMap.length_edges] at this
    omega
  obtain ⟨a', ha'⟩ := dfs_terminates G.adj.find U hU (edgeCount G.adj + 1) src ⟨[], []⟩
    (Finset.mem_insert_self _ _) (List.not_mem_nil _) hcard
  obtain ⟨pre, pst, he, hreach⟩ := dfs_shape _ _ _ _ _ ha' (List.not_mem_nil _)
  have hseen : a'.seen = pre ++ [src] := by simpa using he.seen_eq
  have hinit : ∀ x, VisMap.get
      (G.adj.foldl (fun vis p => VisMap.assign vis p.1 false) ([] : VisMap)) x = false :=
    fun x => VisMap.get_init G.adj [] x rfl
  have hr0 : VisitRel G.adj
      { adj := G.adj,
        vis := G.adj.foldl (fun vis p => VisMap.assign vis p.1 false) ([] : VisMap),
        cnt_vis := 0 } ⟨[], []⟩ := by
    refine ⟨?_, rfl, fun _ => rfl, rfl, fun h => h⟩
    intro x
    simp only [List.not_mem_nil, false_iff]
    rw [hinit x]
    simp
  obtain ⟨s, hs, hrs⟩ := visit_sim G.adj _ src _ _ a' hr0 ha'
  have hmem : ∀ v, v ∈ a'.seen ↔ Reach G.adj.find src v := by
    intro v
    constructor
    · intro hv
      rw [hseen] at hv
      exact hreach v hv
    · intro hv
      refine reach_of_closed G.adj.find a'.seen ?_ ?_ hv
      · intro w hw x hx
        rw [hseen] at hw
        exact he.closed w hw x hx
      · rw [hseen]; simp
  have hrun : G.visits_all src = .ok (decide (G.V = s.cnt_vis), { G with adj := s.adj }) := by
    rw [visits_all_eq, hs]
    rfl
  obtain ⟨-, hkeys⟩ := visit_keys _ _ _ _ hs (hinit src)
  have hmark : ∀ k, s.vis.get k = true ↔ Reach G.adj.find src k := by
    intro k
    rw [← hmem k, hrs.seen k]
  have hkey : ∀ k, s.adj.hasKey k = true ↔ (G.adj.hasKey k = true ∨ s.vis.get k = true) := by
    intro k
    rw [hkeys k]
    constructor
    · rintro (h | ⟨h, -⟩)
      · exact Or.inl h
      · exact Or.inr h
    · rintro (h | h)
      · exact Or.inl h
      · exact Or.inr ⟨h, hinit k⟩
  refine ⟨s, hs, hrun, visits_all_frame G src _ _ hrun, hrs.ordered, hmark, hkey, ?_⟩
  intro k
  rw [hkey k, hmark k]

end Graph

/-- Claim C18 fails: on the well-formed graph with one vertex and no edge the
adjacency map has no key before `getTopoSort` and the key `0` after it; the
same holds for `getViewPoint`, and `visits_all` from `0` inserts the key as
well. -/
theorem getTopoSort_inserts_key :
    (read_initial_graph 1 0 []).WellFormed ∧
    (read_initial_graph 1 0 []).adj.keys = [] ∧
    (read_initial_graph 1 0 []).getTopoSort
      = .ok ([0], { V := 1, E := 0, adj := [(0, [])] }) ∧
    AdjMap.keys [(0, [])] = [0] ∧
    (read_initial_graph 1 0 []).visits_all 0
      = .ok (true, { V := 1, E := 0, adj := [(0, [])] }) ∧
    getViewPoint (read_initial_graph 1 0 [])
      = .ok { result := -1, graph := { V := 1, E := 0, adj := [(0, [])] },
              visitsAllCalls := 0 } := by
  refine ⟨by decide, by decide, by decide, by decide, by decide, by decide⟩

/-- Claim C18 as amended. On a well-formed graph `getTopoSort`,
`getMetaGraph`, `visits_all` and `getViewPoint` return and leave `V`, `E`,
the sequence of edges and every successor sequence as they were, and remove
no key; they add keys, which carry an empty successor list. After
`getTopoSort`, after `getMetaGraph` and after `getViewPoint` the keys are the
keys before plus every vertex of `[0, V)`. After `visits_all` from `src` they
are the keys before plus the vertices the call has visited (`vis[k] = 1` in
the state `s` its lambda `visit` ends in), which are the vertices reachable
from `src`. The method `getSCCRoots` is `const`; it returns its count and
array and no graph. -/
theorem calls_keep_edges (G : Graph) (h : G.WellFormed) :
    (∃ stk G1, G.getTopoSort = .ok (stk, G1) ∧ Graph.Frame G G1 ∧
      (∀ k, G1.adj.hasKey k = true ↔ (G.adj.hasKey k = true ∨ InRange G.V k)) ∧
      ∃ cnt roots, G1.getSCCRoots stk = .ok (cnt, roots)) ∧
    (∃ GP G1, G.getMetaGraph = .ok (GP, G1) ∧ Graph.Frame G G1 ∧
      ∀ k, G1.adj.hasKey k = true ↔ (G.adj.hasKey k = true ∨ InRange G.V k)) ∧
    (∀ src, ∃ s : Graph.VisitState,
      Graph.visit (Graph.edgeCount G.adj + 1) src
        { adj := G.adj,
          vis := G.adj.foldl (fun vis p => VisMap.assign vis p.1 false) ([] : VisMap),
          cnt_vis := 0 } = .ok s ∧
      G.visits_all src = .ok (decide (G.V = s.cnt_vis), { G with adj := s.adj }) ∧
      Graph.Frame G { G with adj := s.adj } ∧
      (∀ k, s.vis.get k = true ↔ Reach G.adj.find src k) ∧
      (∀ k, s.adj.hasKey k = true ↔ (G.adj.hasKey k = true ∨ s.vis.get k = true))) ∧
    (∃ r, getViewPoint G = .ok r ∧ Graph.Frame G r.graph ∧
      ∀ k, r.graph.adj.hasKey k = true ↔ (G.adj.hasKey k = true ∨ InRange G.V k)) ∧
    (∀ k, G.adj.hasKey k = false → G.adj.find k = []) := by
  obtain ⟨stk, G1, s, GP, h1, ht, h2, hm, hc⟩ := Graph.getMetaGraph_cond G h
  obtain ⟨hf, hk⟩ := Graph.getTopoSort_frame G stk G1 h1
  have hk' : ∀ k, G1.adj.hasKey k = true ↔ (G.adj.hasKey k = true ∨ InRange G.V k) := by
    intro k
    rw [hk k, ht.mem k]
  refine ⟨⟨stk, G1, h1, hf, hk', _, _, h2⟩, ⟨GP, G1, hm, hf, hk'⟩, ?_, ?_,
    fun k hk0 => AdjMap.find_eq_nil_of_not_hasKey G.adj k hk0⟩
  · intro src
    obtain ⟨sv, hs, hv, hfr, -, hmark, hkey, -⟩ := Graph.visits_all_keys G src
    exact ⟨sv, hs, hv, hfr, hmark, hkey⟩
  · rw [getViewPoint_of_meta G GP G1 hm]
    by_cases hsrc : GP.getSourceSCC = -1
    · rw [if_pos hsrc]; exact ⟨_, rfl, hf, hk'⟩
    · rw [if_neg hsrc]
      obtain ⟨sv, -, hv, hf2, -, -, -, hkeys⟩ := Graph.visits_all_keys G1 GP.getSourceSCC
      have hin : InRange G.V GP.getSourceSCC :=
        (hc.vertex_root h (Graph.getSourceSCC_inv GP (hc.vertices_ne h) hsrc).1).1
      have hk2 : ∀ k, sv.adj.hasKey k = true ↔ (G.adj.hasKey k = true ∨ InRange G.V k) := by
        intro k
        rw [hkeys k, hk' k, reach_congr G.adj.find G1.adj.find ht.find]
        constructor
        · rintro (a | a)
          · exact a
          · exact Or.inr (h.reach_inRange hin a)
        · intro a; exact Or.inl a
      rw [hv]
      simp only [bind, Except.bind]
      split
      · exact ⟨_, rfl, hf.frame_trans hf2, hk2⟩
      · exact ⟨_, rfl, hf.frame_trans hf2, hk2⟩

theorem calls_keep_edges_witness :
    (read_initial_graph 4 4 [(0, 1), (1, 2), (2, 0), (0, 3)]).WellFormed ∧
    (∃ stk G1, (read_initial_graph 4 4 [(0, 1), (1, 2), (2, 0), (0, 3)]).getTopoSort
        = .ok (stk, G1) ∧
      Graph.Frame (read_initial_graph 4 4 [(0, 1), (1, 2), (2, 0), (0, 3)]) G1 ∧
      (∀ k, G1.adj.hasKey k = true ↔
        ((read_initial_graph 4 4 [(0, 1), (1, 2), (2, 0), (0, 3)]).adj.hasKey k = true ∨
          InRange (read_initial_graph 4 4 [(0, 1), (1, 2), (2, 0), (0, 3)]).V k)) ∧
      ∃ cnt roots, G1.getSCCRoots stk = .ok (cnt, roots)) ∧
    (∃ GP G1, (read_initial_graph 4 4 [(0, 1), (1, 2), (2, 0), (0, 3)]).getMetaGraph
        = .ok (GP, G1) ∧
      Graph.Frame (read_initial_graph 4 4 [(0, 1), (1, 2), (2, 0), (0, 3)]) G1 ∧
      ∀ k, G1.adj.hasKey k = true ↔
        ((read_initial_graph 4 4 [(0, 1), (1, 2), (2, 0), (0, 3)]).adj.hasKey k = true ∨
          InRange (read_initial_graph 4 4 [(0, 1), (1, 2), (2, 0), (0, 3)]).V k)) ∧
    (∀ src, ∃ s : Graph.VisitState,
      Graph.visit
        (Graph.edgeCount (read_initial_graph 4 4 [(0, 1), (1, 2), (2, 0), (0, 3)]).adj + 1) src
        { adj := (read_initial_graph 4 4 [(0, 1), (1, 2), (2, 0), (0, 3)]).adj,
          vis := (read_initial_graph 4 4 [(0, 1), (1, 2), (2, 0), (0, 3)]).adj.foldl
            (fun vis p => VisMap.assign vis p.1 false) ([] : VisMap),
          cnt_vis := 0 } = .ok s ∧
      (read_initial_graph 4 4 [(0, 1), (1, 2), (2, 0), (0, 3)]).visits_all src
        = .ok (decide ((read_initial_graph 4 4 [(0, 1), (1, 2), (2, 0), (0, 3)]).V = s.cnt_vis),
            { read_initial_graph 4 4 [(0, 1), (1, 2), (2, 0), (0, 3)] with adj := s.adj }) ∧
      Graph.Frame (read_initial_graph 4 4 [(0, 1), (1, 2), (2, 0), (0, 3)])
        { read_initial_graph 4 4 [(0, 1), (1, 2), (2, 0), (0, 3)] with adj := s.adj } ∧
      (∀ k, s.vis.get k = true ↔
        Reach (read_initial_graph 4 4 [(0, 1), (1, 2), (2, 0), (0, 3)]).adj.find src k) ∧
      (∀ k, s.adj.hasKey k = true ↔
        ((read_initial_graph 4 4 [(0, 1), (1, 2), (2, 0), (0, 3)]).adj.hasKey k = true ∨
          s.vis.get k = true))) ∧
    (∃ r, getViewPoint (read_initial_graph 4 4 [(0, 1), (1, 2), (2, 0), (0, 3)]) = .ok r ∧
      Graph.Frame (read_initial_graph 4 4 [(0, 1), (1, 2), (2, 0), (0, 3)]) r.graph ∧
      ∀ k, r.graph.adj.hasKey k = true ↔
        ((read_initial_graph 4 4 [(0, 1), (1, 2), (2, 0), (0, 3)]).adj.hasKey k = true ∨
          InRange (read_initial_graph 4 4 [(0, 1), (1, 2), (2, 0), (0, 3)]).V k)) ∧
    (∀ k, (read_initial_graph 4 4 [(0, 1), (1, 2), (2, 0), (0, 3)]).adj.hasKey k = false →
      (read_initial_graph 4 4 [(0, 1), (1, 2), (2, 0), (0, 3)]).adj.find k = []) :=
  ⟨by decide,
    calls_keep_edges (read_initial_graph 4 4 [(0, 1), (1, 2), (2, 0), (0, 3)]) (by decide)⟩

end ViewPoint

namespace ViewPoint

/-! ## The result depends on `V` and the successor sequences only -/

theorem Before.antisymm {l : List Int} (hnd : l.Nodup) {a b : Int} (h1 : Before l a b)
    (h2 : Before l b a) : a = b := by
  obtain ⟨p, q, e, hb⟩ := h1
  rcases List.mem_cons.1 hb with hb | hb
  · exact hb.symm
  · subst e
    rcases Before.eq_or_mem_prefix hnd h2 with e' | hp
    · exact e'.symm
    · exfalso
      have := (List.nodup_append.1 hnd).2.2 hp (List.mem_cons_of_mem _ hb)
      exact this

namespace Graph

/-- The stack of `getTopoSort` is the list of left vertices of the reference
traversal over the successor function. -/
theorem getTopoSort_ref (G : Graph) (succ : Int → List Int)
    (hfind : ∀ x, G.adj.find x = succ x) (hV : 0 ≤ G.V) (hord : G.adj.Ordered)
    (hrange : ∀ x, ∀ v ∈ succ x, InRange G.V v) :
    ∃ a' G1, dfsList succ G.V.toNat ((List.range G.V.toNat).map Int.ofNat) ⟨[], []⟩ = some a' ∧
      G.getTopoSort = .ok (a'.done, G1) := by
  let L := (List.range G.V.toNat).map Int.ofNat
  have hU : ∀ x ∈ L.toFinset, ∀ v ∈ succ x, v ∈ L.toFinset := by
    intro x _ v hv
    rw [List.mem_toFinset, mem_vertexRange]
    exact hrange x v hv
  have hcard : (L.toFinset \ ([] : List Int).toFinset).card ≤ G.V.toNat := by
    simp only [List.toFinset_nil, Finset.sdiff_empty]
    refine le_trans (List.toFinset_card_le L) ?_
    simp [L]
  obtain ⟨a', ha'⟩ := dfsList_terminates succ L.toFinset hU G.V.toNat L
    ⟨[], []⟩ (fun v hv => List.mem_toFinset.2 hv) hcard
  have hr0 : TopoRel succ G.V G.adj.edges
      { adj := G.adj, vis := List.replicate G.V.toNat false, stk := [] } ⟨[], []⟩ := by
    refine ⟨?_, ?_, rfl, hfind, hord, rfl⟩
    · simp only [List.length_replicate]; omega
    · intro x
      simp only [List.not_mem_nil, false_iff]
      exact not_marked_replicate _ x
  obtain ⟨s', hs', hr'⟩ := topo_sim_list succ G.V G.adj.edges G.V.toNat
    (topo_sim succ G.V G.adj.edges hrange G.V.toNat) L _ _ a'
    (fun v hv => (mem_vertexRange G.V v).1 hv) hr0 ha'
  refine ⟨a', { G with adj := s'.adj }, ha', ?_⟩
  rw [getTopoSort_eq]
  unfold vecMake
  rw [if_pos hV]
  simp only [bind, Except.bind]
  simp only [bind, Except.bind] at hs'
  rw [hs', ← hr'.stk]
  rfl

theorem RootsInv.first_member {succ succT : Int → List Int} {V : Int} {L : List Int}
    {s : RootsState} (hinv : RootsInv succ succT V L L s) (hmem : ∀ x, x ∈ L ↔ InRange V x)
    {x y : Int} (hx : InRange V x) (hxy : Mutual succ x y) :
    Before L (rootOf s.roots x) y := by
  have mx := hinv.popped x ((hmem x).2 hx)
  have my := hinv.sccClosed x y mx hxy
  obtain ⟨r, h1, -, -, h4⟩ := hinv.rooted y my
  have hc := hinv.canon x y mx hxy
  rw [h1] at hc
  rw [arrGet_eq_rootOf s.roots x r hc]
  exact h4

/-- Two runs of the loop of `getSCCRoots` over the same stack and the same
successor function write the same roots. -/
theorem RootsInv.unique {succ succT succT' : Int → List Int} {V : Int} {L : List Int}
    {s s' : RootsState} (hnd : L.Nodup) (hmem : ∀ x, x ∈ L ↔ InRange V x)
    (h1 : RootsInv succ succT V L L s) (h2 : RootsInv succ succT' V L L s') :
    s.roots = s'.roots ∧ s.root_cnt = s'.root_cnt := by
  have hroots : s.roots = s'.roots := by
    have hlen : s.roots.length = s'.roots.length := by
      have a := h1.rlen
      have b := h2.rlen
      omega
    apply List.ext_getElem hlen
    intro i hi hi'
    have hx : InRange V (i : Int) := by
      have a := h1.rlen
      unfold InRange
      omega
    obtain ⟨a1, m1, -, -⟩ := h1.rootOf_spec hmem hx
    obtain ⟨a2, m2, -, -⟩ := h2.rootOf_spec hmem hx
    have b12 := h1.first_member hmem hx m2
    have b21 := h2.first_member hmem hx m1
    have e := Before.antisymm hnd b12 b21
    have g1 := (arrGet_ok_inv _ _ _ a1).2
    have g2 := (arrGet_ok_inv _ _ _ a2).2
    simp only [Int.toNat_ofNat, List.getD_eq_getElem?_getD, List.getElem?_eq_getElem hi,
      Option.getD_some] at g1
    simp only [Int.toNat_ofNat, List.getD_eq_getElem?_getD, List.getElem?_eq_getElem hi',
      Option.getD_some] at g2
    rw [g1, g2, e]
  refine ⟨hroots, ?_⟩
  rw [h1.root_cnt_eq hmem, h2.root_cnt_eq hmem, hroots]

/-- On two well-formed graphs with the same `V`, the same edges and the same
successor sequences `getViewPoint` returns the same result. -/
theorem getViewPoint_congr (G G' : Graph) (h : G.WellFormed) (h' : G'.WellFormed)
    (hV : G'.V = G.V) (hf : ∀ x, G'.adj.find x = G.adj.find x)
    (he : G'.adj.edges = G.adj.edges) :
    ∃ r r', getViewPoint G = .ok r ∧ getViewPoint G' = .ok r' ∧ r'.result = r.result ∧
      r'.visitsAllCalls = r.visitsAllCalls := by
  obtain ⟨stk, G1, s, GP, h1, ht, h2, hinv, hm, hs⟩ := getMetaGraph_run G h
  obtain ⟨stk', G1', s', GP', h1', ht', h2', hinv', hm', hs'⟩ := getMetaGraph_run G' h'
  have hfun : G'.adj.find = G.adj.find := funext hf
  -- the same stack
  have hstk : stk' = stk := by
    obtain ⟨a, Ga, ha1, ha2⟩ := getTopoSort_ref G G.adj.find (fun _ => rfl) h.1 h.2.1
      h.succ_inRange
    obtain ⟨a', Ga', ha1', ha2'⟩ := getTopoSort_ref G' G.adj.find hf h'.1 h'.2.1
      (by rw [hV]; exact h.succ_inRange)
    rw [hV, ha1] at ha1'
    cases ha1'
    rw [h1] at ha2
    rw [h1'] at ha2'
    cases ha2
    cases ha2'
    rfl
  subst hstk
  -- the same roots
  rw [hfun, hV] at hinv'
  obtain ⟨er, ec⟩ := RootsInv.unique ht.nodup ht.mem hinv hinv'
  -- the same condensation
  have hGP : GP' = GP := by
    have e1 := getMetaGraph_eq G
    have e2 := getMetaGraph_eq G'
    rw [h1] at e1
    rw [h1'] at e2
    simp only [bind, Except.bind, h2, h2'] at e1 e2
    rw [ht'.edges, he, ← ht.edges, ← er, ← ec] at e2
    rw [hm] at e1
    rw [hm'] at e2
    cases hfold : List.foldlM (fun gp e => metaStep s.roots gp e.1 e.2)
        ({ V := s.root_cnt, E := 0, adj := [] } : Graph) G1.adj.edges with
    | error e =>
      rw [hfold] at e1; cases e1
    | ok gp =>
      rw [hfold] at e1 e2
      simp only [pure, Except.pure, Except.ok.injEq, Prod.mk.injEq] at e1 e2
      rw [e1.1, e2.1]
  subst hGP
  rw [getViewPoint_of_meta G GP' G1 hm, getViewPoint_of_meta G' GP' G1' hm']
  by_cases hsrc : GP'.getSourceSCC = -1
  · rw [if_pos hsrc, if_pos hsrc]
    exact ⟨_, _, rfl, rfl, rfl, rfl⟩
  · rw [if_neg hsrc, if_neg hsrc]
    obtain ⟨sv, -, hv, -⟩ := visits_all_run G1 GP'.getSourceSCC
    obtain ⟨Gb, hv'⟩ := visits_all_congr G1 G1' (by rw [ht.V_eq, ht'.V_eq, hV])
      (fun x => by rw [ht.find, ht'.find, hf]) _ _ _ hv
    rw [hv, hv']
    simp only [bind, Except.bind]
    split
    · exact ⟨_, _, rfl, rfl, rfl, rfl⟩
    · exact ⟨_, _, rfl, rfl, rfl, rfl⟩

theorem Frame.wellFormed {G G' : Graph} (hf : Frame G G') (h : G.WellFormed)
    (ho : G'.adj.Ordered) : G'.WellFormed := by
  refine ⟨by rw [hf.1]; exact h.1, ho, ?_⟩
  rw [hf.2.2.1, hf.1]
  exact h.2.2

end Graph

end ViewPoint

namespace ViewPoint

namespace Graph

/-- On a well-formed graph `getViewPoint` returns and leaves a well-formed
graph with the same `V`, edges and successor sequences. -/
theorem getViewPoint_graph (G : Graph) (h : G.WellFormed) :
    ∃ r, getViewPoint G = .ok r ∧ Frame G r.graph ∧ r.graph.WellFormed := by
  obtain ⟨stk, G1, s, GP, h1, ht, -, -, hm, -⟩ := getMetaGraph_run G h
  obtain ⟨hf, -⟩ := getTopoSort_frame G stk G1 h1
  rw [getViewPoint_of_meta G GP G1 hm]
  by_cases hsrc : GP.getSourceSCC = -1
  · rw [if_pos hsrc]
    exact ⟨_, rfl, hf, hf.wellFormed h ht.ordered⟩
  · rw [if_neg hsrc]
    obtain ⟨sv, -, hv, -, -, -, -, -, ho⟩ := visits_all_run G1 GP.getSourceSCC
    have hf2 := (visits_all_frame G1 _ _ _ hv)
    rw [hv]
    simp only [bind, Except.bind]
    split
    · exact ⟨_, rfl, hf.frame_trans hf2, (hf.frame_trans hf2).wellFormed h (ho ht.ordered)⟩
    · exact ⟨_, rfl, hf.frame_trans hf2, (hf.frame_trans hf2).wellFormed h (ho ht.ordered)⟩

end Graph

/-- Claim C17. On a well-formed graph, a call of `getViewPoint` followed by a
second call on the graph object as the first call left it gives the same
result both times. -/
theorem getViewPoint_twice (G : Graph) (h : G.WellFormed) :
    ∃ r1 r2, getViewPoint G = .ok r1 ∧ getViewPoint r1.graph = .ok r2 ∧
      r2.result = r1.result := by
  obtain ⟨r1, hr1, hf, hwf⟩ := Graph.getViewPoint_graph G h
  obtain ⟨r, r', e1, e2, e3, -⟩ := Graph.getViewPoint_congr G r1.graph h hwf hf.1
    hf.2.2.2.1 hf.2.2.1
  rw [hr1] at e1
  cases e1
  exact ⟨r1, r', hr1, e2, e3⟩

theorem getViewPoint_twice_witness :
    (read_initial_graph 4 4 [(0, 1), (1, 2), (2, 0), (0, 3)]).WellFormed ∧
    ∃ r1 r2, getViewPoint (read_initial_graph 4 4 [(0, 1), (1, 2), (2, 0), (0, 3)]) = .ok r1 ∧
      getViewPoint r1.graph = .ok r2 ∧ r2.result = r1.result :=
  ⟨by decide,
    getViewPoint_twice (read_initial_graph 4 4 [(0, 1), (1, 2), (2, 0), (0, 3)]) (by decide)⟩

end ViewPoint

namespace ViewPoint

/-! ## What stops a run is never the fuel -/

theorem Fault.BadAccess.ne_outOfFuel {f : Fault} (h : f.BadAccess) : f ≠ Fault.outOfFuel := by
  rcases h with h | h | h <;> rw [h] <;> decide

theorem Fault.BadAccess.ne_emptyFront {f : Fault} (h : f.BadAccess) : f ≠ Fault.emptyFront := by
  rcases h with h | h | h <;> rw [h] <;> decide

theorem count_false_set (vis : List Bool) :
    ∀ (i : Nat), i < vis.length → vis.getD i false = false →
      (vis.set i true).count false + 1 = vis.count false := by
  induction vis with
  | nil => intro i hi; simp at hi
  | cons b vis ih =>
    intro i hi hf
    cases i with
    | zero =>
      simp only [List.getD_cons_zero] at hf
      subst hf
      simp [List.set]
    | succ i =>
      simp only [List.getD_cons_succ] at hf
      have := ih i (by simpa using hi) hf
      cases b <;> simp [List.set, List.count_cons] <;> omega

theorem vecGet_false_inv (vis : List Bool) (u : Int) (h : vecGet vis u = .ok false) :
    InRange vis.length u ∧ vis.getD u.toNat false = false := by
  unfold vecGet at h
  by_cases hu : 0 ≤ u ∧ u < (vis.length : Int)
  · rw [if_pos hu] at h
    exact ⟨hu, Except.ok.inj h⟩
  · rw [if_neg hu] at h; cases h

theorem vecGet_error (vis : List Bool) (u : Int) (f : Fault) (h : vecGet vis u = .error f) :
    f = .outOfBounds := by
  unfold vecGet at h
  split at h
  · cases h
  · cases h; rfl

theorem count_after_mark (vis : List Bool) (u : Int) (h : vecGet vis u = .ok false) :
    vecSet vis u true = .ok (vis.set u.toNat true) ∧
      (vis.set u.toNat true).count false + 1 = vis.count false := by
  obtain ⟨hr, hg⟩ := vecGet_false_inv vis u h
  refine ⟨vecSet_of_inRange vis u true hr, count_false_set vis u.toNat ?_ hg⟩
  unfold InRange at hr
  omega

theorem foldlM_cons_error {α β : Type} (f : α → β → Except Fault α) (b : β) (l : List β)
    (a : α) (e : Fault) (h : f a b = .error e) : (b :: l).foldlM f a = .error e := by
  rw [List.foldlM_cons, h]
  rfl

theorem foldlM_cons_step {α β : Type} (f : α → β → Except Fault α) (b : β) (l : List β)
    (a a1 : α) (h : f a b = .ok a1) : (b :: l).foldlM f a = l.foldlM f a1 := by
  rw [List.foldlM_cons, h]
  rfl

namespace Graph

theorem topoList_fuel (n : Nat)
    (hd : ∀ u s, vecGet s.vis u = .ok false → s.vis.count false ≤ n →
      (∃ s', buildTopo n u s = .ok s' ∧ s'.vis.count false < s.vis.count false) ∨
      (∃ f, buildTopo n u s = .error f ∧ f.BadAccess)) :
    ∀ (l : List Int) (s : TopoState), s.vis.count false ≤ n →
      (∃ s', l.foldlM
          (fun s v => do
            if !(← vecGet s.vis v) then buildTopo n v s else pure s) s = .ok s' ∧
        s'.vis.count false ≤ s.vis.count false) ∨
      (∃ f, l.foldlM
          (fun s v => do
            if !(← vecGet s.vis v) then buildTopo n v s else pure s) s = .error f ∧
        f.BadAccess) := by
  intro l
  induction l with
  | nil => intro s _; exact Or.inl ⟨s, rfl, le_refl _⟩
  | cons v l ih =>
    intro s hs
    cases hv : vecGet s.vis v with
    | error e =>
      right
      refine ⟨e, foldlM_cons_error _ v l s e ?_, ?_⟩
      · rw [hv]; rfl
      · rw [vecGet_error _ _ _ hv]; decide
    | ok b =>
      cases b with
      | true =>
        rw [foldlM_cons_step _ v l s s (by rw [topoBody_eq n s v true hv]; rfl)]
        exact ih s hs
      | false =>
        rcases hd v s hv hs with ⟨s1, h1, hlt⟩ | ⟨f, h1, hf⟩
        · rw [foldlM_cons_step _ v l s s1 (by rw [topoBody_eq n s v false hv]; exact h1)]
          rcases ih s1 (by omega) with ⟨s', h2, hle⟩ | ⟨f, h2, hf⟩
          · exact Or.inl ⟨s', h2, by omega⟩
          · exact Or.inr ⟨f, h2, hf⟩
        · right
          exact ⟨f, foldlM_cons_error _ v l s f
            (by rw [topoBody_eq n s v false hv]; exact h1), hf⟩

theorem buildTopo_fuel :
    ∀ n u s, vecGet s.vis u = .ok false → s.vis.count false ≤ n →
      (∃ s', buildTopo n u s = .ok s' ∧ s'.vis.count false < s.vis.count false) ∨
      (∃ f, buildTopo n u s = .error f ∧ f.BadAccess) := by
  intro n
  induction n with
  | zero =>
    intro u s hu hs
    have := (count_after_mark s.vis u hu).2
    omega
  | succ n ih =>
    intro u s hu hs
    obtain ⟨hset, hcnt⟩ := count_after_mark s.vis u hu
    rw [buildTopo_succ, hset]
    rcases topoList_fuel n ih ((s.adj.index u).find u)
        { s with vis := s.vis.set u.toNat true, adj := s.adj.index u }
        (by simp only; omega) with ⟨s2, h2, hle⟩ | ⟨f, h2, hf⟩
    · left
      refine ⟨{ s2 with stk := u :: s2.stk }, ?_, ?_⟩
      · simp only [bind, Except.bind]
        simp only [bind, Except.bind] at h2
        rw [h2]
        rfl
      · simp only at hle ⊢
        omega
    · right
      refine ⟨f, ?_, hf⟩
      simp only [bind, Except.bind]
      simp only [bind, Except.bind] at h2
      rw [h2]

/-- On any graph, when `getTopoSort` does not return, the reason is an index
outside `vis` or a negative `V`, never exhausted fuel. -/
theorem getTopoSort_fuel (G : Graph) (f : Fault) (h : G.getTopoSort = .error f) :
    f.BadAccess := by
  rw [getTopoSort_eq] at h
  unfold vecMake at h
  by_cases hV : 0 ≤ G.V
  · rw [if_pos hV] at h
    rcases topoList_fuel G.V.toNat (buildTopo_fuel G.V.toNat)
        ((List.range G.V.toNat).map Int.ofNat)
        { adj := G.adj, vis := List.replicate G.V.toNat false, stk := [] }
        (by simp) with ⟨s', h2, -⟩ | ⟨f', h2, hf⟩
    · simp only [bind, Except.bind] at h h2
      rw [h2] at h
      cases h
    · simp only [bind, Except.bind] at h h2
      rw [h2] at h
      cases h
      exact hf
  · rw [if_neg hV] at h
    cases h
    decide

end Graph

end ViewPoint

namespace ViewPoint

theorem arrSet_ok_length (roots roots' : List (Option Int)) (u r : Int)
    (h : arrSet roots u r = .ok roots') : roots'.length = roots.length := by
  unfold arrSet at h
  split at h
  · cases h; simp
  · cases h

theorem arrSet_error (roots : List (Option Int)) (u r : Int) (f : Fault)
    (h : arrSet roots u r = .error f) : f = .outOfBounds := by
  unfold arrSet at h
  split at h
  · cases h
  · cases h; rfl

theorem arrSet_fold_cases (root : Int) :
    ∀ (comp : List Int) (roots : List (Option Int)),
      (∃ roots', comp.foldlM (fun roots w => arrSet roots w root) roots = .ok roots' ∧
        roots'.length = roots.length) ∨
      comp.foldlM (fun roots w => arrSet roots w root) roots = .error .outOfBounds := by
  intro comp
  induction comp with
  | nil => intro roots; exact Or.inl ⟨roots, rfl, rfl⟩
  | cons w comp ih =>
    intro roots
    cases h1 : arrSet roots w root with
    | error e =>
      right
      rw [foldlM_cons_error _ w comp roots e h1, arrSet_error _ _ _ _ h1]
    | ok roots1 =>
      rw [foldlM_cons_step _ w comp roots roots1 h1]
      rcases ih roots1 with ⟨roots', h2, hl⟩ | h2
      · exact Or.inl ⟨roots', h2, hl.trans (arrSet_ok_length _ _ _ _ h1)⟩
      · exact Or.inr h2

namespace Graph

theorem sccList_fuel (n : Nat)
    (hd : ∀ u s, vecGet s.vis u = .ok false → s.vis.count false ≤ n →
      (∃ s', buildGraph n u s = .ok s' ∧ s'.vis.count false < s.vis.count false ∧
        s'.component ≠ []) ∨
      (∃ f, buildGraph n u s = .error f ∧ f.BadAccess)) :
    ∀ (l : List Int) (s : SccState), s.vis.count false ≤ n →
      (∃ s', l.foldlM
          (fun s v => do
            if !(← vecGet s.vis v) then buildGraph n v s else pure s) s = .ok s' ∧
        s'.vis.count false ≤ s.vis.count false ∧
        (s.component ≠ [] → s'.component ≠ [])) ∨
      (∃ f, l.foldlM
          (fun s v => do
            if !(← vecGet s.vis v) then buildGraph n v s else pure s) s = .error f ∧
        f.BadAccess) := by
  intro l
  induction l with
  | nil => intro s _; exact Or.inl ⟨s, rfl, le_refl _, fun h => h⟩
  | cons v l ih =>
    intro s hs
    cases hv : vecGet s.vis v with
    | error e =>
      right
      refine ⟨e, foldlM_cons_error _ v l s e ?_, ?_⟩
      · rw [hv]; rfl
      · rw [vecGet_error _ _ _ hv]; decide
    | ok b =>
      cases b with
      | true =>
        rw [foldlM_cons_step _ v l s s (by rw [sccBody_eq n s v true hv]; rfl)]
        exact ih s hs
      | false =>
        rcases hd v s hv hs with ⟨s1, h1, hlt, hne1⟩ | ⟨f, h1, hf⟩
        · rw [foldlM_cons_step _ v l s s1 (by rw [sccBody_eq n s v false hv]; exact h1)]
          rcases ih s1 (by omega) with ⟨s', h2, hle, hne⟩ | ⟨f, h2, hf⟩
          · exact Or.inl ⟨s', h2, by omega, fun _ => hne hne1⟩
          · exact Or.inr ⟨f, h2, hf⟩
        · right
          exact ⟨f, foldlM_cons_error _ v l s f
            (by rw [sccBody_eq n s v false hv]; exact h1), hf⟩

theorem buildGraph_fuel :
    ∀ n u s, vecGet s.vis u = .ok false → s.vis.count false ≤ n →
      (∃ s', buildGraph n u s = .ok s' ∧ s'.vis.count false < s.vis.count false ∧
        s'.component ≠ []) ∨
      (∃ f, buildGraph n u s = .error f ∧ f.BadAccess) := by
  intro n
  induction n with
  | zero =>
    intro u s hu hs
    have := (count_after_mark s.vis u hu).2
    omega
  | succ n ih =>
    intro u s hu hs
    obtain ⟨hset, hcnt⟩ := count_after_mark s.vis u hu
    rw [buildGraph_succ, hset]
    rcases sccList_fuel n ih ((s.adjT.index u).find u)
        { adjT := s.adjT.index u, vis := s.vis.set u.toNat true,
          component := s.component ++ [u] }
        (by simp only; omega) with ⟨s2, h2, hle, hne⟩ | ⟨f, h2, hf⟩
    · left
      refine ⟨s2, h2, ?_, hne (by simp)⟩
      simp only at hle
      omega
    · right
      exact ⟨f, h2, hf⟩

theorem sccLoop_fuel (fuel : Nat) :
    ∀ (stk : List Int) (s : RootsState), s.vis.count false ≤ fuel →
      (∃ s', sccLoop fuel stk s = .ok s' ∧ s'.roots.length = s.roots.length) ∨
      (∃ f, sccLoop fuel stk s = .error f ∧ f.BadAccess) := by
  intro stk
  induction stk with
  | nil => intro s _; exact Or.inl ⟨s, rfl, rfl⟩
  | cons u stk ih =>
    intro s hs
    cases hv : vecGet s.vis u with
    | error e =>
      right
      refine ⟨e, ?_, ?_⟩
      · rw [sccLoop, hv]; rfl
      · rw [vecGet_error _ _ _ hv]; decide
    | ok seen =>
      cases seen with
      | true =>
        rw [sccLoop_cons_marked fuel u stk s hv]
        exact ih s hs
      | false =>
        rcases buildGraph_fuel fuel u { adjT := s.adjT, vis := s.vis, component := [] } hv hs
          with ⟨b, hb, hlt, hne⟩ | ⟨f, hb, hf⟩
        · cases hc : b.component with
          | nil => exact absurd hc hne
          | cons r rest =>
            rcases arrSet_fold_cases r b.component s.roots with ⟨roots', hr, hl⟩ | hr
            · rw [sccLoop_cons_fresh fuel u stk s b r rest roots' hv hb hc hr]
              have hnext := ih
                { adjT := b.adjT, vis := b.vis, roots := roots', root_cnt := s.root_cnt + 1 }
                (by simp only at hlt ⊢; omega)
              rcases hnext with ⟨s', h2, hl2⟩ | ⟨f, h2, hf⟩
              · exact Or.inl ⟨s', h2, hl2.trans hl⟩
              · exact Or.inr ⟨f, h2, hf⟩
            · right
              refine ⟨Fault.outOfBounds, ?_, by decide⟩
              rw [sccLoop, hv]
              simp only [bind, Except.bind, Bool.false_eq_true, if_false, hb]
              rw [hc] at hr ⊢
              simp only [pure, Except.pure, hr]
        · right
          refine ⟨f, ?_, hf⟩
          rw [sccLoop, hv]
          simp only [bind, Except.bind, Bool.false_eq_true, if_false, hb]

/-- On any graph, `getSCCRoots` either returns an array of `V` cells or stops
at an index outside `vis` or `roots` or at a negative `V`; neither exhausted
fuel nor `front()` of an empty `component` ever stops it. -/
theorem getSCCRoots_fuel (G : Graph) (stk : List Int) :
    (∃ cnt roots, G.getSCCRoots stk = .ok (cnt, roots) ∧ 0 ≤ G.V ∧
      roots.length = G.V.toNat) ∨
    (∃ f, G.getSCCRoots stk = .error f ∧ f.BadAccess) := by
  rw [getSCCRoots_eq]
  unfold vecMake arrMake
  by_cases hV : 0 ≤ G.V
  · simp only [if_pos hV, bind, Except.bind]
    rcases sccLoop_fuel G.V.toNat stk
        { adjT := G.getTranspose.adj, vis := List.replicate G.V.toNat false,
          roots := List.replicate G.V.toNat none, root_cnt := 0 } (by simp)
      with ⟨s', h2, hl⟩ | ⟨f, h2, hf⟩
    · left
      rw [h2]
      refine ⟨s'.root_cnt, s'.roots, rfl, hV, ?_⟩
      simpa using hl
    · right
      rw [h2]
      exact ⟨f, rfl, hf⟩
  · right
    simp only [if_neg hV, bind, Except.bind]
    exact ⟨Fault.lengthError, rfl, by decide⟩

end Graph

end ViewPoint

namespace ViewPoint

/-! ## Edge endpoints outside `[0, V)` -/

namespace AdjMap

theorem mem_edges_appendAt (m : AdjMap) (k v : Int) (hk : m.hasKey k = true)
    (e : Int × Int) : e ∈ (m.appendAt k v).edges ↔ e ∈ m.edges ∨ e = (k, v) := by
  induction m with
  | nil => simp [hasKey] at hk
  | cons p rest ih =>
    obtain ⟨k', l⟩ := p
    unfold appendAt
    by_cases hkk : k = k'
    · subst hkk
      rw [if_pos rfl, edges_cons, edges_cons]
      simp only [List.map_append, List.map_cons, List.map_nil, List.mem_append, List.mem_cons,
        List.not_mem_nil, or_false]
      tauto
    · rw [if_neg hkk, edges_cons, edges_cons]
      have hk' : hasKey rest k = true := by
        rw [hasKey_cons] at hk
        simp only [Bool.or_eq_true, beq_iff_eq] at hk
        rcases hk with h | h
        · exact absurd h.symm hkk
        · exact h
      simp only [List.mem_append, ih hk']
      tauto

theorem mem_edges_pushBack (m : AdjMap) (k v : Int) (e : Int × Int) :
    e ∈ (m.pushBack k v).edges ↔ e ∈ m.edges ∨ e = (k, v) := by
  unfold pushBack
  rw [mem_edges_appendAt _ _ _ (by rw [hasKey_index]; simp), edges_index]

theorem edges_appendAt_perm (m : AdjMap) (k v : Int) (hk : m.hasKey k = true) :
    (m.appendAt k v).edges.Perm (m.edges ++ [(k, v)]) := by
  induction m with
  | nil => simp [hasKey] at hk
  | cons p rest ih =>
    obtain ⟨k', l⟩ := p
    unfold appendAt
    by_cases hkk : k = k'
    · subst hkk
      rw [if_pos rfl, edges_cons, edges_cons, List.map_append, List.map_cons, List.map_nil,
        List.append_assoc, List.append_assoc]
      exact List.Perm.append_left _ List.perm_append_comm
    · rw [if_neg hkk, edges_cons, edges_cons, List.append_assoc]
      have hk' : hasKey rest k = true := by
        rw [hasKey_cons] at hk
        simp only [Bool.or_eq_true, beq_iff_eq] at hk
        rcases hk with h | h
        · exact absurd h.symm hkk
        · exact h
      exact List.Perm.append_left _ (ih hk')

theorem edges_pushBack_perm (m : AdjMap) (k v : Int) :
    (m.pushBack k v).edges.Perm (m.edges ++ [(k, v)]) := by
  unfold pushBack
  have h := edges_appendAt_perm (m.index k) k v (by rw [hasKey_index]; simp)
  rw [edges_index] at h
  exact h

end AdjMap

/-- The edges of the graph that `read_initial_graph` returns are the pairs
its loop has read. -/
theorem mem_edges_read_initial_graph (V E : Int) (es : List (Int × Int)) (e : Int × Int) :
    e ∈ (read_initial_graph V E es).adj.edges ↔ e ∈ es.take E.toNat := by
  unfold read_initial_graph
  simp only
  have key : ∀ (es : List (Int × Int)) (m : AdjMap),
      e ∈ (es.foldl (fun m e => m.pushBack e.1 e.2) m).edges ↔ e ∈ m.edges ∨ e ∈ es := by
    intro es
    induction es with
    | nil => intro m; simp
    | cons x es ih =>
      intro m
      rw [List.foldl_cons, ih, AdjMap.mem_edges_pushBack, List.mem_cons]
      constructor
      · rintro ((h | h) | h)
        · exact Or.inl h
        · exact Or.inr (Or.inl h)
        · exact Or.inr (Or.inr h)
      · rintro (h | h | h)
        · exact Or.inl (Or.inl h)
        · exact Or.inl (Or.inr h)
        · exact Or.inr h
  rw [key (es.take E.toNat) []]
  simp [AdjMap.edges]

theorem readLoop_spec :
    ∀ (es : List (Int × Int)) (m : AdjMap), m.Ordered →
      (es.foldl (fun m e => AdjMap.pushBack m e.1 e.2) m).Ordered ∧
      (∀ u, (es.foldl (fun m e => AdjMap.pushBack m e.1 e.2) m).find u
        = m.find u ++ (es.filter (fun e => decide (e.1 = u))).map Prod.snd) ∧
      (es.foldl (fun m e => AdjMap.pushBack m e.1 e.2) m).edges.Perm (m.edges ++ es) := by
  intro es
  induction es with
  | nil => intro m hm; exact ⟨hm, fun u => by simp, by simp⟩
  | cons x es ih =>
    intro m hm
    obtain ⟨ho, hf, hp⟩ := ih (m.pushBack x.1 x.2) (AdjMap.pushBack_ordered m x.1 x.2 hm)
    refine ⟨ho, fun u => ?_, ?_⟩
    · rw [List.foldl_cons, hf u, AdjMap.find_pushBack, List.filter_cons]
      by_cases hu : x.1 = u
      · subst hu
        simp
      · have hu' : ¬ u = x.1 := fun e => hu e.symm
        simp [hu, hu']
    · rw [List.foldl_cons]
      refine hp.trans ?_
      have h1 := (AdjMap.edges_pushBack_perm m x.1 x.2).append_right es
      rw [List.append_assoc] at h1
      exact h1

/-- The graph that `read_initial_graph` returns: its container is in key
order, the successor sequence of `u` lists the second numbers of the pairs
read that start with `u`, in the order of the file, and the edges are the
pairs read, each as often as it was read. -/
theorem read_initial_graph_spec (V E : Int) (es : List (Int × Int)) :
    (read_initial_graph V E es).adj.Ordered ∧
    (∀ u, (read_initial_graph V E es).adj.find u
      = ((es.take E.toNat).filter (fun e => decide (e.1 = u))).map Prod.snd) ∧
    (read_initial_graph V E es).adj.edges.Perm (es.take E.toNat) := by
  obtain ⟨ho, hf, hp⟩ := readLoop_spec (es.take E.toNat) [] List.Pairwise.nil
  refine ⟨ho, fun u => ?_, ?_⟩
  · have := hf u
    simpa [AdjMap.find] using this
  · have h := hp
    simpa [AdjMap.edges] using h

theorem arrGet_error (roots : List (Option Int)) (u : Int) (f : Fault)
    (h : arrGet roots u = .error f) : f.BadAccess := by
  unfold arrGet at h
  split at h
  · split at h
    · cases h
    · cases h; decide
  · cases h; decide

theorem arrGet_outside (roots : List (Option Int)) (u : Int)
    (h : ¬ InRange roots.length u) : arrGet roots u = .error .outOfBounds := by
  unfold arrGet
  unfold InRange at h
  rw [if_neg h]

namespace Graph

theorem metaStep_error_left (roots : List (Option Int)) (gp : Graph) (u v : Int) (f : Fault)
    (h : arrGet roots u = .error f) : metaStep roots gp u v = .error f := by
  unfold metaStep
  rw [h]
  rfl

theorem metaStep_error_right (roots : List (Option Int)) (gp : Graph) (u v ru : Int) (f : Fault)
    (hu : arrGet roots u = .ok ru) (h : arrGet roots v = .error f) :
    metaStep roots gp u v = .error f := by
  unfold metaStep
  rw [hu, h]
  rfl

/-- The body of the edge loop either returns or stops at a read of `roots`;
it stops when an endpoint is outside the array. -/
theorem metaStep_cases (roots : List (Option Int)) (gp : Graph) (u v : Int) :
    (∃ gp', metaStep roots gp u v = .ok gp' ∧
      InRange roots.length u ∧ InRange roots.length v) ∨
    (∃ f, metaStep roots gp u v = .error f ∧ f.BadAccess) := by
  cases hu : arrGet roots u with
  | error f => exact Or.inr ⟨f, metaStep_error_left roots gp u v f hu, arrGet_error _ _ _ hu⟩
  | ok ru =>
    cases hv : arrGet roots v with
    | error f =>
      exact Or.inr ⟨f, metaStep_error_right roots gp u v ru f hu hv, arrGet_error _ _ _ hv⟩
    | ok rv =>
      left
      rw [metaStep_eq roots gp u v ru rv hu hv]
      by_cases hne : ru = rv
      · rw [if_neg (by simpa using hne)]
        exact ⟨gp, rfl, (arrGet_ok_inv _ _ _ hu).1, (arrGet_ok_inv _ _ _ hv).1⟩
      · rw [if_pos hne]
        exact ⟨_, rfl, (arrGet_ok_inv _ _ _ hu).1, (arrGet_ok_inv _ _ _ hv).1⟩

theorem metaFold_bad (roots : List (Option Int)) :
    ∀ (es : List (Int × Int)) (gp : Graph),
      (∃ e ∈ es, ¬ (InRange roots.length e.1 ∧ InRange roots.length e.2)) →
      ∃ f, es.foldlM (fun gp e => metaStep roots gp e.1 e.2) gp = .error f ∧
        f.BadAccess := by
  intro es
  induction es with
  | nil => intro gp h; obtain ⟨e, he, -⟩ := h; exact absurd he (List.not_mem_nil _)
  | cons x es ih =>
    intro gp hbad
    rcases metaStep_cases roots gp x.1 x.2 with ⟨gp', h1, hr1, hr2⟩ | ⟨f, h1, hf⟩
    · rw [foldlM_cons_step _ x es gp gp' h1]
      apply ih gp'
      obtain ⟨e, he, hne⟩ := hbad
      rcases List.mem_cons.1 he with e' | he
      · subst e'; exact absurd ⟨hr1, hr2⟩ hne
      · exact ⟨e, he, hne⟩
    · exact ⟨f, foldlM_cons_error _ x es gp f h1, hf⟩

theorem getViewPoint_of_meta_error (G : Graph) (f : Fault)
    (h : G.getMetaGraph = .error f) : getViewPoint G = .error f := by
  unfold getViewPoint
  rw [h]
  rfl

/-- On any graph with an edge endpoint outside `[0, V)`, `getMetaGraph` stops
with a fault that is not exhausted fuel. -/
theorem getMetaGraph_bad (G : Graph)
    (hbad : ∃ e ∈ G.adj.edges, ¬ (InRange G.V e.1 ∧ InRange G.V e.2)) :
    ∃ f, G.getMetaGraph = .error f ∧ f.BadAccess := by
  rw [getMetaGraph_eq]
  cases h1 : G.getTopoSort with
  | error f => exact ⟨f, rfl, getTopoSort_fuel G f h1⟩
  | ok t =>
    obtain ⟨stk, G1⟩ := t
    obtain ⟨hfr, -⟩ := getTopoSort_frame G stk G1 h1
    simp only [bind, Except.bind]
    rcases getSCCRoots_fuel G1 stk with ⟨cnt, roots, h2, hV, hl⟩ | ⟨f, h2, hf⟩
    · rw [h2]
      simp only
      have hbad' : ∃ e ∈ G1.adj.edges,
          ¬ (InRange roots.length e.1 ∧ InRange roots.length e.2) := by
        obtain ⟨e, he, hne⟩ := hbad
        refine ⟨e, by rw [hfr.2.2.1]; exact he, ?_⟩
        have hlen : (roots.length : Int) = G.V := by rw [hl, ← hfr.1]; omega
        rw [hlen]
        exact hne
      obtain ⟨f, h3, hf⟩ := metaFold_bad roots G1.adj.edges
        { V := cnt, E := 0, adj := [] } hbad'
      rw [h3]
      exact ⟨f, rfl, hf⟩
    · rw [h2]
      exact ⟨f, rfl, hf⟩

end Graph

/-- Claim C15 fails: with `V = 1` and the single edge `5 → 7`, both endpoints
outside `[0, 1)`, nothing refuses the input. `read_initial_graph` builds the
graph, `getTopoSort` and `getSCCRoots` run to their end, and only then the edge
loop of `getMetaGraph` reads `roots[5]`, outside the array of one cell:
undefined behaviour, not a failure reported as `InvalidVertex`. -/
theorem getViewPoint_unchecked_endpoint :
    FileHolds 1 1 [(5, 7)] ∧
    ¬ (InRange 1 (5 : Int) ∧ InRange 1 (7 : Int)) ∧
    read_initial_graph 1 1 [(5, 7)] = { V := 1, E := 1, adj := [(5, [7])] } ∧
    (read_initial_graph 1 1 [(5, 7)]).getTopoSort
      = .ok ([0], { V := 1, E := 1, adj := [(0, []), (5, [7])] }) ∧
    Graph.getSCCRoots { V := 1, E := 1, adj := [(0, []), (5, [7])] } [0]
      = .ok (1, [some 0]) ∧
    arrGet [some 0] 5 = .error .outOfBounds ∧
    getViewPoint (read_initial_graph 1 1 [(5, 7)]) = .error .outOfBounds := by
  refine ⟨by decide, by decide, by decide, by decide, by decide, by decide, by decide⟩

/-- Claim C15 as amended. For every file that holds `V`, `E` and at least
`E` pairs, all of them values of `int`, in which one of the `E` pairs read has
an endpoint outside `[0, V)`: nothing validates the input. The function
`read_initial_graph` returns the graph with `V`, `E` and exactly the pairs
read as its edges, the offending pair among them, and `getViewPoint` starts on
it. Its run then reaches an index outside `vis` or `roots` or a read of a cell
of `roots` that was never written, which are undefined behaviour in C++, or,
when `V` is negative, the construction of a container of negative size, which
throws an exception that nothing catches. The embedding reports that operation
as a fault (`Fault.BadAccess`), which is never exhausted fuel; after undefined
behaviour the source fixes no return value. The hypothesis `FileHolds`
confines the statement to the files on which every extraction of
`read_initial_graph` succeeds. -/
theorem getViewPoint_bad_endpoint (V E : Int) (es : List (Int × Int))
    (_hfile : FileHolds V E es)
    (hbad : ∃ e ∈ es.take E.toNat, ¬ (InRange V e.1 ∧ InRange V e.2)) :
    (read_initial_graph V E es).V = V ∧ (read_initial_graph V E es).E = E ∧
    (read_initial_graph V E es).adj.edges.Perm (es.take E.toNat) ∧
    (∃ e ∈ (read_initial_graph V E es).adj.edges, ¬ (InRange V e.1 ∧ InRange V e.2)) ∧
    ∃ f, getViewPoint (read_initial_graph V E es) = .error f ∧ f.BadAccess := by
  obtain ⟨e, he, hne⟩ := hbad
  have hmem : e ∈ (read_initial_graph V E es).adj.edges :=
    (mem_edges_read_initial_graph V E es e).2 he
  refine ⟨rfl, rfl, (read_initial_graph_spec V E es).2.2, ⟨e, hmem, hne⟩, ?_⟩
  obtain ⟨f, hf1, hf2⟩ := Graph.getMetaGraph_bad (read_initial_graph V E es) ⟨e, hmem, hne⟩
  exact ⟨f, Graph.getViewPoint_of_meta_error _ f hf1, hf2⟩

theorem getViewPoint_bad_endpoint_witness :
    FileHolds 2 2 [(0, 1), (1, 2), (0, 0)] ∧
    (∃ e ∈ ([((0 : Int), (1 : Int)), (1, 2), (0, 0)]).take (2 : Int).toNat,
      ¬ (InRange 2 e.1 ∧ InRange 2 e.2)) ∧
    (read_initial_graph 2 2 [(0, 1), (1, 2), (0, 0)]).V = 2 ∧
    (read_initial_graph 2 2 [(0, 1), (1, 2), (0, 0)]).E = 2 ∧
    (read_initial_graph 2 2 [(0, 1), (1, 2), (0, 0)]).adj.edges.Perm
      (([((0 : Int), (1 : Int)), (1, 2), (0, 0)]).take (2 : Int).toNat) ∧
    (∃ e ∈ (read_initial_graph 2 2 [(0, 1), (1, 2), (0, 0)]).adj.edges,
      ¬ (InRange 2 e.1 ∧ InRange 2 e.2)) ∧
    ∃ f, getViewPoint (read_initial_graph 2 2 [(0, 1), (1, 2), (0, 0)]) = .error f ∧
      f.BadAccess :=
  ⟨by decide, by decide,
    getViewPoint_bad_endpoint 2 2 [(0, 1), (1, 2), (0, 0)] (by decide) (by decide)⟩

end ViewPoint
